import Mathlib

/-!
# Pyramid demodulator: peak tracker, classifier, packet assembler, symbol emitter

A shallow embedding of `lib/pyramid_demod_impl.cc` (class `pyramid_demod_impl`).

Conventions of the embedding.

* `float` values are rationals. Where the code computes with them (the height
  of a PREAMBLE peak, lines 280-285; the phase distance of the router, lines
  352-355; the distance of the emitter, lines 652-656) every operation is
  rounded to binary32 by `f32` (round to nearest, ties to even), and an
  overflow or a division by zero in the emitter gives an infinity of `XFloat`;
  the height sum of lines 280-285 is taken to stay in the finite range.
  Spectrum magnitudes and peak heights are otherwise only copied and compared,
  which is exact; the sums of the fold are taken exactly.
  `std::numeric_limits<float>::infinity()` is `none` of `Option ℚ` in the
  router and `XFloat.pinf` in the emitter.
* The product and quotient of line 665 are formed in `unsigned int` arithmetic
  (modulo `2^32`, `d_num_samples` being `unsigned int`) and the result is read
  as the `int bin_shift`.
* `unsigned int` values are natural numbers, differences handed to `pos_mod`
  are integers; `unsigned short` locals that receive a wider value
  (`len`, `l_idx`, `r_idx`, the elements of `symbols`) are reduced `% 65536`.
* `std::vector` and `std::deque` are lists; `v[i]` is `List.getD` with the peak
  `peak(0, 0, 0)` (resp. the empty vector) as filler, `push_back` appends at the
  end, `front`/`pop_front` take the head.
* `exit(-1)` and reading `front()` of an empty deque end the computation with a
  `Fault`; everything else returns normally. The definitions ending in `_ub`
  continue past that read, for any value it may yield.
* The dechirp/FFT/fold front end is not part of the embedding: one step
  receives the two folded magnitude spectra `fft_res_add`, `fft_res_add_w`.
* `pos_mod`, `TIMESTAMP_MOD`, `peak`, `bin_track_id`, `packet_state`,
  `symbol_type` and the data members `d_track`, `d_packet`, ... are declared in
  a header that is not among the sources; they are taken from the specification.
-/

namespace PyramidDemod

/-! ## Data model -/

/-- Modelled from the spec: `pos_mod(a, m) = ((a % m) + m) % m`, with the
truncating remainder of C++; its declaration is not among the sources. -/
def pos_mod (a : Int) (m : Nat) : Nat :=
  (Int.tmod (Int.tmod a (m : Int) + (m : Int)) (m : Int)).toNat

/-- Modelled from the spec: a spectral peak `{ts, bin, h}` (`struct peak`, declared
outside the sources). -/
structure Peak where
  ts : Nat
  bin : Nat
  h : ℚ
  deriving DecidableEq

/-- The peak `peak(0, 0, 0)`. -/
instance : Inhabited Peak := ⟨⟨0, 0, 0⟩⟩

/-- Modelled from the spec: the three-variant symbol kind (`symbol_type`). -/
inductive symbol_type
  | SYMBOL_PREAMBLE
  | SYMBOL_DATA
  | SYMBOL_BROKEN_DATA
  deriving DecidableEq

/-- Modelled from the spec: an OpenTrackRef `{bin, track_id, updated}`
(`struct bin_track_id`). -/
structure bin_track_id where
  bin : Nat
  track_id : Nat
  updated : Bool
  deriving DecidableEq

/-- Modelled from the spec: the state of an open packet `{packet_id, ttl}`
(`struct packet_state`); `ttl` is signed. -/
structure packet_state where
  packet_id : Nat
  ttl : Int
  deriving DecidableEq

/-- Constructor arguments, and the timestamp modulus `TIMESTAMP_MOD` whose
definition is not among the sources. -/
structure Config where
  sf : Nat
  ldr : Bool
  fft_factor : Nat
  p : Nat
  threshold : ℚ
  TIMESTAMP_MOD : Nat

namespace Config

/-- Line 87: `d_num_symbols = (1 << d_sf)`. -/
def d_num_symbols (c : Config) : Nat := 2 ^ c.sf

/-- Line 88: `d_num_samples = d_p*d_num_symbols`. -/
def d_num_samples (c : Config) : Nat := c.p * c.d_num_symbols

/-- Line 89: `d_bin_size = d_fft_size_factor*d_num_symbols`. -/
def d_bin_size (c : Config) : Nat := c.fft_factor * c.d_num_symbols

/-- Line 90: `d_fft_size = d_fft_size_factor*d_num_samples`. -/
def d_fft_size (c : Config) : Nat := c.fft_factor * c.d_num_samples

/-- Line 100: `d_bin_tolerance = (d_ldr ? d_fft_size_factor * 2 : d_fft_size_factor / 2)`. -/
def d_bin_tolerance (c : Config) : Nat :=
  if c.ldr then c.fft_factor * 2 else c.fft_factor / 2

/-- The constructor's assertions (lines 76-80) together with a positive
timestamp modulus. -/
def Valid (c : Config) : Prop :=
  5 < c.sf ∧ c.sf < 13 ∧ 0 < c.fft_factor ∧ 0 < c.p ∧ 0 < c.TIMESTAMP_MOD

end Config

/-- `OVERLAP_FACTOR`, line 36 and line 92. -/
def d_overlaps : Nat := 16

/-- Line 93: `d_ttl = 6*d_overlaps`. -/
def d_ttl : Nat := 6 * d_overlaps

/-- Line 115: `d_num_preamble = 6`. -/
def d_num_preamble : Nat := 6

/-- Line 114: `track_size = 40`. -/
def track_size : Nat := 40

/-- Line 127: `packet_id_size = 40`. -/
def packet_id_size : Nat := 40

/-- How a computation can end without returning. -/
inductive Fault
  /-- `exit(-1)` after "Current threshold is low!" (lines 233-237). -/
  | exhausted
  /-- `d_packet_id_pool.front()` read on an empty deque (line 328). -/
  | undefined_front
  deriving DecidableEq

/-- The mutable members of the block, and the messages published so far on the
output port (oldest first). -/
structure State where
  d_track : List (List Peak)
  d_bin_track_id_list : List bin_track_id
  d_track_id_pool : List Nat
  d_packet : List (List Peak)
  d_packet_state_list : List packet_state
  d_packet_id_pool : List Nat
  d_ts_ref : Nat
  d_bin_ref : Nat
  published : List (List Nat)

/-- The state the constructor leaves (lines 98-133). -/
def init : State where
  d_track := List.replicate track_size []
  d_bin_track_id_list := []
  d_track_id_pool := List.range track_size
  d_packet := List.replicate packet_id_size []
  d_packet_state_list := []
  d_packet_id_pool := List.range packet_id_size
  d_ts_ref := 0
  d_bin_ref := 0
  published := []

/-- The statement `v[id].push_back(pk)` on a vector of vectors. -/
def push_peak (v : List (List Peak)) (id : Nat) (pk : Peak) : List (List Peak) :=
  v.set id (v.getD id [] ++ [pk])

/-! ## `float` arithmetic (IEEE 754 binary32, round to nearest, ties to even) -/

/-- The power `2^e` for an integer exponent. -/
def pow2 (e : Int) : ℚ :=
  if 0 ≤ e then ((2 ^ e.toNat : Nat) : ℚ) else 1 / ((2 ^ (-e).toNat : Nat) : ℚ)

/-- The integer nearest to `m`, the even one of the two when `m` lies half-way. -/
def round_half_even (m : ℚ) : Int :=
  if m - (⌊m⌋ : ℚ) < 1 / 2 then ⌊m⌋
  else if m - (⌊m⌋ : ℚ) > 1 / 2 then ⌊m⌋ + 1
  else if ⌊m⌋ % 2 = 0 then ⌊m⌋ else ⌊m⌋ + 1

/-- The number of halvings that bring `n` below 2, at most `fuel` of them. -/
def log2_fuel : Nat → Nat → Nat
  | 0, _ => 0
  | fuel + 1, n => if n < 2 then 0 else log2_fuel fuel (n / 2) + 1

/-- The exponent of `q ≠ 0`: the integer `e` with `2^e <= |q| < 2^(e+1)`. -/
def ilog2 (q : ℚ) : Int :=
  let e0 : Int := (log2_fuel q.num.natAbs q.num.natAbs : Int) - (log2_fuel q.den q.den : Int)
  if pow2 e0 ≤ |q| then e0 else e0 - 1

/-- The binary32 number nearest to `q` (24 significant bits, subnormals below
`2^-126`, ties to even), with the exponent not bounded above: the value of a
`float` operation whose exact result is `q`, up to overflow. -/
def f32 (q : ℚ) : ℚ :=
  if q = 0 then 0
  else
    let ulp : ℚ := pow2 (max (ilog2 q) (-126) - 23)
    if q < 0 then -((round_half_even (|q| / ulp) : ℚ) * ulp)
    else (round_half_even (|q| / ulp) : ℚ) * ulp

/-- The largest finite binary32 number, `(2^24 - 1) * 2^104`. -/
def f32_max : ℚ := ((2 ^ 24 - 1 : Nat) : ℚ) * ((2 ^ 104 : Nat) : ℚ)

/-- A `float` as line 657 compares it: a finite number, `+inf` or `-inf`. A NaN
stands as `pinf`: it only ever is the left operand of `dis < min_dis`, where
both make the comparison false. -/
inductive XFloat
  | ninf
  | fin (q : ℚ)
  | pinf
  deriving DecidableEq

/-- The position of an `XFloat` on the extended rational line. -/
def XFloat.toK : XFloat → WithBot (WithTop ℚ)
  | XFloat.ninf => ⊥
  | XFloat.fin q => ((q : WithTop ℚ) : WithBot (WithTop ℚ))
  | XFloat.pinf => ((⊤ : WithTop ℚ) : WithBot (WithTop ℚ))

/-- The order of the extended rational line on `XFloat`. -/
instance : LinearOrder XFloat :=
  LinearOrder.lift' XFloat.toK (by
    intro a b h
    cases a <;> cases b <;> simp_all [XFloat.toK])

/-- The comparison `a < b` of two floats, evaluated. -/
def xlt : XFloat → XFloat → Bool
  | XFloat.ninf, XFloat.ninf => false
  | XFloat.ninf, _ => true
  | XFloat.fin a, XFloat.fin b => decide (a < b)
  | XFloat.fin _, XFloat.pinf => true
  | _, _ => false

/-- The result of a `float` operation whose exact result is `q`: rounded, and
infinite when the rounded value is beyond the largest finite number. -/
def f32x (q : ℚ) : XFloat :=
  if f32 q > f32_max then XFloat.pinf
  else if f32 q < -f32_max then XFloat.ninf
  else XFloat.fin (f32 q)

/-- Line 656: `dis += std::abs(h - pre_h) / pre_h` for a finite `dis`, finite
heights and `pre_h` not the negative zero. A quotient by zero is `+inf` or NaN;
an infinite difference divided by a negative height is `-inf`. -/
def float_dis (dis h pre_h : ℚ) : XFloat :=
  match f32x (h - pre_h) with
  | XFloat.fin x =>
    if pre_h = 0 then XFloat.pinf
    else
      match f32x (|x| / pre_h) with
      | XFloat.fin y => f32x (dis + y)
      | other => other
  | _ => if pre_h < 0 then XFloat.ninf else XFloat.pinf

/-! ## Peak finder and tracker (`find_and_add_peak`, lines 202-250) -/

/-- Line 210: the local-maximum test on the windowed spectrum. -/
def is_peak (c : Config) (fft_mag_w : Nat → ℚ) (i : Nat) : Bool :=
  let l_idx := pos_mod ((i : Int) - 1) c.d_bin_size
  let r_idx := pos_mod ((i : Int) + 1) c.d_bin_size
  decide (fft_mag_w i > c.threshold) && decide (fft_mag_w i > fft_mag_w l_idx)
    && decide (fft_mag_w i > fft_mag_w r_idx)

/-- Lines 218-223: the tolerance test of a peak at `cur_bin` against an entry. -/
def bin_matches (c : Config) (cur_bin : Nat) (bt : bin_track_id) : Bool :=
  let dis := pos_mod ((c.d_bin_size : Int) + cur_bin - bt.bin) c.d_bin_size
  decide (dis ≤ c.d_bin_tolerance) || decide (dis ≥ c.d_bin_size - c.d_bin_tolerance)

/-- Lines 216-230: the scan of `d_bin_track_id_list`; on the first match the
entry is marked updated and its track id returned. -/
def match_track (c : Config) (cur_bin : Nat) :
    List bin_track_id → Option (Nat × List bin_track_id)
  | [] => none
  | bt :: rest =>
    if bin_matches c cur_bin bt then
      some (bt.track_id, { bt with updated := true } :: rest)
    else
      match match_track c cur_bin rest with
      | none => none
      | some (id, rest') => some (id, bt :: rest')

/-- Lines 212-247: the body executed for a bin `i` that passed the peak test. -/
def add_peak (c : Config) (fft_mag : Nat → ℚ) (s : State) (i : Nat) : Except Fault State :=
  let cur_bin := pos_mod ((c.d_bin_size : Int) + i - s.d_bin_ref) c.d_bin_size
  match match_track c cur_bin s.d_bin_track_id_list with
  | some (track_id, l) =>
    .ok { s with
      d_bin_track_id_list := l
      d_track := push_peak s.d_track track_id ⟨s.d_ts_ref, i, fft_mag i⟩ }
  | none =>
    match s.d_track_id_pool with
    | [] => .error Fault.exhausted
    | track_id :: pool =>
      .ok { s with
        d_track_id_pool := pool
        d_bin_track_id_list := s.d_bin_track_id_list ++ [⟨cur_bin, track_id, true⟩]
        d_track := push_peak s.d_track track_id ⟨s.d_ts_ref, i, fft_mag i⟩ }

/-- The `for` loop of `find_and_add_peak` over the bins still to visit. -/
def find_and_add_peak_loop (c : Config) (fft_mag fft_mag_w : Nat → ℚ) :
    List Nat → State → Except Fault State
  | [], s => .ok s
  | i :: rest, s =>
    if is_peak c fft_mag_w i then
      match add_peak c fft_mag s i with
      | .ok s' => find_and_add_peak_loop c fft_mag fft_mag_w rest s'
      | .error e => .error e
    else find_and_add_peak_loop c fft_mag fft_mag_w rest s

/-- Lines 202-250: `find_and_add_peak(fft_mag, fft_mag_w)`. -/
def find_and_add_peak (c : Config) (fft_mag fft_mag_w : Nat → ℚ) (s : State) :
    Except Fault State :=
  find_and_add_peak_loop c fft_mag fft_mag_w (List.range c.d_bin_size) s

/-! ## Classifier (`get_central_peak`, lines 252-313) -/

/-- Lines 293-302: index of the first observation of maximal height among
`track[0..len)`; the accumulator is `(max_h, idx)`. -/
def apex_loop (track : List Peak) : List Nat → ℚ × Nat → ℚ × Nat
  | [], acc => acc
  | i :: rest, acc =>
    if (track.getD i default).h > acc.1 then apex_loop track rest ((track.getD i default).h, i)
    else apex_loop track rest acc

/-- Lines 280-284: the `float` sum of `track[i].h` over the given indices, each
addition rounded. -/
def height_sum (track : List Peak) : List Nat → ℚ → ℚ
  | [], sum => sum
  | i :: rest, sum => height_sum track rest (f32 (sum + (track.getD i default).h))

/-- Lines 252-313: `get_central_peak`, on the observations of the track. The
result peak starts as `peak(0, 0, 0)` (line 404). -/
def get_central_peak (c : Config) (track : List Peak) : symbol_type × Peak :=
  let len := track.length % 65536
  if len ≥ d_overlaps * (d_num_preamble - 1) + 2 then
    let l_idx := (len / 2 - d_overlaps * (d_num_preamble - 1) / 2) % 65536
    let r_idx := ((len - 1) / 2 + d_overlaps * (d_num_preamble - 1) / 2) % 65536
    let sum := height_sum track
      (List.range' (d_overlaps * 2) (d_overlaps * (d_num_preamble - 2) - d_overlaps * 2)) 0
    let h := f32 (sum / ((d_overlaps * (d_num_preamble - 4) : Nat) : ℚ))
    if (track.getD l_idx default).h > (track.getD r_idx default).h then
      (symbol_type.SYMBOL_PREAMBLE,
        ⟨(track.getD l_idx default).ts + c.d_num_samples / 4
            + (d_num_preamble - 1) * c.d_num_samples,
          (track.getD l_idx default).bin, h⟩)
    else
      (symbol_type.SYMBOL_PREAMBLE,
        ⟨(track.getD r_idx default).ts + c.d_num_samples / 4,
          (track.getD r_idx default).bin, h⟩)
  else if len ≥ 2 ∧ len ≤ 2 * d_overlaps then
    let idx := (apex_loop track (List.range' 1 (len - 1)) ((track.getD 0 default).h, 0)).2
    (symbol_type.SYMBOL_DATA, track.getD idx default)
  else
    (symbol_type.SYMBOL_BROKEN_DATA, default)

/-! ## Packet assembler (`add_symbol_to_packet`, lines 315-392) -/

/-- Lines 352-355 (and 652-655): the folded fractional distance of a timestamp
to the symbol grid, in `float` arithmetic: the two integers are converted,
the quotient, the difference and the products are rounded. -/
def phase_dis (c : Config) (ts_dis : Int) : ℚ :=
  let dis : ℚ := f32 (f32 (pos_mod ts_dis c.d_num_samples : ℚ) / f32 (c.d_num_samples : ℚ))
  if dis > 1 / 2 then f32 (f32 (1 - dis) * 2) else f32 (dis * 2)

/-- The comparison `dis < min_dis` where `min_dis` may still be infinity. -/
def lt_min (dis : ℚ) : Option ℚ → Bool
  | none => true
  | some m => decide (dis < m)

/-- Line 348: `ts_dis` of a peak against the first peak of a packet. -/
def ts_dis (c : Config) (d_packet : List (List Peak)) (pk : Peak) (ps : packet_state) : Nat :=
  pos_mod ((pk.ts : Int) - ((d_packet.getD ps.packet_id []).getD 0 default).ts) c.TIMESTAMP_MOD

/-- Line 350: the candidate test. -/
def is_candidate (c : Config) (d_packet : List (List Peak)) (pk : Peak) (ps : packet_state) :
    Bool :=
  decide (ts_dis c d_packet pk ps > 4 * c.d_num_samples)
    && decide (ts_dis c d_packet pk ps < c.TIMESTAMP_MOD / 2)

/-- Lines 352-355: the distance `dis` of a peak to a candidate packet. -/
def route_dis (c : Config) (d_packet : List (List Peak)) (pk : Peak) (ps : packet_state) : ℚ :=
  phase_dis c (ts_dis c d_packet pk ps)

/-- The locals `pkt_idx`, `pkt_id`, `min_dis`, `found` of lines 339-342. -/
structure match_state where
  pkt_idx : Nat
  pkt_id : Nat
  min_dis : Option ℚ
  found : Bool

/-- Lines 344-365: the loop over `d_packet_state_list`, at index `i`. -/
def best_packet_loop (c : Config) (d_packet : List (List Peak)) (pk : Peak) :
    List packet_state → Nat → match_state → match_state
  | [], _, m => m
  | ps :: rest, i, m =>
    if is_candidate c d_packet pk ps then
      if lt_min (route_dis c d_packet pk ps) m.min_dis then
        best_packet_loop c d_packet pk rest (i + 1)
          ⟨i, ps.packet_id, some (route_dis c d_packet pk ps), true⟩
      else best_packet_loop c d_packet pk rest (i + 1) m
    else best_packet_loop c d_packet pk rest (i + 1) m

/-- Line 370: `d_packet_state_list[pkt_idx].ttl = d_ttl`. -/
def set_ttl (l : List packet_state) (pkt_idx : Nat) : List packet_state :=
  l.set pkt_idx { l.getD pkt_idx ⟨0, 0⟩ with ttl := (d_ttl : Int) }

/-- Lines 315-392: `add_symbol_to_packet(pk, st)`; the Boolean is the return
value. -/
def add_symbol_to_packet (c : Config) (s : State) (pk : Peak) (st : symbol_type) :
    Except Fault (State × Bool) :=
  match st with
  | symbol_type.SYMBOL_PREAMBLE =>
    match s.d_packet_id_pool with
    | [] => .error Fault.undefined_front
    | pkt_id :: pool =>
      .ok ({ s with
        d_packet_id_pool := pool
        d_packet := push_peak s.d_packet pkt_id pk
        d_packet_state_list := s.d_packet_state_list ++ [⟨pkt_id, (d_ttl : Int)⟩] }, true)
  | symbol_type.SYMBOL_DATA =>
    let m := best_packet_loop c s.d_packet pk s.d_packet_state_list 0 ⟨0, 0, none, false⟩
    if m.found then
      .ok ({ s with
        d_packet_state_list := set_ttl s.d_packet_state_list m.pkt_idx
        d_packet := push_peak s.d_packet m.pkt_id pk }, true)
    else .ok (s, false)
  | symbol_type.SYMBOL_BROKEN_DATA => .ok (s, false)

/-! ## Track closing (`check_and_update_track`, lines 394-444) -/

/-- Lines 398-425: the loop over the entries of `d_bin_track_id_list`. -/
def close_tracks (c : Config) : List bin_track_id → State → Except Fault State
  | [], s => .ok s
  | bt :: rest, s =>
    if bt.updated then close_tracks c rest s
    else
      let r := get_central_peak c (s.d_track.getD bt.track_id [])
      let routed : Except Fault State :=
        if r.1 = symbol_type.SYMBOL_PREAMBLE ∨ r.1 = symbol_type.SYMBOL_DATA then
          match add_symbol_to_packet c s r.2 r.1 with
          | .ok res => .ok res.1
          | .error e => .error e
        else .ok s
      match routed with
      | .error e => .error e
      | .ok s1 =>
        close_tracks c rest { s1 with
          d_track_id_pool := s1.d_track_id_pool ++ [bt.track_id]
          d_track := s1.d_track.set bt.track_id [] }

/-- Lines 394-444: `check_and_update_track()`. -/
def check_and_update_track (c : Config) (s : State) : Except Fault State :=
  match close_tracks c s.d_bin_track_id_list s with
  | .error e => .error e
  | .ok s1 =>
    .ok { s1 with
      d_bin_track_id_list :=
        (s1.d_bin_track_id_list.filter (fun bt => bt.updated)).map
          (fun bt => { bt with updated := false }) }

/-! ## Symbol emitter (lines 546-701 of `general_work`) -/

/-- Lines 626 and 638: the test that a peak lies in the current interval. -/
def in_interval (c : Config) (ts_interval_l : Nat) (pk : Peak) : Bool :=
  decide (pk.ts > ts_interval_l) && decide (pk.ts < ts_interval_l + c.d_num_samples)

/-- Lines 622-643: the inner `for` loop over `end_idx`, on the peaks from
`end_idx` on; the result is `(start_idx, end_idx, found)`. -/
def scan_interval (c : Config) (ts_interval_l : Nat) :
    List Peak → Nat → Nat → Bool → Bool → Nat × Nat × Bool
  | [], end_idx, start_idx, _, found => (start_idx, end_idx, found)
  | pk :: rest, end_idx, start_idx, true, found =>
    if in_interval c ts_interval_l pk then
      scan_interval c ts_interval_l rest (end_idx + 1) end_idx false true
    else scan_interval c ts_interval_l rest (end_idx + 1) start_idx true found
  | pk :: rest, end_idx, start_idx, false, found =>
    if in_interval c ts_interval_l pk then
      scan_interval c ts_interval_l rest (end_idx + 1) start_idx false found
    else (start_idx, end_idx, found)

/-- Lines 652-656: the distance of a peak of the interval to the preamble, as
the `float` the code computes. -/
def peak_dis (c : Config) (pre_ts : Nat) (pre_h : ℚ) (pk : Peak) : XFloat :=
  float_dis (phase_dis c ((pk.ts : Int) - pre_ts)) pk.h pre_h

/-- Lines 648-662: the search of the best peak among the given indices; the
accumulator is `(min_dis, idx)`, `min_dis` starting as `+inf`. -/
def best_peak_loop (c : Config) (pre_ts : Nat) (pre_h : ℚ) (pkt : List Peak) :
    List Nat → XFloat × Nat → XFloat × Nat
  | [], acc => acc
  | i :: rest, acc =>
    if xlt (peak_dis c pre_ts pre_h (pkt.getD i default)) acc.1 then
      best_peak_loop c pre_ts pre_h pkt rest
        (peak_dis c pre_ts pre_h (pkt.getD i default), i)
    else best_peak_loop c pre_ts pre_h pkt rest acc

/-- Lines 664-667: the symbol computed from the chosen peak. The product of
line 665 is formed in 32-bit unsigned arithmetic, and its quotient is stored in
the `int bin_shift`. -/
def symbol_of_peak (c : Config) (pre_ts pre_bin : Nat) (pk : Peak) : Nat :=
  let quot : Nat :=
    (pos_mod ((pk.ts : Int) - pre_ts) c.d_num_samples * c.d_bin_size) % 4294967296
      / c.d_num_samples
  let bin_shift : Int := if quot < 2147483648 then (quot : Int) else (quot : Int) - 4294967296
  let bin := pos_mod ((pk.bin : Int) - pre_bin - bin_shift) c.d_bin_size
  (bin / c.fft_factor) % 65536

/-- Lines 617-686: the outer `for` loop of the grid walk; `fuel` bounds the
number of iterations, `symbols` is the vector built so far. -/
def grid_walk_loop (c : Config) (pre_ts pre_bin : Nat) (pre_h : ℚ) (pkt : List Peak) :
    Nat → Nat → Nat → List Nat → List Nat
  | 0, _, _, symbols => symbols
  | fuel + 1, start_idx, ts_interval_l, symbols =>
    if start_idx < pkt.length then
      let r := scan_interval c ts_interval_l (pkt.drop start_idx) start_idx start_idx true false
      let symbols' :=
        if r.2.2 then
          let idx := (best_peak_loop c pre_ts pre_h pkt
            (List.range' r.1 (r.2.1 - r.1)) (XFloat.pinf, r.1)).2
          symbols ++ [symbol_of_peak c pre_ts pre_bin (pkt.getD idx default)]
        else symbols ++ [0]
      grid_walk_loop c pre_ts pre_bin pre_h pkt fuel r.2.1
        (pos_mod ((ts_interval_l : Int) + c.d_num_samples) c.TIMESTAMP_MOD) symbols'
    else symbols

/-- Lines 590-593: timestamps relative to the preamble. -/
def normalise (c : Config) (pre_ts : Nat) (pkt : List Peak) : List Peak :=
  pkt.map (fun pk => { pk with ts := pos_mod ((pk.ts : Int) - pre_ts) c.TIMESTAMP_MOD })

/-- Lines 597-601: the peaks sorted by timestamp. `std::sort` fixes no order
among peaks of equal timestamp; a stable insertion sort stands for it here, and
the statements on the sort order quantify over every ordering by timestamp. -/
def sort_peaks (pkt : List Peak) : List Peak :=
  pkt.insertionSort (fun a b => a.ts ≤ b.ts)

/-- Lines 615-686 on a normalised, sorted packet: `start_idx = 1`,
`ts_interval_l = 4*d_num_samples + d_num_samples/2`, `pre_ts = 0`. Every
iteration of the outer loop advances `start_idx`, so `pkt.length` iterations
are enough. -/
def grid_walk (c : Config) (pre_bin : Nat) (pre_h : ℚ) (pkt : List Peak) : List Nat :=
  grid_walk_loop c 0 pre_bin pre_h pkt pkt.length 1
    (4 * c.d_num_samples + c.d_num_samples / 2) []

/-- Lines 549-686: the symbol vector of a packet that is being finalised. -/
def demod_packet (c : Config) (pkt : List Peak) : List Nat :=
  grid_walk c (pkt.getD 0 default).bin (pkt.getD 0 default).h
    (sort_peaks (normalise c (pkt.getD 0 default).ts pkt))

/-- Lines 691-697: the message published for a symbol vector, if any. -/
def publish (symbols : List Nat) : Option (List Nat) :=
  if symbols.length ≥ 8 then some symbols else none

/-- Lines 546-701: the body executed for a packet state with `ttl <= 0`. -/
def finish_packet (c : Config) (s : State) (ps : packet_state) : State :=
  { s with
    published :=
      match publish (demod_packet c (s.d_packet.getD ps.packet_id [])) with
      | some msg => s.published ++ [msg]
      | none => s.published
    d_packet := s.d_packet.set ps.packet_id []
    d_packet_id_pool := s.d_packet_id_pool ++ [ps.packet_id] }

/-- Lines 541-702: the loop over `d_packet_state_list`. -/
def finish_packets (c : Config) : List packet_state → State → State
  | [], s => s
  | ps :: rest, s =>
    if ps.ttl ≤ 0 then finish_packets c rest (finish_packet c s ps)
    else finish_packets c rest s

/-! ## One step (`general_work`, lines 453-736) -/

/-- Lines 704-719: expired packet states erased, the others aged, the
reference cursors advanced. -/
def age_and_advance (c : Config) (s : State) : State :=
  { s with
    d_packet_state_list :=
      (s.d_packet_state_list.filter (fun ps => !decide (ps.ttl ≤ 0))).map
        (fun ps => { ps with ttl := ps.ttl - 1 })
    d_ts_ref := pos_mod ((s.d_ts_ref : Int) + (c.d_num_samples / d_overlaps : Nat)) c.TIMESTAMP_MOD
    d_bin_ref := pos_mod ((s.d_bin_ref : Int) + (c.d_bin_size / d_overlaps : Nat)) c.d_bin_size }

/-- Lines 453-736: `general_work` on `ninput` available samples whose folded
spectra are `fft_res_add` (plain) and `fft_res_add_w` (windowed). -/
def general_work (c : Config) (ninput : Nat) (fft_res_add fft_res_add_w : Nat → ℚ)
    (s : State) : Except Fault State :=
  if ninput < 4 * c.d_num_samples then .ok s
  else
    match find_and_add_peak c fft_res_add fft_res_add_w s with
    | .error e => .error e
    | .ok s1 =>
      match check_and_update_track c s1 with
      | .error e => .error e
      | .ok s2 => .ok (age_and_advance c (finish_packets c s2.d_packet_state_list s2))

/-! ## Predicates used in the statements -/

/-- Every track id held by an OpenTrackRef or waiting in the pool indexes into
`d_track`. -/
def TrackWF (s : State) : Prop :=
  (∀ bt ∈ s.d_bin_track_id_list, bt.track_id < s.d_track.length) ∧
    (∀ id ∈ s.d_track_id_pool, id < s.d_track.length)

/-- The peaks `find_and_add_peak` detects among the given bins, in the order of
the loop: `peak(d_ts_ref, i, fft_mag[i])` for every bin `i` passing the test of
line 210. -/
def detected_peaks (c : Config) (fft_mag fft_mag_w : Nat → ℚ) (ts_ref : Nat)
    (bins : List Nat) : List Peak :=
  (bins.filter (fun i => is_peak c fft_mag_w i)).map (fun i => ⟨ts_ref, i, fft_mag i⟩)

/-- The peaks of `pks` whose assigned track (the list `assign`, position by
position) is `t`. -/
def assigned_to (pks : List Peak) (assign : List Nat) (t : Nat) : List Peak :=
  ((pks.zip assign).filter (fun x => decide (x.2 = t))).map Prod.fst

/-- State `s'` holds the tracks of `s`, each followed by the detected peaks
assigned to it: every detected peak has one assigned track id, and the track
vectors only grew at their ends. -/
def TracksExtended (c : Config) (fft_mag fft_mag_w : Nat → ℚ) (s s' : State) : Prop :=
  ∃ assign : List Nat,
    assign.length
        = (detected_peaks c fft_mag fft_mag_w s.d_ts_ref (List.range c.d_bin_size)).length ∧
    (∀ id ∈ assign, id < s.d_track.length) ∧
    s'.d_track.length = s.d_track.length ∧
    ∀ t, s'.d_track.getD t [] = s.d_track.getD t [] ++
      assigned_to (detected_peaks c fft_mag fft_mag_w s.d_ts_ref (List.range c.d_bin_size))
        assign t

/-- The ids of the open track references followed by the free ids are a
rearrangement of `0, ..., track_size - 1`. -/
def TrackIdInv (s : State) : Prop :=
  List.Perm (s.d_bin_track_id_list.map (fun bt => bt.track_id) ++ s.d_track_id_pool)
    (List.range track_size)

/-- The count of open packets and free packet ids. -/
def PacketInv (s : State) : Prop :=
  s.d_packet_state_list.length + s.d_packet_id_pool.length = packet_id_size

/-- The states the block can be in between two calls of `general_work`: the
constructed state, and every state a call that returned leaves. -/
inductive Reachable (c : Config) : State → Prop
  | init : Reachable c init
  | step (s s' : State) (ninput : Nat) (fft_res_add fft_res_add_w : Nat → ℚ) :
      Reachable c s → general_work c ninput fft_res_add fft_res_add_w s = .ok s' →
      Reachable c s'

/-! ## Sample data -/

/-- The configuration of the spec's scenarios: SF 7, `p = 2`, `fft_factor = 1`,
threshold 0.005, with `2^30` as timestamp modulus. -/
def cfg7 : Config := ⟨7, false, 1, 2, 5 / 1000, 1073741824⟩

/-- A packet with preamble `(ts 1000, bin 10, h 1)` and seven data peaks at the
centres of the grid intervals 0, 1, 2, 3, 5, 6, 7 (none in interval 4), carrying
the symbols 1, 2, 3, 4, 6, 7, 0 (`N = 256`, interval `k` starts at `1152 + 256*k`). -/
def pkt_missing4 : List Peak :=
  [⟨1000, 10, 1⟩, ⟨2280, 11, 1⟩, ⟨2536, 12, 1⟩, ⟨2792, 13, 1⟩, ⟨3048, 14, 1⟩,
   ⟨3560, 16, 1⟩, ⟨3816, 17, 1⟩, ⟨4072, 10, 1⟩]

/-- A track of 65538 observations, as a carrier that stays on one bin for
65538 steps leaves it. -/
def long_track : List Peak := List.replicate 65538 ⟨0, 0, 1⟩

/-- A spectrum with a single line of height 1 at bin 5. -/
def spectrum_one_line : Nat → ℚ := fun i => if i = 5 then 1 else 0

/-- Forty open packets (ids 0..39, each holding its preamble peak) and no free
packet id. -/
def st_full : State :=
  { init with
    d_packet := List.replicate packet_id_size [⟨1000, 10, 1⟩]
    d_packet_state_list := (List.range packet_id_size).map (fun i => ⟨i, 96⟩)
    d_packet_id_pool := [] }

/-- A packet whose first data peak lies exactly on the left end of grid interval
0: normalised timestamps 1152, 1536, 1792, ..., 3072 (`N = 256`,
`4*N + N/2 = 1152`), preamble `(ts 1000, bin 10, h 1)`. -/
def pkt_boundary : List Peak :=
  [⟨1000, 10, 1⟩, ⟨2152, 75, 1⟩, ⟨2536, 12, 1⟩, ⟨2792, 13, 1⟩, ⟨3048, 14, 1⟩,
   ⟨3304, 15, 1⟩, ⟨3560, 16, 1⟩, ⟨3816, 17, 1⟩, ⟨4072, 10, 1⟩]

/-- A track of 65618 = 65536 + 82 observations with pairwise distinct
timestamps and equal heights. -/
def track_65618 : List Peak := (List.range 65618).map (fun k => ⟨k, k % 100, 1⟩)

/-- Line 213: the bin of a peak at raw bin `i` relative to the reference
`bin_ref`, as `add_peak` computes it. -/
def rel_bin (c : Config) (bin_ref i : Nat) : Nat :=
  pos_mod ((c.d_bin_size : Int) + i - bin_ref) c.d_bin_size

/-- The track ids are a rearrangement of `0, ..., track_size - 1`, `d_track` has
`track_size` entries, and the track of every free id is empty. -/
def TrackerInv (s : State) : Prop :=
  TrackIdInv s ∧ s.d_track.length = track_size ∧
    ∀ id ∈ s.d_track_id_pool, s.d_track.getD id [] = []

/-- A normalised, sorted packet with two data peaks (timestamps 1200 and 1280)
inside grid interval 0 and one in interval 1. -/
def pkt_two_in_interval : List Peak :=
  [⟨0, 10, 1⟩, ⟨1200, 20, 1⟩, ⟨1280, 11, 1⟩, ⟨1536, 12, 1⟩]

/-- The value of `d_ts_ref` after `k` processed steps (line 718). -/
def ts_ref_at (c : Config) : Nat → Nat
  | 0 => 0
  | k + 1 =>
    pos_mod ((ts_ref_at c k : Int) + (c.d_num_samples / d_overlaps : Nat)) c.TIMESTAMP_MOD

/-- The value of `d_bin_ref` after `k` processed steps (line 719). -/
def bin_ref_at (c : Config) : Nat → Nat
  | 0 => 0
  | k + 1 => pos_mod ((bin_ref_at c k : Int) + (c.d_bin_size / d_overlaps : Nat)) c.d_bin_size

/-- The track bin invariant in the words of the spec: in every open track the
stored bin of every observation is within `bin_tolerance` of the stored bin of
the first observation, modulo `B`. -/
def StoredBinInv (c : Config) (s : State) : Prop :=
  ∀ bt ∈ s.d_bin_track_id_list, ∀ first : Peak,
    (s.d_track.getD bt.track_id []).head? = some first →
    ∀ obs ∈ s.d_track.getD bt.track_id [],
      ((obs.bin : Int) - first.bin) % (c.d_bin_size : Int) ≤ (c.d_bin_tolerance : Int) ∨
        ((obs.bin : Int) - first.bin) % (c.d_bin_size : Int)
          ≥ (c.d_bin_size : Int) - c.d_bin_tolerance

/-- Observation `obs` was recorded in one of the steps `0, ..., k`, and its bin
relative to the bin reference of that step is within tolerance of the bin of
the entry `bt`. -/
def ObsOK (c : Config) (k : Nat) (bt : bin_track_id) (obs : Peak) : Prop :=
  ∃ j, j ≤ k ∧ obs.ts = ts_ref_at c j ∧
    bin_matches c (rel_bin c (bin_ref_at c j) obs.bin) bt = true

/-- Observation `first` was recorded in one of the steps `0, ..., k`, and its bin
relative to the bin reference of that step is the bin of the entry `bt`. -/
def FirstOK (c : Config) (k : Nat) (bt : bin_track_id) (first : Peak) : Prop :=
  ∃ j, j ≤ k ∧ first.ts = ts_ref_at c j ∧ rel_bin c (bin_ref_at c j) first.bin = bt.bin

/-- The track bin invariant on reference-relative bins, after `k` processed
steps: every open track is non-empty, each of its observations satisfies
`ObsOK` and its first observation `FirstOK`. -/
def RelBinInvAt (c : Config) (k : Nat) (s : State) : Prop :=
  s.d_ts_ref = ts_ref_at c k ∧ s.d_bin_ref = bin_ref_at c k ∧
    ∀ bt ∈ s.d_bin_track_id_list,
      s.d_track.getD bt.track_id [] ≠ [] ∧
      (∀ obs ∈ s.d_track.getD bt.track_id [], ObsOK c k bt obs) ∧
      (∀ first : Peak, (s.d_track.getD bt.track_id []).head? = some first →
        FirstOK c k bt first)

/-- A spectrum with a single line of height 1 at bin 13. -/
def spectrum_line13 : Nat → ℚ := fun i => if i = 13 then 1 else 0

/-- Two steps from the constructed state: a line at bin 5, then a line at bin
13 (the bin reference has advanced by `B/16 = 8` in between). -/
def after_two_steps : Except Fault State :=
  match general_work cfg7 1024 spectrum_one_line spectrum_one_line init with
  | .ok s1 => general_work cfg7 1024 spectrum_line13 spectrum_line13 s1
  | .error e => .error e

/-- Peak `pk` is what the classifier returns for some track it classifies
PREAMBLE. -/
def IsPreamblePeak (c : Config) (pk : Peak) : Prop :=
  ∃ track : List Peak, get_central_peak c track = (symbol_type.SYMBOL_PREAMBLE, pk)

/-- Peak `pk` is what the classifier returns for some track it classifies
DATA. -/
def IsDataPeak (c : Config) (pk : Peak) : Prop :=
  ∃ track : List Peak, get_central_peak c track = (symbol_type.SYMBOL_DATA, pk)

/-- The symbol handed to `add_symbol_to_packet` comes from the classifier. -/
def FromClassifier (c : Config) (pk : Peak) (st : symbol_type) : Prop :=
  ∃ track : List Peak, get_central_peak c track = (st, pk)

/-- The ids of the open packets followed by the free packet ids are a
rearrangement of `0, ..., packet_id_size - 1`. -/
def PacketIdInv (s : State) : Prop :=
  List.Perm (s.d_packet_state_list.map (fun ps => ps.packet_id) ++ s.d_packet_id_pool)
    (List.range packet_id_size)

/-- The packet of every open packet state is its preamble peak followed by
data peaks. -/
def PacketContentInv (c : Config) (s : State) : Prop :=
  ∀ ps ∈ s.d_packet_state_list, ∃ (pre : Peak) (data : List Peak),
    s.d_packet.getD ps.packet_id [] = pre :: data ∧ IsPreamblePeak c pre ∧
      ∀ q ∈ data, IsDataPeak c q

/-- The invariant of the packet assembler while symbols are routed: ids,
size of `d_packet`, empty packets behind the free ids, packet contents, and
`ttl` between 0 and `d_ttl`. -/
def AssemblerInv (c : Config) (s : State) : Prop :=
  PacketIdInv s ∧ s.d_packet.length = packet_id_size ∧
    (∀ id ∈ s.d_packet_id_pool, s.d_packet.getD id [] = []) ∧
    PacketContentInv c s ∧
    ∀ ps ∈ s.d_packet_state_list, 0 ≤ ps.ttl ∧ ps.ttl ≤ (d_ttl : Int)

/-- A track of 82 observations of equal height. -/
def track82 : List Peak := List.replicate 82 ⟨0, 10, 1⟩

/-- The constructed state with one open track (id 0) holding `track82`. -/
def st_preamble_track : State :=
  { init with
    d_track := init.d_track.set 0 track82
    d_bin_track_id_list := [⟨5, 0, false⟩]
    d_track_id_pool := (List.range track_size).drop 1 }

/-- The spectrum without any line. -/
def spectrum_quiet : Nat → ℚ := fun _ => 0

/-- The states of a run of quiet steps from `st_preamble_track`: step 0 closes
the track and creates packet 0 from the PREAMBLE peak `(64, 10, 1)`, the next
steps age it, step 96 finalises it. -/
def lifetime_run (k : Nat) : State :=
  if k = 0 then st_preamble_track
  else
    { d_track := init.d_track
      d_bin_track_id_list := []
      d_track_id_pool := (List.range track_size).drop 1 ++ [0]
      d_packet := if k ≤ 96 then push_peak init.d_packet 0 ⟨64, 10, 1⟩ else init.d_packet
      d_packet_state_list := if k ≤ 96 then [⟨0, 96 - (k : Int)⟩] else []
      d_packet_id_pool :=
        if k ≤ 96 then (List.range packet_id_size).drop 1
        else (List.range packet_id_size).drop 1 ++ [0]
      d_ts_ref := ts_ref_at cfg7 k
      d_bin_ref := bin_ref_at cfg7 k
      published := [] }

deriving instance DecidableEq for State
/-- A run of calls of `general_work`, each with its `ninput` and its two
spectra. -/
def run_steps (c : Config) : List (Nat × (Nat → ℚ) × (Nat → ℚ)) → State → Except Fault State
  | [], s => .ok s
  | inp :: rest, s =>
    match general_work c inp.1 inp.2.1 inp.2.2 s with
    | .ok s' => run_steps c rest s'
    | .error e => .error e

/-- A line that stays on relative bin 5: at step `k` it sits on raw bin
`(5 + 8*k) mod 128` (`B/16 = 8`). -/
def spectrum_chirp (k : Nat) : Nat → ℚ := fun i => if i = (5 + 8 * k) % 128 then 1 else 0

/-- The inputs of 82 steps that see the line, then one quiet step. -/
def preamble_inputs : List (Nat × (Nat → ℚ) × (Nat → ℚ)) :=
  (List.range 82).map (fun k => (1024, spectrum_chirp k, spectrum_chirp k))
    ++ [(1024, spectrum_quiet, spectrum_quiet)]

/-- A packet with preamble `(ts 0, bin 10, h 1)` and two peaks of timestamp 1200
and of the same height, with bins 20 and 30. -/
def pkt_tie : List Peak := [⟨0, 10, 1⟩, ⟨1200, 20, 1⟩, ⟨1200, 30, 1⟩]

/-- The peaks of `pkt_tie` with the two peaks of timestamp 1200 exchanged. -/
def pkt_tie_swapped : List Peak := [⟨0, 10, 1⟩, ⟨1200, 30, 1⟩, ⟨1200, 20, 1⟩]

/-- A packet with preamble `(ts 0, bin 10, h 1)` and two peaks of timestamp 1200
of heights 2 and 1, with bins 20 and 30. -/
def pkt_equal_ts : List Peak := [⟨0, 10, 1⟩, ⟨1200, 20, 2⟩, ⟨1200, 30, 1⟩]

/-- The peaks of `pkt_equal_ts` with the two peaks of timestamp 1200 exchanged. -/
def pkt_equal_ts_swapped : List Peak := [⟨0, 10, 1⟩, ⟨1200, 30, 1⟩, ⟨1200, 20, 2⟩]

/-- Two open track references are told apart: they hold different track ids, and
the circular distance of their bins, taken in either direction, is above
`d_bin_tolerance` and below `d_bin_size - d_bin_tolerance`. -/
def Separated (c : Config) (a b : bin_track_id) : Prop :=
  a.track_id ≠ b.track_id ∧
    (c.d_bin_tolerance : Int) < ((a.bin : Int) - b.bin) % (c.d_bin_size : Int) ∧
    ((a.bin : Int) - b.bin) % (c.d_bin_size : Int) < (c.d_bin_size : Int) - c.d_bin_tolerance ∧
    (c.d_bin_tolerance : Int) < ((b.bin : Int) - a.bin) % (c.d_bin_size : Int) ∧
    ((b.bin : Int) - a.bin) % (c.d_bin_size : Int) < (c.d_bin_size : Int) - c.d_bin_tolerance

/-- The open track references are pairwise separated. -/
def SeparationInv (c : Config) (s : State) : Prop :=
  s.d_bin_track_id_list.Pairwise (Separated c)

/-- A spectrum with two lines of height 1, at the bins 5 and 60. -/
def spectrum_two_lines : Nat → ℚ := fun i => if i = 5 ∨ i = 60 then 1 else 0

/-- Line 684: the left end of the interval after the one starting at `L`. -/
def next_interval (c : Config) (L : Nat) : Nat :=
  pos_mod ((L : Int) + c.d_num_samples) c.TIMESTAMP_MOD

/-- The left end of the `k`-th interval visited after the one starting at `L`. -/
def interval_from (c : Config) (L : Nat) : Nat → Nat
  | 0 => L
  | k + 1 => interval_from c (next_interval c L) k

/-- Lines 617-686 with the exit of the outer loop made explicit: `none` when
`fuel` iterations were made and the condition `start_idx < pkt.size()` still
holds, otherwise the symbol vector at the exit of the loop. -/
def grid_walk_loop_exit (c : Config) (pre_ts pre_bin : Nat) (pre_h : ℚ) (pkt : List Peak) :
    Nat → Nat → Nat → List Nat → Option (List Nat)
  | 0, start_idx, _, symbols => if start_idx < pkt.length then none else some symbols
  | fuel + 1, start_idx, ts_interval_l, symbols =>
    if start_idx < pkt.length then
      let r := scan_interval c ts_interval_l (pkt.drop start_idx) start_idx start_idx true false
      let symbols' :=
        if r.2.2 then
          let idx := (best_peak_loop c pre_ts pre_h pkt
            (List.range' r.1 (r.2.1 - r.1)) (XFloat.pinf, r.1)).2
          symbols ++ [symbol_of_peak c pre_ts pre_bin (pkt.getD idx default)]
        else symbols ++ [0]
      grid_walk_loop_exit c pre_ts pre_bin pre_h pkt fuel r.2.1
        (pos_mod ((ts_interval_l : Int) + c.d_num_samples) c.TIMESTAMP_MOD) symbols'
    else some symbols

/-- A normalised, sorted packet whose only data peak (timestamp 3000) lies
behind grid interval 0. -/
def pkt_late_peak : List Peak := [⟨0, 10, 1⟩, ⟨3000, 5, 1⟩]

/-- Line 350: the DATA rule of the assembler for a peak `q` against a packet
whose first peak is `pre`. -/
def data_rule (c : Config) (pre q : Peak) : Prop :=
  4 * c.d_num_samples < pos_mod ((q.ts : Int) - pre.ts) c.TIMESTAMP_MOD ∧
    pos_mod ((q.ts : Int) - pre.ts) c.TIMESTAMP_MOD < c.TIMESTAMP_MOD / 2

/-- A packet whose preamble was detected at timestamp 1000 and whose two data
peaks were accepted later, stored in the order of acceptance. -/
def pkt_unsorted : List Peak := [⟨1000, 10, 1⟩, ⟨2540, 12, 1⟩, ⟨2280, 11, 1⟩]

/-- In every open packet each peak after the first satisfies the DATA rule
against the first peak. -/
def PacketTsInv (c : Config) (s : State) : Prop :=
  ∀ ps ∈ s.d_packet_state_list, ∀ (pre : Peak) (data : List Peak),
    s.d_packet.getD ps.packet_id [] = pre :: data → ∀ q ∈ data, data_rule c pre q

/-- Line 268: `l_idx = len/2 - d_overlaps*(d_num_preamble-1)/2`, an
`unsigned short`. -/
def preamble_l_idx (len : Nat) : Nat :=
  (len / 2 - d_overlaps * (d_num_preamble - 1) / 2) % 65536

/-- Line 269: `r_idx = (len-1)/2 + d_overlaps*(d_num_preamble-1)/2`, an
`unsigned short`. -/
def preamble_r_idx (len : Nat) : Nat :=
  ((len - 1) / 2 + d_overlaps * (d_num_preamble - 1) / 2) % 65536

/-- Lines 293-302 with every access `track[i]` checked against the size of the
track: `none` as soon as an index is out of range. -/
def apex_loop_checked (track : List Peak) : List Nat → ℚ × Nat → Option (ℚ × Nat)
  | [], acc => some acc
  | i :: rest, acc =>
    match track[i]? with
    | none => none
    | some o =>
      if o.h > acc.1 then apex_loop_checked track rest (o.h, i)
      else apex_loop_checked track rest acc

/-- Lines 280-284 with every access `track[i]` checked. -/
def height_sum_checked (track : List Peak) : List Nat → ℚ → Option ℚ
  | [], sum => some sum
  | i :: rest, sum =>
    match track[i]? with
    | none => none
    | some o => height_sum_checked track rest (f32 (sum + o.h))

/-- Lines 252-313 with every access `track[i]` checked against the size of the
track: `none` if some access is out of range, otherwise the result of
`get_central_peak`. -/
def get_central_peak_checked (c : Config) (track : List Peak) : Option (symbol_type × Peak) :=
  let len := track.length % 65536
  if len ≥ d_overlaps * (d_num_preamble - 1) + 2 then
    match track[preamble_l_idx len]?, track[preamble_r_idx len]? with
    | some l, some r =>
      match height_sum_checked track
        (List.range' (d_overlaps * 2) (d_overlaps * (d_num_preamble - 2) - d_overlaps * 2)) 0 with
      | some sum =>
        let h := f32 (sum / ((d_overlaps * (d_num_preamble - 4) : Nat) : ℚ))
        if l.h > r.h then
          some (symbol_type.SYMBOL_PREAMBLE,
            ⟨l.ts + c.d_num_samples / 4 + (d_num_preamble - 1) * c.d_num_samples, l.bin, h⟩)
        else
          some (symbol_type.SYMBOL_PREAMBLE, ⟨r.ts + c.d_num_samples / 4, r.bin, h⟩)
      | none => none
    | _, _ => none
  else if len ≥ 2 ∧ len ≤ 2 * d_overlaps then
    match track[0]? with
    | none => none
    | some o0 =>
      match apex_loop_checked track (List.range' 1 (len - 1)) (o0.h, 0) with
      | none => none
      | some r =>
        match track[r.2]? with
        | none => none
        | some o => some (symbol_type.SYMBOL_DATA, o)
  else some (symbol_type.SYMBOL_BROKEN_DATA, default)

/-! ## Spectrum fold (lines 521-524 and 531-534 of `general_work`) -/

/-- The value of an `unsigned int` expression: reduction modulo `2^32`. -/
def u32 (x : Int) : Nat := (x % 4294967296).toNat

/-- `volk_32f_x2_add_32f(out, a, &b[sb], n)` over the indices `0, ..., n-1`:
`out[i] = a[i] + b[sb + i]`, with every read checked against the size of the
buffer it reads (`none` as soon as a read is out of range). -/
def add_32f (a b : List ℚ) (sb : Nat) : List Nat → Option (List ℚ)
  | [] => some []
  | i :: rest =>
    match a[i]?, b[sb + i]?, add_32f a b sb rest with
    | some x, some y, some out => some ((x + y) :: out)
    | _, _, _ => none

/-- Lines 522-524: the fold of the `d_fft_size` magnitudes `fft_res_mag` into
`d_bin_size` bins. `d_fft_size` is an `unsigned int`, so the slice starts
`d_fft_size - 2*d_bin_size` and `d_fft_size - d_bin_size` are taken modulo
`2^32`. -/
def fold (c : Config) (fft_res_mag : List ℚ) : Option (List ℚ) :=
  match add_32f fft_res_mag fft_res_mag c.d_bin_size (List.range c.d_bin_size) with
  | none => none
  | some r1 =>
    match add_32f r1 fft_res_mag (u32 ((c.d_fft_size : Int) - 2 * c.d_bin_size))
        (List.range c.d_bin_size) with
    | none => none
    | some r2 =>
      add_32f r2 fft_res_mag (u32 ((c.d_fft_size : Int) - c.d_bin_size))
        (List.range c.d_bin_size)

/-- The starts of the four folded slices of lines 522-524, as integers: `0`,
`B`, `FFT - 2B`, `FFT - B`. -/
def fold_offsets (c : Config) : List Int :=
  [0, (c.d_bin_size : Int), (c.d_fft_size : Int) - 2 * c.d_bin_size,
    (c.d_fft_size : Int) - c.d_bin_size]

/-- The slice of `d_bin_size` magnitudes starting at `o` lies inside the buffer
of `d_fft_size` magnitudes. -/
def slice_inside (c : Config) (o : Int) : Prop :=
  0 ≤ o ∧ o + c.d_bin_size ≤ c.d_fft_size

/-- A small configuration to evaluate the fold on: SF 1, `fft_factor = 1`,
`p = 2` (`B = 2`, `FFT = 4`). -/
def cfg_small : Config := ⟨1, false, 1, 2, 0, 1073741824⟩

/-- Four open packets whose preamble peaks lie 512, 1344, 1312 and 1504 samples
before timestamp 10000 (`N = 256`): the first is too close to be a candidate,
the others are at distance `1/2`, `1/4` and `1/4`. -/
def st_four_packets : State :=
  { init with
    d_packet := [[⟨9488, 10, 1⟩], [⟨8656, 10, 1⟩], [⟨8688, 10, 1⟩], [⟨8496, 10, 1⟩]]
      ++ List.replicate (packet_id_size - 4) []
    d_packet_state_list := [⟨0, 50⟩, ⟨1, 50⟩, ⟨2, 50⟩, ⟨3, 50⟩]
    d_packet_id_pool := (List.range packet_id_size).drop 4 }

/-- The largest admitted spreading factor with a wide transform: SF 12,
`fft_factor = 32`, `p = 16` (`N = 65536`, `B = 131072`, `N*B = 2^33`). -/
def cfg_wide : Config := ⟨12, false, 32, 16, 5 / 1000, 1073741824⟩

/-- A packet for `cfg_wide`: preamble at bin 10 and one data peak in grid interval
0 at timestamp `4*N + 36864`, whose bin `73898 = (10 + 32*5 + 36864*B/N) mod B`
carries the symbol 5. -/
def pkt_wide : List Peak := [⟨0, 10, 1⟩, ⟨299008, 73898, 1⟩]

/-- Spec-side distance: `d(pk) = phase_term(pk) + |pk.h - pre_h| / pre_h` in exact
arithmetic, `phase_term = 2*f` for `f <= 1/2` and `2*(1-f)` otherwise,
`f = (pk.ts mod N)/N`. -/
def peak_dis_exact (c : Config) (pre_h : ℚ) (pk : Peak) : ℚ :=
  let f : ℚ := ((pk.ts % c.d_num_samples : Nat) : ℚ) / (c.d_num_samples : ℚ)
  (if f ≤ 1 / 2 then 2 * f else 2 * (1 - f)) + |pk.h - pre_h| / pre_h

/-- A packet (`N = 256`, preamble height 3) whose two data peaks lie in grid
interval 0 and have the same exact distance `5/6`: `1/2 + 1/3` and `0 + 5/6`. -/
def pkt_exact_tie : List Peak := [⟨0, 10, 3⟩, ⟨1216, 20, 4⟩, ⟨1280, 30, 11 / 2⟩]

/-- Lines 315-392 continued past the undefined read of line 328. Where
`add_symbol_to_packet` stops at `front()` on the empty deque, execution goes on
with lines 328-334: `g` is the value the read yields and `pool_after` the deque
that `pop_front()` leaves; the peak is pushed on `d_packet[g]` and the packet
state `(g, d_ttl)` is appended. -/
def add_symbol_to_packet_ub (c : Config) (g : Nat) (pool_after : List Nat) (s : State)
    (pk : Peak) (st : symbol_type) : State × Bool :=
  match add_symbol_to_packet c s pk st with
  | .ok res => res
  | .error _ =>
    ({ s with
      d_packet_id_pool := pool_after
      d_packet := push_peak s.d_packet g pk
      d_packet_state_list := s.d_packet_state_list ++ [⟨g, (d_ttl : Int)⟩] }, true)

/-- Lines 398-425 with `add_symbol_to_packet_ub` for the call of line 409. -/
def close_tracks_ub (c : Config) (g : Nat) (pool_after : List Nat) :
    List bin_track_id → State → State
  | [], s => s
  | bt :: rest, s =>
    if bt.updated then close_tracks_ub c g pool_after rest s
    else
      let r := get_central_peak c (s.d_track.getD bt.track_id [])
      let s1 : State :=
        if r.1 = symbol_type.SYMBOL_PREAMBLE ∨ r.1 = symbol_type.SYMBOL_DATA then
          (add_symbol_to_packet_ub c g pool_after s r.2 r.1).1
        else s
      close_tracks_ub c g pool_after rest { s1 with
        d_track_id_pool := s1.d_track_id_pool ++ [bt.track_id]
        d_track := s1.d_track.set bt.track_id [] }

/-- Lines 394-444 with `close_tracks_ub` for the loop. -/
def check_and_update_track_ub (c : Config) (g : Nat) (pool_after : List Nat) (s : State) :
    State :=
  let s1 := close_tracks_ub c g pool_after s.d_bin_track_id_list s
  { s1 with
    d_bin_track_id_list :=
      (s1.d_bin_track_id_list.filter (fun bt => bt.updated)).map
        (fun bt => { bt with updated := false }) }

/-- Lines 453-736 with `check_and_update_track_ub` for the call of
`check_and_update_track`: the step as the program completes it when the read of
line 328 yields `g` and `pop_front()` leaves `pool_after`. -/
def general_work_ub (c : Config) (g : Nat) (pool_after : List Nat) (ninput : Nat)
    (fft_res_add fft_res_add_w : Nat → ℚ) (s : State) : Except Fault State :=
  if ninput < 4 * c.d_num_samples then .ok s
  else
    match find_and_add_peak c fft_res_add fft_res_add_w s with
    | .error e => .error e
    | .ok s1 =>
      let s2 := check_and_update_track_ub c g pool_after s1
      .ok (age_and_advance c (finish_packets c s2.d_packet_state_list s2))

/-- Forty open packets (ids 0..39, `ttl = 13`, each holding its preamble peak
`(1344, 3*j, 1)`), no free packet id, and one open track (id 0) of 82
observations of equal height, taken at the steps 83 to 164 on relative bin 5,
that the next quiet step closes (`d_ts_ref = 165*16`, `d_bin_ref = 165*8 mod 128`). -/
def st_forty_open : State where
  d_track := init.d_track.set 0
    ((List.range 82).map (fun k => ⟨16 * (83 + k), (5 + 8 * (83 + k)) % 128, 1⟩))
  d_bin_track_id_list := [⟨5, 0, false⟩]
  d_track_id_pool := (List.range track_size).drop 1
  d_packet := (List.range packet_id_size).map (fun j => [⟨1344, 3 * j, 1⟩])
  d_packet_state_list := (List.range packet_id_size).map (fun j => ⟨j, 13⟩)
  d_packet_id_pool := []
  d_ts_ref := 2640
  d_bin_ref := 40
  published := []

/-- The state one quiet step after `st_forty_open` when the read of line 328
yields `g` and `pop_front()` leaves `pool_after`: the track is closed, its
PREAMBLE peak `(2672, 29, 1)` is pushed on packet `g`, and the packet state
`(g, d_ttl)` is appended and aged with the forty others. -/
def st_forty_one (g : Nat) (pool_after : List Nat) : State where
  d_track := init.d_track
  d_bin_track_id_list := []
  d_track_id_pool := (List.range track_size).drop 1 ++ [0]
  d_packet := push_peak st_forty_open.d_packet g ⟨2672, 29, 1⟩
  d_packet_state_list := (List.range packet_id_size).map (fun j => ⟨j, 12⟩) ++ [⟨g, 95⟩]
  d_packet_id_pool := pool_after
  d_ts_ref := 2656
  d_bin_ref := 48
  published := []

/-! ## Arithmetic of `pos_mod` -/

theorem neg_lt_tmod (a : Int) (m : Nat) (hm : 0 < m) : -(m : Int) < Int.tmod a m := by
  cases a with
  | ofNat k =>
    have : (0 : Int) ≤ Int.tmod (Int.ofNat k) m := Int.tmod_nonneg _ (Int.ofNat_nonneg k)
    have hm' : (0 : Int) < m := by exact_mod_cast hm
    omega
  | negSucc k =>
    show -(m : Int) < -Int.ofNat (Nat.succ k % m)
    have : Nat.succ k % m < m := Nat.mod_lt _ hm
    simp only [Int.ofNat_eq_coe]
    omega

/-- For a positive modulus `pos_mod` is the Euclidean remainder. -/
theorem pos_mod_cast (a : Int) (m : Nat) (hm : 0 < m) : (pos_mod a m : Int) = a % (m : Int) := by
  unfold pos_mod
  have hm' : (0 : Int) < m := by exact_mod_cast hm
  have h1 := neg_lt_tmod a m hm
  have h2 : (0 : Int) ≤ Int.tmod a m + m := by omega
  rw [Int.tmod_eq_emod h2 hm'.le, Int.toNat_of_nonneg (Int.emod_nonneg _ hm'.ne')]
  rw [Int.add_emod_self, Int.tmod_def, Int.sub_eq_add_neg, ← Int.mul_neg,
    Int.add_mul_emod_self_left]

theorem pos_mod_lt (a : Int) (m : Nat) (hm : 0 < m) : pos_mod a m < m := by
  have h := pos_mod_cast a m hm
  have hm' : (0 : Int) < m := by exact_mod_cast hm
  have := Int.emod_lt_of_pos a hm'
  omega

theorem pos_mod_nat (a m : Nat) (hm : 0 < m) : pos_mod (a : Int) m = a % m := by
  have h := pos_mod_cast a m hm
  have : ((a : Int) % (m : Int)) = ((a % m : Nat) : Int) := by simp
  omega

theorem d_num_symbols_pos (c : Config) : 0 < c.d_num_symbols := by
  unfold Config.d_num_symbols; positivity

theorem d_bin_size_pos (c : Config) (hF : 1 ≤ c.fft_factor) : 0 < c.d_bin_size := by
  unfold Config.d_bin_size
  exact Nat.mul_pos hF (d_num_symbols_pos c)

theorem d_num_samples_pos (c : Config) (hp : 1 ≤ c.p) : 0 < c.d_num_samples := by
  unfold Config.d_num_samples
  exact Nat.mul_pos hp (d_num_symbols_pos c)

/-! ## Symbol emitter -/

/-- C1: when a packet is finalised, a message is published exactly when the
symbol sequence built by the grid walk has at least 8 elements, the message is
that sequence unchanged, and a shorter sequence leaves the output untouched. -/
theorem finish_packet_published (c : Config) (s : State) (ps : packet_state) :
    (finish_packet c s ps).published =
      if 8 ≤ (demod_packet c (s.d_packet.getD ps.packet_id [])).length then
        s.published ++ [demod_packet c (s.d_packet.getD ps.packet_id [])]
      else s.published := by
  by_cases h : 8 ≤ (demod_packet c (s.d_packet.getD ps.packet_id [])).length
  · simp only [finish_packet, publish, ge_iff_le, if_pos h]
  · simp only [finish_packet, publish, ge_iff_le, if_neg h]

theorem symbol_of_peak_lt (c : Config) (hF : 1 ≤ c.fft_factor) (pre_ts pre_bin : Nat)
    (pk : Peak) : symbol_of_peak c pre_ts pre_bin pk < c.d_num_symbols := by
  have hB := d_bin_size_pos c hF
  have aux : ∀ x : Int, (pos_mod x c.d_bin_size / c.fft_factor) % 65536 < c.d_num_symbols := by
    intro x
    have h1 := pos_mod_lt x c.d_bin_size hB
    have h2 : pos_mod x c.d_bin_size / c.fft_factor < c.d_num_symbols := by
      apply Nat.div_lt_of_lt_mul
      simpa [Config.d_bin_size] using h1
    exact lt_of_le_of_lt (Nat.mod_le _ _) h2
  unfold symbol_of_peak
  exact aux _

theorem grid_walk_loop_lt (c : Config) (hF : 1 ≤ c.fft_factor) (pre_ts pre_bin : Nat)
    (pre_h : ℚ) (pkt : List Peak) :
    ∀ (fuel start_idx ts_interval_l : Nat) (symbols : List Nat),
      (∀ x ∈ symbols, x < c.d_num_symbols) →
      ∀ x ∈ grid_walk_loop c pre_ts pre_bin pre_h pkt fuel start_idx ts_interval_l symbols,
        x < c.d_num_symbols := by
  intro fuel
  induction fuel with
  | zero => intro _ _ symbols h x hx; exact h x (by simpa [grid_walk_loop] using hx)
  | succ n ih =>
    intro start_idx L symbols h x hx
    rw [grid_walk_loop] at hx
    split at hx
    · refine ih _ _ _ ?_ x hx
      intro y hy
      split at hy
      · rcases List.mem_append.1 hy with hy | hy
        · exact h y hy
        · rw [List.mem_singleton.1 hy]; exact symbol_of_peak_lt c hF _ _ _
      · rcases List.mem_append.1 hy with hy | hy
        · exact h y hy
        · rw [List.mem_singleton.1 hy]; exact d_num_symbols_pos c
    · exact h x hx

/-- C2: for a valid configuration (`sf` in 7..12, `fft_factor >= 1`, `p >= 1`)
every element of the symbol vector of a finalised packet, computed from a peak
or emitted as the missing marker, is below `d_num_symbols = 2^sf`. -/
theorem demod_packet_lt (c : Config) (_hsf : 7 ≤ c.sf ∧ c.sf ≤ 12) (hF : 1 ≤ c.fft_factor)
    (_hp : 1 ≤ c.p) (pkt : List Peak) :
    ∀ x ∈ demod_packet c pkt, x < c.d_num_symbols := by
  intro x hx
  unfold demod_packet grid_walk at hx
  exact grid_walk_loop_lt c hF _ _ _ _ _ _ _ [] (by simp) x hx

/-- Drift removal recovers the modulation index as long as the product of line
665 fits 32 bits (`N*B <= 2^32`): with the preamble at timestamp 0, a peak at
normalised timestamp `t` whose bin is `(pre_bin + F*s + (t mod N)*B/N) mod B`
yields the symbol `s`. -/
theorem symbol_of_peak_drift (c : Config) (hsf : 7 ≤ c.sf ∧ c.sf ≤ 12)
    (hF : 1 ≤ c.fft_factor) (hp : 1 ≤ c.p) (s pre_bin t : Nat) (h : ℚ)
    (hs : s < c.d_num_symbols) (_hpre : pre_bin < c.d_bin_size)
    (hfit : c.d_num_samples * c.d_bin_size ≤ 4294967296) :
    symbol_of_peak c 0 pre_bin
      ⟨t, (pre_bin + c.fft_factor * s
            + (t % c.d_num_samples) * c.d_bin_size / c.d_num_samples) % c.d_bin_size, h⟩
      = s := by
  have hB := d_bin_size_pos c hF
  have hN := d_num_samples_pos c hp
  have hM : c.d_num_symbols ≤ 65536 := by
    unfold Config.d_num_symbols
    calc 2 ^ c.sf ≤ 2 ^ 12 := Nat.pow_le_pow_right (by norm_num) hsf.2
      _ ≤ 65536 := by norm_num
  have hN128 : 128 ≤ c.d_num_samples := by
    unfold Config.d_num_samples Config.d_num_symbols
    calc 128 = 1 * 2 ^ 7 := by norm_num
      _ ≤ c.p * 2 ^ c.sf := Nat.mul_le_mul hp (Nat.pow_le_pow_right (by norm_num) hsf.1)
  have hprod : (t % c.d_num_samples) * c.d_bin_size < c.d_num_samples * c.d_bin_size :=
    Nat.mul_lt_mul_of_pos_right (Nat.mod_lt _ hN) hB
  have hquot : (t % c.d_num_samples) * c.d_bin_size / c.d_num_samples < 2147483648 := by
    have h1 : (t % c.d_num_samples) * c.d_bin_size / c.d_num_samples < c.d_bin_size :=
      Nat.div_lt_of_lt_mul hprod
    have h2 : 128 * c.d_bin_size ≤ c.d_num_samples * c.d_bin_size :=
      Nat.mul_le_mul_right _ hN128
    omega
  unfold symbol_of_peak
  simp only [Nat.cast_zero, sub_zero]
  rw [pos_mod_nat t _ hN, Nat.mod_eq_of_lt (lt_of_lt_of_le hprod hfit), if_pos hquot]
  generalize (t % c.d_num_samples) * c.d_bin_size / c.d_num_samples = sh
  have hFs : c.fft_factor * s < c.d_bin_size := by
    unfold Config.d_bin_size
    exact Nat.mul_lt_mul_of_pos_left hs hF
  have key : pos_mod ((((pre_bin + c.fft_factor * s + sh) % c.d_bin_size : Nat) : Int)
      - pre_bin - sh) c.d_bin_size = c.fft_factor * s := by
    have hc := pos_mod_cast ((((pre_bin + c.fft_factor * s + sh) % c.d_bin_size : Nat) : Int)
      - pre_bin - sh) c.d_bin_size hB
    have e1 : ((((pre_bin + c.fft_factor * s + sh) % c.d_bin_size : Nat) : Int)
        - pre_bin - sh)
        = ((c.fft_factor * s : Nat) : Int)
          + (c.d_bin_size : Int) * (-(((pre_bin + c.fft_factor * s + sh) / c.d_bin_size : Nat) : Int)) := by
      have := Nat.mod_add_div (pre_bin + c.fft_factor * s + sh) c.d_bin_size
      have hz : (((pre_bin + c.fft_factor * s + sh) % c.d_bin_size : Nat) : Int)
          + (c.d_bin_size : Int) * (((pre_bin + c.fft_factor * s + sh) / c.d_bin_size : Nat) : Int)
          = ((pre_bin + c.fft_factor * s + sh : Nat) : Int) := by exact_mod_cast this
      push_cast at hz ⊢
      linarith
    rw [e1] at hc ⊢
    rw [Int.add_mul_emod_self_left] at hc
    have e2 : ((c.fft_factor * s : Nat) : Int) % (c.d_bin_size : Int)
        = ((c.fft_factor * s : Nat) : Int) := by
      apply Int.emod_eq_of_lt
      · exact Int.ofNat_nonneg _
      · exact_mod_cast hFs
    rw [e2] at hc
    exact_mod_cast hc
  rw [key, Nat.mul_div_cancel_left s hF]
  exact Nat.mod_eq_of_lt (lt_of_lt_of_le hs hM)

theorem demod_packet_lt_witness :
    (7 ≤ cfg7.sf ∧ cfg7.sf ≤ 12) ∧ 1 ≤ cfg7.fft_factor ∧ 1 ≤ cfg7.p ∧
      ∀ x ∈ demod_packet cfg7 pkt_missing4, x < cfg7.d_num_symbols :=
  ⟨by decide, by decide, by decide,
    demod_packet_lt cfg7 (by decide) (by decide) (by decide) pkt_missing4⟩

theorem symbol_of_peak_drift_witness :
    symbol_of_peak cfg7 0 10 ⟨1300, (10 + 1 * 5 + (1300 % 256) * 128 / 256) % 128, 1⟩ = 5 :=
  symbol_of_peak_drift cfg7 (by decide) (by decide) (by decide) 5 10 1300 1
    (by decide) (by decide) (by decide)

theorem scan_interval_end (c : Config) (L : Nat) :
    ∀ (l : List Peak) (end_idx start_idx : Nat) (is_first found : Bool),
      end_idx ≤ (scan_interval c L l end_idx start_idx is_first found).2.1 ∧
      (scan_interval c L l end_idx start_idx is_first found).2.1 ≤ end_idx + l.length ∧
      (is_first = true → l ≠ [] →
        end_idx + 1 ≤ (scan_interval c L l end_idx start_idx is_first found).2.1) := by
  intro l
  induction l with
  | nil => intro e s f g; cases f <;> simp [scan_interval]
  | cons pk rest ih =>
    intro e s f g
    cases f with
    | true =>
      rw [scan_interval]
      split
      · have := ih (e + 1) e false true
        simp only [List.length_cons]
        omega
      · have := ih (e + 1) s true g
        simp only [List.length_cons]
        omega
    | false =>
      rw [scan_interval]
      split
      · have := ih (e + 1) s false g
        simp only [List.length_cons]
        refine ⟨by omega, by omega, by simp⟩
      · simp

/-- The outer loop of the grid walk needs at most `pkt.length - start_idx`
iterations: further fuel does not change its result. -/
theorem grid_walk_loop_fuel (c : Config) (pre_ts pre_bin : Nat) (pre_h : ℚ)
    (pkt : List Peak) :
    ∀ (fuel k start_idx L : Nat) (symbols : List Nat), pkt.length - start_idx ≤ fuel →
      grid_walk_loop c pre_ts pre_bin pre_h pkt (fuel + k) start_idx L symbols =
        grid_walk_loop c pre_ts pre_bin pre_h pkt fuel start_idx L symbols := by
  intro fuel
  induction fuel with
  | zero =>
    intro k start_idx L symbols h
    cases k with
    | zero => rfl
    | succ k =>
      have : ¬ start_idx < pkt.length := by omega
      simp [grid_walk_loop, this]
  | succ n ih =>
    intro k start_idx L symbols h
    have e : n + 1 + k = (n + k) + 1 := by omega
    rw [e, grid_walk_loop, grid_walk_loop]
    by_cases hlt : start_idx < pkt.length
    · simp only [if_pos hlt]
      apply ih
      have hne : pkt.drop start_idx ≠ [] := by
        intro h0
        have := congrArg List.length h0
        simp at this
        omega
      have := (scan_interval_end c L (pkt.drop start_idx) start_idx start_idx true false).2.2
        rfl hne
      omega
    · simp only [if_neg hlt]

/-- C4: the packet `pkt_missing4` has one data peak in each of the grid intervals
0, 1, 2, 3, 5, 6, 7 and none in interval 4; the walk emits the four symbols of
intervals 0-3, then the missing marker, and stops: the vector has length 5 and
is not published. -/
theorem demod_packet_missing4 :
    (sort_peaks (normalise cfg7 1000 pkt_missing4)).map (fun pk => pk.ts)
        = [0, 1280, 1536, 1792, 2048, 2560, 2816, 3072] ∧
      4 * cfg7.d_num_samples + cfg7.d_num_samples / 2 = 1152 ∧ cfg7.d_num_samples = 256 ∧
      demod_packet cfg7 pkt_missing4 = [1, 2, 3, 4, 0] ∧
      publish (demod_packet cfg7 pkt_missing4) = none := by
  decide!

/-! ## Classifier -/

/-- The kind returned by `get_central_peak` depends on the track only through
its length reduced to 16 bits. -/
theorem get_central_peak_kind (c : Config) (track : List Peak) :
    (get_central_peak c track).1 =
      if 82 ≤ track.length % 65536 then symbol_type.SYMBOL_PREAMBLE
      else if 2 ≤ track.length % 65536 ∧ track.length % 65536 ≤ 32 then
        symbol_type.SYMBOL_DATA
      else symbol_type.SYMBOL_BROKEN_DATA := by
  unfold get_central_peak
  simp only [d_overlaps, d_num_preamble, ge_iff_le]
  by_cases h1 : 82 ≤ track.length % 65536
  · have h1' : 16 * (6 - 1) + 2 ≤ track.length % 65536 := h1
    rw [if_pos h1', if_pos h1]
    split <;> rfl
  · have h1' : ¬ 16 * (6 - 1) + 2 ≤ track.length % 65536 := h1
    rw [if_neg h1', if_neg h1]
    by_cases h2 : 2 ≤ track.length % 65536 ∧ track.length % 65536 ≤ 32
    · have h2' : 2 ≤ track.length % 65536 ∧ track.length % 65536 ≤ 2 * 16 := h2
      rw [if_pos h2', if_pos h2]
    · have h2' : ¬ (2 ≤ track.length % 65536 ∧ track.length % 65536 ≤ 2 * 16) := h2
      rw [if_neg h2', if_neg h2]

/-- For a track shorter than 65536 observations the kind follows the three
length regimes: PREAMBLE from 82 on, DATA from 2 to 32, BROKEN_DATA otherwise. -/
theorem get_central_peak_kind_short (c : Config) (track : List Peak)
    (hlen : track.length < 65536) :
    (get_central_peak c track).1 =
      if 82 ≤ track.length then symbol_type.SYMBOL_PREAMBLE
      else if 2 ≤ track.length ∧ track.length ≤ 32 then symbol_type.SYMBOL_DATA
      else symbol_type.SYMBOL_BROKEN_DATA := by
  rw [get_central_peak_kind, Nat.mod_eq_of_lt hlen]

/-- C5: a closed track of 65538 observations is classified DATA, because
`len` holds the size reduced to 16 bits (65538 mod 65536 = 2); by its length it
is a PREAMBLE track. -/
theorem get_central_peak_long_track :
    long_track.length = 65538 ∧
      (get_central_peak cfg7 long_track).1 = symbol_type.SYMBOL_DATA := by
  have hlen : long_track.length = 65538 := List.length_replicate _ _
  refine ⟨hlen, ?_⟩
  rw [get_central_peak_kind, hlen]
  decide

/-! ## Packet assembler -/

/-! ## Exactness of `float` arithmetic on the timestamp grid -/

theorem log2_fuel_spec :
    ∀ (fuel n : Nat), n ≤ fuel → 0 < n →
      2 ^ log2_fuel fuel n ≤ n ∧ n < 2 ^ (log2_fuel fuel n + 1) := by
  intro fuel
  induction fuel with
  | zero => intro n h1 h2; omega
  | succ fuel ih =>
    intro n h1 h2
    rw [log2_fuel]
    by_cases h : n < 2
    · rw [if_pos h]
      have : n = 1 := by omega
      subst this
      exact ⟨by norm_num, by norm_num⟩
    · rw [if_neg h]
      obtain ⟨a, b⟩ := ih (n / 2) (by omega) (by omega)
      have e1 : 2 ^ (log2_fuel fuel (n / 2) + 1) = 2 * 2 ^ log2_fuel fuel (n / 2) := by
        rw [pow_succ]; ring
      have e2 : 2 ^ (log2_fuel fuel (n / 2) + 1 + 1)
          = 2 * 2 ^ (log2_fuel fuel (n / 2) + 1) := by
        rw [pow_succ]; ring
      rw [e2]
      constructor <;> omega

theorem pow2_neg (k : Nat) : pow2 (-(k : Int)) = 1 / ((2 ^ k : Nat) : ℚ) := by
  unfold pow2
  cases k with
  | zero => simp
  | succ k =>
    rw [if_neg (by omega)]
    simp

theorem round_half_even_nat (m : Nat) : round_half_even (m : ℚ) = m := by
  unfold round_half_even
  have : ⌊(m : ℚ)⌋ = (m : Int) := Int.floor_natCast m
  rw [this]
  simp

/-- A natural number below `2^24` is a binary32 number. -/
theorem f32_nat (n : Nat) (h : n < 16777216) : f32 (n : ℚ) = n := by
  by_cases h0 : n = 0
  · subst h0; simp [f32]
  have hpos : 0 < n := Nat.pos_of_ne_zero h0
  obtain ⟨a, b⟩ := log2_fuel_spec n n (le_refl _) hpos
  have he : log2_fuel n n ≤ 23 := by
    by_contra hc
    have : 2 ^ 24 ≤ 2 ^ log2_fuel n n := Nat.pow_le_pow_right (by norm_num) (by omega)
    omega
  have hil : ilog2 (n : ℚ) = (log2_fuel n n : Int) := by
    unfold ilog2
    simp only [Rat.num_natCast, Int.natAbs_ofNat, Rat.den_natCast]
    have h1 : log2_fuel 1 1 = 0 := rfl
    rw [h1]
    simp only [Nat.cast_zero, sub_zero]
    rw [if_pos]
    unfold pow2
    rw [if_pos (Int.ofNat_nonneg _), Int.toNat_ofNat, abs_of_nonneg (by positivity)]
    exact_mod_cast a
  unfold f32
  rw [if_neg (by exact_mod_cast h0)]
  simp only
  rw [if_neg (by simp), hil, max_eq_left (by omega)]
  have hexp : ((log2_fuel n n : Int) - 23) = -((23 - log2_fuel n n : Nat) : Int) := by omega
  rw [hexp, pow2_neg, abs_of_nonneg (by positivity)]
  have hm : (n : ℚ) / (1 / ((2 ^ (23 - log2_fuel n n) : Nat) : ℚ))
      = ((n * 2 ^ (23 - log2_fuel n n) : Nat) : ℚ) := by
    push_cast
    field_simp
  rw [hm, round_half_even_nat]
  push_cast
  field_simp

/-- On a sixteenth of the symbol period the `float` phase distance is exact. -/
theorem phase_exact :
    ∀ k : Nat, k < 16 →
      (if f32 ((k : ℚ) / 16) > 1 / 2 then f32 (f32 (1 - f32 ((k : ℚ) / 16)) * 2)
        else f32 (f32 ((k : ℚ) / 16) * 2))
      = if (k : ℚ) / 16 ≤ 1 / 2 then 2 * ((k : ℚ) / 16) else 2 * (1 - (k : ℚ) / 16) := by
  decide!

/-- Lines 352-355 on the grid: when the distance to the symbol grid is a
multiple of `N/16`, as it is for timestamps on the step grid, the `float` value
is the exact `2*f` (for `f <= 1/2`) or `2*(1-f)`, `f = (ts_dis mod N)/N`. -/
theorem phase_dis_grid (c : Config) (ts_dis : Int) (k : Nat)
    (hN : 0 < c.d_num_samples) (hN24 : c.d_num_samples < 16777216)
    (hk : 16 * pos_mod ts_dis c.d_num_samples = k * c.d_num_samples) :
    phase_dis c ts_dis =
      if ((pos_mod ts_dis c.d_num_samples : Nat) : ℚ) / (c.d_num_samples : ℚ) ≤ 1 / 2 then
        2 * (((pos_mod ts_dis c.d_num_samples : Nat) : ℚ) / (c.d_num_samples : ℚ))
      else 2 * (1 - ((pos_mod ts_dis c.d_num_samples : Nat) : ℚ) / (c.d_num_samples : ℚ)) := by
  have hr := pos_mod_lt ts_dis c.d_num_samples hN
  have hk16 : k < 16 := by
    by_contra hc
    have : 16 * c.d_num_samples ≤ k * c.d_num_samples := Nat.mul_le_mul_right _ (by omega)
    omega
  have hN0 : (c.d_num_samples : ℚ) ≠ 0 := by exact_mod_cast (Nat.pos_iff_ne_zero.1 hN)
  have hf : ((pos_mod ts_dis c.d_num_samples : Nat) : ℚ) / (c.d_num_samples : ℚ)
      = (k : ℚ) / 16 := by
    have : (16 : ℚ) * (pos_mod ts_dis c.d_num_samples : ℚ) = (k : ℚ) * (c.d_num_samples : ℚ) := by
      exact_mod_cast hk
    field_simp
    linarith
  unfold phase_dis
  simp only
  rw [f32_nat _ (by omega), f32_nat _ hN24, hf]
  exact phase_exact k hk16

theorem lt_min_trans (a b : ℚ) (m : Option ℚ) (h : lt_min a m = true) (hb : b < a) :
    lt_min b m = true := by
  cases m with
  | none => rfl
  | some x =>
    simp only [lt_min, decide_eq_true_eq] at h ⊢
    exact lt_trans hb h

theorem lt_of_lt_min (a b : ℚ) (m : Option ℚ) (ha : lt_min a m = false)
    (hb : lt_min b m = true) : b < a := by
  cases m with
  | none => simp [lt_min] at ha
  | some x =>
    simp only [lt_min, decide_eq_true_eq, decide_eq_false_iff_not, not_lt] at ha hb
    exact lt_of_lt_of_le hb ha

/-- What the loop of lines 344-365 leaves in its locals: either nothing
changed and no remaining candidate was closer than `min_dis`, or the locals
describe the first candidate of minimal distance. -/
theorem best_packet_loop_spec (c : Config) (P : List (List Peak)) (pk : Peak) :
    ∀ (l : List packet_state) (i0 : Nat) (m : match_state),
      (best_packet_loop c P pk l i0 m = m ∧
        ∀ (j : Nat) (ps : packet_state), l[j]? = some ps → is_candidate c P pk ps = true →
          lt_min (route_dis c P pk ps) m.min_dis = false) ∨
      (∃ (k : Nat) (ps : packet_state), l[k]? = some ps ∧ is_candidate c P pk ps = true ∧
        best_packet_loop c P pk l i0 m
          = ⟨i0 + k, ps.packet_id, some (route_dis c P pk ps), true⟩ ∧
        lt_min (route_dis c P pk ps) m.min_dis = true ∧
        (∀ (j : Nat) (ps' : packet_state), l[j]? = some ps' → is_candidate c P pk ps' = true →
          route_dis c P pk ps ≤ route_dis c P pk ps') ∧
        (∀ (j : Nat) (ps' : packet_state), j < k → l[j]? = some ps' →
          is_candidate c P pk ps' = true →
          route_dis c P pk ps < route_dis c P pk ps')) := by
  intro l
  induction l with
  | nil =>
    intro i0 m
    left
    exact ⟨rfl, by intro j ps h; simp at h⟩
  | cons p rest ih =>
    intro i0 m
    by_cases hc : is_candidate c P pk p = true
    · by_cases hl : lt_min (route_dis c P pk p) m.min_dis = true
      · -- the head becomes the current best
        have hstep : best_packet_loop c P pk (p :: rest) i0 m
            = best_packet_loop c P pk rest (i0 + 1)
                ⟨i0, p.packet_id, some (route_dis c P pk p), true⟩ := by
          rw [best_packet_loop, if_pos hc, if_pos hl]
        right
        rcases ih (i0 + 1) ⟨i0, p.packet_id, some (route_dis c P pk p), true⟩ with
          ⟨hr, hall⟩ | ⟨k, ps, hk, hcand, hr, hlt, hmin, hfirst⟩
        · refine ⟨0, p, by simp, hc, by rw [hstep, hr]; rfl, hl, ?_, ?_⟩
          · intro j ps' hj hc'
            cases j with
            | zero =>
              simp only [List.getElem?_cons_zero, Option.some.injEq] at hj
              subst hj; exact le_refl _
            | succ j =>
              simp only [List.getElem?_cons_succ] at hj
              have := hall j ps' hj hc'
              simpa [lt_min] using this
          · intro j ps' hj; omega
        · have hlt' : route_dis c P pk ps < route_dis c P pk p := by
            simpa [lt_min] using hlt
          refine ⟨k + 1, ps, by simpa using hk, hcand, ?_, lt_min_trans _ _ _ hl hlt', ?_, ?_⟩
          · rw [hstep, hr]
            have : i0 + 1 + k = i0 + (k + 1) := by omega
            rw [this]
          · intro j ps' hj hc'
            cases j with
            | zero =>
              simp only [List.getElem?_cons_zero, Option.some.injEq] at hj
              subst hj; exact le_of_lt hlt'
            | succ j =>
              simp only [List.getElem?_cons_succ] at hj
              exact hmin j ps' hj hc'
          · intro j ps' hjk hj hc'
            cases j with
            | zero =>
              simp only [List.getElem?_cons_zero, Option.some.injEq] at hj
              subst hj; exact hlt'
            | succ j =>
              simp only [List.getElem?_cons_succ] at hj
              exact hfirst j ps' (by omega) hj hc'
      · -- the head is a candidate but not closer
        have hl' : lt_min (route_dis c P pk p) m.min_dis = false := by
          simpa using hl
        have hstep : best_packet_loop c P pk (p :: rest) i0 m
            = best_packet_loop c P pk rest (i0 + 1) m := by
          rw [best_packet_loop, if_pos hc, if_neg hl]
        rcases ih (i0 + 1) m with ⟨hr, hall⟩ | ⟨k, ps, hk, hcand, hr, hlt, hmin, hfirst⟩
        · left
          refine ⟨by rw [hstep, hr], ?_⟩
          intro j ps' hj hc'
          cases j with
          | zero =>
            simp only [List.getElem?_cons_zero, Option.some.injEq] at hj
            subst hj; exact hl'
          | succ j =>
            simp only [List.getElem?_cons_succ] at hj
            exact hall j ps' hj hc'
        · right
          have hlt' : route_dis c P pk ps < route_dis c P pk p :=
            lt_of_lt_min _ _ _ hl' hlt
          refine ⟨k + 1, ps, by simpa using hk, hcand, ?_, hlt, ?_, ?_⟩
          · rw [hstep, hr]
            have : i0 + 1 + k = i0 + (k + 1) := by omega
            rw [this]
          · intro j ps' hj hc'
            cases j with
            | zero =>
              simp only [List.getElem?_cons_zero, Option.some.injEq] at hj
              subst hj; exact le_of_lt hlt'
            | succ j =>
              simp only [List.getElem?_cons_succ] at hj
              exact hmin j ps' hj hc'
          · intro j ps' hjk hj hc'
            cases j with
            | zero =>
              simp only [List.getElem?_cons_zero, Option.some.injEq] at hj
              subst hj; exact hlt'
            | succ j =>
              simp only [List.getElem?_cons_succ] at hj
              exact hfirst j ps' (by omega) hj hc'
    · -- the head is no candidate
      have hstep : best_packet_loop c P pk (p :: rest) i0 m
          = best_packet_loop c P pk rest (i0 + 1) m := by
        rw [best_packet_loop, if_neg hc]
      rcases ih (i0 + 1) m with ⟨hr, hall⟩ | ⟨k, ps, hk, hcand, hr, hlt, hmin, hfirst⟩
      · left
        refine ⟨by rw [hstep, hr], ?_⟩
        intro j ps' hj hc'
        cases j with
        | zero =>
          simp only [List.getElem?_cons_zero, Option.some.injEq] at hj
          subst hj; exact absurd hc' hc
        | succ j =>
          simp only [List.getElem?_cons_succ] at hj
          exact hall j ps' hj hc'
      · right
        refine ⟨k + 1, ps, by simpa using hk, hcand, ?_, hlt, ?_, ?_⟩
        · rw [hstep, hr]
          have : i0 + 1 + k = i0 + (k + 1) := by omega
          rw [this]
        · intro j ps' hj hc'
          cases j with
          | zero =>
            simp only [List.getElem?_cons_zero, Option.some.injEq] at hj
            subst hj; exact absurd hc' hc
          | succ j =>
            simp only [List.getElem?_cons_succ] at hj
            exact hmin j ps' hj hc'
        · intro j ps' hjk hj hc'
          cases j with
          | zero =>
            simp only [List.getElem?_cons_zero, Option.some.injEq] at hj
            subst hj; exact absurd hc' hc
          | succ j =>
            simp only [List.getElem?_cons_succ] at hj
            exact hfirst j ps' (by omega) hj hc'

theorem getD_push_peak_same (v : List (List Peak)) (id : Nat) (pk : Peak)
    (h : id < v.length) : (push_peak v id pk).getD id [] = v.getD id [] ++ [pk] := by
  unfold push_peak
  rw [List.getD_eq_getElem?_getD, List.getElem?_set_self h]
  rfl

theorem getD_push_peak_other (v : List (List Peak)) (id id' : Nat) (pk : Peak)
    (h : id' ≠ id) : (push_peak v id pk).getD id' [] = v.getD id' [] := by
  unfold push_peak
  rw [List.getD_eq_getElem?_getD, List.getElem?_set_ne (Ne.symm h),
    ← List.getD_eq_getElem?_getD]

theorem length_push_peak (v : List (List Peak)) (id : Nat) (pk : Peak) :
    (push_peak v id pk).length = v.length := by
  unfold push_peak
  exact List.length_set _ _ _

theorem mem_of_getElem?_eq_some {α : Type} (l : List α) (k : Nat) (a : α)
    (h : l[k]? = some a) : a ∈ l :=
  List.mem_iff_getElem?.2 ⟨k, h⟩

/-- C6: routing of a DATA peak. A packet state is a candidate iff its `ts_dis`,
which is `(pk.ts - peaks[0].ts) mod TIMESTAMP_MOD`, lies strictly between
`4*d_num_samples` and `TIMESTAMP_MOD/2`. The distance `route_dis` of a packet
is the `float` value of `2*f` (for `f <= 1/2`) or `2*(1-f)`,
`f = (ts_dis mod N)/N`, and is that number exactly whenever `ts_dis mod N` is a
multiple of `N/16` (`N < 2^24`), as it is for timestamps on the step grid.
Without a candidate the call returns `false` and leaves the whole state as it
was. With a candidate, the peak is appended to the packet of the candidate of
minimal distance (the first one in list order among equals), the `ttl` of that
entry becomes `d_ttl`, and every other packet, every other entry and both id
pools stay as they were. -/
theorem add_symbol_data_routing (c : Config) (s : State) (pk : Peak)
    (hwf : ∀ ps ∈ s.d_packet_state_list, ps.packet_id < s.d_packet.length) :
    (∀ ps, is_candidate c s.d_packet pk ps = true ↔
        4 * c.d_num_samples < ts_dis c s.d_packet pk ps ∧
          ts_dis c s.d_packet pk ps < c.TIMESTAMP_MOD / 2) ∧
    (∀ ps, ts_dis c s.d_packet pk ps
        = pos_mod ((pk.ts : Int) - ((s.d_packet.getD ps.packet_id []).getD 0 default).ts)
            c.TIMESTAMP_MOD ∧
      route_dis c s.d_packet pk ps
        = (if f32 (f32 (pos_mod (ts_dis c s.d_packet pk ps : Int) c.d_num_samples : ℚ)
              / f32 (c.d_num_samples : ℚ)) > 1 / 2
            then f32 (f32 (1 - f32 (f32 (pos_mod (ts_dis c s.d_packet pk ps : Int)
              c.d_num_samples : ℚ) / f32 (c.d_num_samples : ℚ))) * 2)
            else f32 (f32 (f32 (pos_mod (ts_dis c s.d_packet pk ps : Int) c.d_num_samples : ℚ)
              / f32 (c.d_num_samples : ℚ)) * 2))) ∧
    (∀ (ps : packet_state) (k : Nat), 0 < c.d_num_samples → c.d_num_samples < 16777216 →
      16 * (ts_dis c s.d_packet pk ps % c.d_num_samples) = k * c.d_num_samples →
      route_dis c s.d_packet pk ps
        = if ((ts_dis c s.d_packet pk ps % c.d_num_samples : Nat) : ℚ) / (c.d_num_samples : ℚ)
              ≤ 1 / 2
          then 2 * (((ts_dis c s.d_packet pk ps % c.d_num_samples : Nat) : ℚ)
            / (c.d_num_samples : ℚ))
          else 2 * (1 - ((ts_dis c s.d_packet pk ps % c.d_num_samples : Nat) : ℚ)
            / (c.d_num_samples : ℚ))) ∧
    ((∀ ps ∈ s.d_packet_state_list, is_candidate c s.d_packet pk ps = false) →
        add_symbol_to_packet c s pk symbol_type.SYMBOL_DATA = .ok (s, false)) ∧
    ((∃ ps ∈ s.d_packet_state_list, is_candidate c s.d_packet pk ps = true) →
      ∃ (k : Nat) (ps : packet_state) (s' : State),
        s.d_packet_state_list[k]? = some ps ∧ is_candidate c s.d_packet pk ps = true ∧
        (∀ (j : Nat) (ps' : packet_state), s.d_packet_state_list[j]? = some ps' →
          is_candidate c s.d_packet pk ps' = true →
          route_dis c s.d_packet pk ps ≤ route_dis c s.d_packet pk ps') ∧
        (∀ (j : Nat) (ps' : packet_state), j < k → s.d_packet_state_list[j]? = some ps' →
          is_candidate c s.d_packet pk ps' = true →
          route_dis c s.d_packet pk ps < route_dis c s.d_packet pk ps') ∧
        add_symbol_to_packet c s pk symbol_type.SYMBOL_DATA = .ok (s', true) ∧
        s'.d_packet.getD ps.packet_id [] = s.d_packet.getD ps.packet_id [] ++ [pk] ∧
        (∀ id, id ≠ ps.packet_id → s'.d_packet.getD id [] = s.d_packet.getD id []) ∧
        s'.d_packet.length = s.d_packet.length ∧
        s'.d_packet_state_list[k]? = some ⟨ps.packet_id, (d_ttl : Int)⟩ ∧
        (∀ (j : Nat), j ≠ k → s'.d_packet_state_list[j]? = s.d_packet_state_list[j]?) ∧
        s'.d_packet_state_list.length = s.d_packet_state_list.length ∧
        s'.d_packet_id_pool = s.d_packet_id_pool ∧
        s'.d_track = s.d_track ∧ s'.d_bin_track_id_list = s.d_bin_track_id_list ∧
        s'.d_track_id_pool = s.d_track_id_pool ∧ s'.d_ts_ref = s.d_ts_ref ∧
        s'.d_bin_ref = s.d_bin_ref ∧ s'.published = s.published) := by
  refine ⟨?_, ?_, ?_, ?_, ?_⟩
  · intro ps
    simp only [is_candidate, gt_iff_lt, Bool.and_eq_true, decide_eq_true_eq]
  · intro ps
    exact ⟨rfl, rfl⟩
  · intro ps k hN hN24 hk
    have e := pos_mod_nat (ts_dis c s.d_packet pk ps) c.d_num_samples hN
    have := phase_dis_grid c (ts_dis c s.d_packet pk ps : Int) k hN hN24 (by rw [e]; exact hk)
    rw [e] at this
    exact this
  · intro hnone
    rcases best_packet_loop_spec c s.d_packet pk s.d_packet_state_list 0 ⟨0, 0, none, false⟩
      with ⟨hr, _⟩ | ⟨k, ps, hk, hcand, _⟩
    · simp only [add_symbol_to_packet, hr]
      rfl
    · have := hnone ps (mem_of_getElem?_eq_some _ k ps hk)
      rw [hcand] at this
      exact absurd this (by decide)
  · rintro ⟨ps0, hmem, hcand0⟩
    rcases best_packet_loop_spec c s.d_packet pk s.d_packet_state_list 0 ⟨0, 0, none, false⟩
      with ⟨_, hall⟩ | ⟨k, ps, hk, hcand, hr, _, hmin, hfirst⟩
    · obtain ⟨n, hn⟩ := List.getElem?_of_mem hmem
      have := hall n ps0 hn hcand0
      simp [lt_min] at this
    · have hklt : k < s.d_packet_state_list.length := by
        obtain ⟨h, _⟩ := List.getElem?_eq_some.1 hk
        exact h
      have hid : ps.packet_id < s.d_packet.length :=
        hwf ps (mem_of_getElem?_eq_some _ k ps hk)
      have hgetD : s.d_packet_state_list.getD k ⟨0, 0⟩ = ps := by
        rw [List.getD_eq_getElem?_getD, hk]; rfl
      rw [Nat.zero_add] at hr
      refine ⟨k, ps, { s with
          d_packet_state_list := set_ttl s.d_packet_state_list k
          d_packet := push_peak s.d_packet ps.packet_id pk },
        hk, hcand, hmin, hfirst, ?_, ?_, ?_, ?_, ?_, ?_, ?_, rfl, rfl, rfl, rfl, rfl, rfl, rfl⟩
      · simp only [add_symbol_to_packet, hr, if_true]
      · exact getD_push_peak_same _ _ _ hid
      · intro id hne
        exact getD_push_peak_other _ _ _ _ hne
      · exact length_push_peak _ _ _
      · show (set_ttl s.d_packet_state_list k)[k]? = _
        unfold set_ttl
        rw [List.getElem?_set_self hklt, hgetD]
      · intro j hj
        show (set_ttl s.d_packet_state_list k)[j]? = _
        unfold set_ttl
        rw [List.getElem?_set_ne (Ne.symm hj)]
      · show (set_ttl s.d_packet_state_list k).length = _
        unfold set_ttl
        exact List.length_set _ _ _

theorem add_symbol_data_routing_witness :
    (∀ ps ∈ st_four_packets.d_packet_state_list,
      ps.packet_id < st_four_packets.d_packet.length) ∧
    is_candidate cfg7 st_four_packets.d_packet ⟨10000, 11, 1⟩ ⟨0, 50⟩ = false ∧
    route_dis cfg7 st_four_packets.d_packet ⟨10000, 11, 1⟩ ⟨1, 50⟩ = 1 / 2 ∧
    route_dis cfg7 st_four_packets.d_packet ⟨10000, 11, 1⟩ ⟨2, 50⟩ = 1 / 4 ∧
    route_dis cfg7 st_four_packets.d_packet ⟨10000, 11, 1⟩ ⟨3, 50⟩ = 1 / 4 ∧
    ∃ s', add_symbol_to_packet cfg7 st_four_packets ⟨10000, 11, 1⟩ symbol_type.SYMBOL_DATA
        = .ok (s', true) ∧
      s'.d_packet.getD 2 [] = [⟨8688, 10, 1⟩, ⟨10000, 11, 1⟩] ∧
      s'.d_packet.getD 1 [] = [⟨8656, 10, 1⟩] ∧
      s'.d_packet.getD 3 [] = [⟨8496, 10, 1⟩] ∧
      s'.d_packet_state_list[2]? = some ⟨2, 96⟩ ∧
      s'.d_packet_state_list[3]? = some ⟨3, 50⟩ ∧
      s'.d_packet_id_pool = st_four_packets.d_packet_id_pool := by
  have hwf : ∀ ps ∈ st_four_packets.d_packet_state_list,
      ps.packet_id < st_four_packets.d_packet.length := by decide
  have h0 : is_candidate cfg7 st_four_packets.d_packet ⟨10000, 11, 1⟩ ⟨0, 50⟩ = false := by
    decide!
  have h1 : route_dis cfg7 st_four_packets.d_packet ⟨10000, 11, 1⟩ ⟨1, 50⟩ = 1 / 2 := by
    decide!
  have h2 : route_dis cfg7 st_four_packets.d_packet ⟨10000, 11, 1⟩ ⟨2, 50⟩ = 1 / 4 := by
    decide!
  have h3 : route_dis cfg7 st_four_packets.d_packet ⟨10000, 11, 1⟩ ⟨3, 50⟩ = 1 / 4 := by
    decide!
  have hc2 : is_candidate cfg7 st_four_packets.d_packet ⟨10000, 11, 1⟩ ⟨2, 50⟩ = true := by
    decide!
  obtain ⟨k, ps, s', hk, hc, hmin, hfirst, h, hpk, hoth, _, hst, hsto, _, hp, _⟩ :=
    (add_symbol_data_routing cfg7 st_four_packets ⟨10000, 11, 1⟩ hwf).2.2.2.2
      ⟨⟨2, 50⟩, by decide, hc2⟩
  have hlist : st_four_packets.d_packet_state_list
      = [⟨0, 50⟩, ⟨1, 50⟩, ⟨2, 50⟩, ⟨3, 50⟩] := rfl
  have hk2 : k = 2 ∧ ps = ⟨2, 50⟩ := by
    rw [hlist] at hk
    rcases k with _ | _ | _ | _ | k
    · simp at hk
      subst hk
      rw [h0] at hc
      exact absurd hc (by decide)
    · simp at hk
      subst hk
      have := hmin 2 ⟨2, 50⟩ rfl hc2
      rw [h1, h2] at this
      exact absurd this (by norm_num)
    · simp at hk
      exact ⟨rfl, hk.symm⟩
    · simp at hk
      subst hk
      have := hfirst 2 ⟨2, 50⟩ (by decide) rfl hc2
      rw [h3, h2] at this
      exact absurd this (by norm_num)
    · simp at hk
  obtain ⟨rfl, rfl⟩ := hk2
  refine ⟨hwf, h0, h1, h2, h3, s', h, hpk, ?_, ?_, hst, ?_, hp⟩
  · rw [hoth 1 (by decide)]
    rfl
  · rw [hoth 3 (by decide)]
    rfl
  · rw [hsto 3 (by decide)]
    rfl

/-! ## Peak tracker -/

theorem match_track_some (c : Config) (cur_bin : Nat) :
    ∀ (l : List bin_track_id) (id : Nat) (l' : List bin_track_id),
      match_track c cur_bin l = some (id, l') →
      (∃ bt ∈ l, bt.track_id = id) ∧
        l'.map (fun bt => bt.track_id) = l.map (fun bt => bt.track_id) := by
  intro l
  induction l with
  | nil => intro id l' h; simp [match_track] at h
  | cons bt rest ih =>
    intro id l' h
    rw [match_track] at h
    split at h
    · simp only [Option.some.injEq, Prod.mk.injEq] at h
      obtain ⟨h1, h2⟩ := h
      subst h1 h2
      exact ⟨⟨bt, List.mem_cons_self _ _, rfl⟩, by simp⟩
    · split at h
      · exact absurd h (by simp)
      · rename_i id1 rest1 heq
        simp only [Option.some.injEq, Prod.mk.injEq] at h
        obtain ⟨h1, h2⟩ := h
        subst h1 h2
        obtain ⟨⟨b, hb, hbid⟩, hmap⟩ := ih _ _ heq
        exact ⟨⟨b, List.mem_cons_of_mem _ hb, hbid⟩, by simp [hmap]⟩

/-- A successful insertion appends the peak to one track that exists, and
changes neither the timestamp cursor nor the range of the ids. -/
theorem add_peak_ok (c : Config) (fft_mag : Nat → ℚ) (s s' : State) (i : Nat)
    (h : add_peak c fft_mag s i = .ok s') (hwf : TrackWF s) :
    ∃ id, id < s.d_track.length ∧
      s'.d_track = push_peak s.d_track id ⟨s.d_ts_ref, i, fft_mag i⟩ ∧
      s'.d_ts_ref = s.d_ts_ref ∧ TrackWF s' := by
  unfold add_peak at h
  simp only at h
  split at h
  · rename_i id l heq
    obtain ⟨⟨bt, hbt, hid⟩, hmap⟩ := match_track_some c _ _ _ _ heq
    simp only [Except.ok.injEq] at h
    subst h
    refine ⟨id, hid ▸ hwf.1 bt hbt, rfl, rfl, ?_, ?_⟩
    · intro b hb
      show b.track_id < (push_peak s.d_track id _).length
      rw [length_push_peak]
      have : b.track_id ∈ l.map (fun bt => bt.track_id) := List.mem_map_of_mem _ hb
      rw [hmap] at this
      obtain ⟨b', hb', hbid'⟩ := List.mem_map.1 this
      rw [← hbid']
      exact hwf.1 b' hb'
    · intro x hx
      show x < (push_peak s.d_track id _).length
      rw [length_push_peak]
      exact hwf.2 x hx
  · split at h
    · exact absurd h (by simp)
    · rename_i id pool hpool
      simp only [Except.ok.injEq] at h
      subst h
      have hid : id < s.d_track.length := hwf.2 id (by rw [hpool]; exact List.mem_cons_self _ _)
      refine ⟨id, hid, rfl, rfl, ?_, ?_⟩
      · intro b hb
        show b.track_id < (push_peak s.d_track id _).length
        rw [length_push_peak]
        rcases List.mem_append.1 hb with hb | hb
        · exact hwf.1 b hb
        · rw [List.mem_singleton.1 hb]; exact hid
      · intro x hx
        show x < (push_peak s.d_track id _).length
        rw [length_push_peak]
        exact hwf.2 x (by rw [hpool]; exact List.mem_cons_of_mem _ hx)

theorem assigned_to_cons (pk : Peak) (pks : List Peak) (id : Nat) (assign : List Nat)
    (t : Nat) :
    assigned_to (pk :: pks) (id :: assign) t
      = (if id = t then [pk] else []) ++ assigned_to pks assign t := by
  unfold assigned_to
  by_cases h : id = t <;> simp [List.filter_cons, h]

theorem find_and_add_peak_loop_extended (c : Config) (fft_mag fft_mag_w : Nat → ℚ) :
    ∀ (bins : List Nat) (s s' : State),
      find_and_add_peak_loop c fft_mag fft_mag_w bins s = .ok s' → TrackWF s →
      ∃ assign : List Nat,
        assign.length = (detected_peaks c fft_mag fft_mag_w s.d_ts_ref bins).length ∧
        (∀ id ∈ assign, id < s.d_track.length) ∧
        s'.d_track.length = s.d_track.length ∧
        ∀ t, s'.d_track.getD t [] = s.d_track.getD t [] ++
          assigned_to (detected_peaks c fft_mag fft_mag_w s.d_ts_ref bins) assign t := by
  intro bins
  induction bins with
  | nil =>
    intro s s' h _
    simp only [find_and_add_peak_loop, Except.ok.injEq] at h
    subst h
    exact ⟨[], rfl, by simp, rfl, by intro t; simp [detected_peaks, assigned_to]⟩
  | cons i rest ih =>
    intro s s' h hwf
    rw [find_and_add_peak_loop] at h
    by_cases hp : is_peak c fft_mag_w i = true
    · rw [if_pos hp] at h
      split at h
      · rename_i s1 h1
        obtain ⟨id, hid, htr, hts, hwf1⟩ := add_peak_ok c fft_mag s s1 i h1 hwf
        obtain ⟨assign, hlen, hids, hl, hall⟩ := ih s1 s' h hwf1
        have hlen1 : s1.d_track.length = s.d_track.length := by
          rw [htr, length_push_peak]
        have hdet : detected_peaks c fft_mag fft_mag_w s.d_ts_ref (i :: rest)
            = ⟨s.d_ts_ref, i, fft_mag i⟩
              :: detected_peaks c fft_mag fft_mag_w s.d_ts_ref rest := by
          simp [detected_peaks, List.filter_cons, hp]
        rw [hts] at hlen hall
        refine ⟨id :: assign, ?_, ?_, by rw [hl, hlen1], ?_⟩
        · rw [hdet]; simp [hlen]
        · intro x hx
          rcases List.mem_cons.1 hx with hx | hx
          · rw [hx]; exact hid
          · rw [← hlen1]; exact hids x hx
        · intro t
          rw [hall t, hdet, assigned_to_cons, htr]
          by_cases ht : id = t
          · subst ht
            rw [getD_push_peak_same _ _ _ hid, if_pos rfl, List.append_assoc]
          · rw [getD_push_peak_other _ _ _ _ (Ne.symm ht), if_neg ht]
            simp
      · exact absurd h (by simp)
    · rw [if_neg hp] at h
      obtain ⟨assign, hlen, hids, hl, hall⟩ := ih s s' h hwf
      have hdet : detected_peaks c fft_mag fft_mag_w s.d_ts_ref (i :: rest)
          = detected_peaks c fft_mag fft_mag_w s.d_ts_ref rest := by
        simp [detected_peaks, List.filter_cons, hp]
      exact ⟨assign, by rw [hdet]; exact hlen, hids, hl, by rw [hdet]; exact hall⟩

theorem find_and_add_peak_loop_append (c : Config) (fft_mag fft_mag_w : Nat → ℚ) :
    ∀ (pre rest : List Nat) (s s1 : State),
      find_and_add_peak_loop c fft_mag fft_mag_w pre s = .ok s1 →
      find_and_add_peak_loop c fft_mag fft_mag_w (pre ++ rest) s
        = find_and_add_peak_loop c fft_mag fft_mag_w rest s1 := by
  intro pre
  induction pre with
  | nil =>
    intro rest s s1 h
    simp only [find_and_add_peak_loop, Except.ok.injEq] at h
    subst h; rfl
  | cons i pre ih =>
    intro rest s s1 h
    rw [find_and_add_peak_loop] at h
    rw [List.cons_append, find_and_add_peak_loop]
    by_cases hp : is_peak c fft_mag_w i = true
    · rw [if_pos hp] at h ⊢
      split at h
      · rename_i s2 h2
        exact ih rest s2 s1 h
      · exact absurd h (by simp)
    · rw [if_neg hp] at h ⊢
      exact ih rest s s1 h

theorem match_track_none (c : Config) (cur_bin : Nat) :
    ∀ (l : List bin_track_id), (∀ bt ∈ l, bin_matches c cur_bin bt = false) →
      match_track c cur_bin l = none := by
  intro l
  induction l with
  | nil => intro _; rfl
  | cons bt rest ih =>
    intro h
    have h0 := h bt (List.mem_cons_self _ _)
    rw [match_track, h0, ih (fun b hb => h b (List.mem_cons_of_mem _ hb))]
    rfl

/-- C7: track-id exhaustion is fatal, never silent. A detected peak that matches
no open track reference while the id pool is empty ends `find_and_add_peak`,
and with it the step, with the exhaustion fault; and whenever
`find_and_add_peak` (or the step) returns, every detected peak was appended to
one track and every track kept what it held. -/
theorem track_exhaustion_fatal (c : Config) (fft_mag fft_mag_w : Nat → ℚ) (s : State)
    (hwf : TrackWF s) :
    (∀ (pre : List Nat) (i : Nat) (post : List Nat) (s1 : State),
      List.range c.d_bin_size = pre ++ i :: post →
      find_and_add_peak_loop c fft_mag fft_mag_w pre s = .ok s1 →
      is_peak c fft_mag_w i = true →
      (∀ bt ∈ s1.d_bin_track_id_list,
        bin_matches c (pos_mod ((c.d_bin_size : Int) + i - s1.d_bin_ref) c.d_bin_size) bt
          = false) →
      s1.d_track_id_pool = [] →
      find_and_add_peak c fft_mag fft_mag_w s = .error Fault.exhausted ∧
        ∀ ninput, 4 * c.d_num_samples ≤ ninput →
          general_work c ninput fft_mag fft_mag_w s = .error Fault.exhausted) ∧
    (∀ s', find_and_add_peak c fft_mag fft_mag_w s = .ok s' →
      TracksExtended c fft_mag fft_mag_w s s') ∧
    (∀ ninput s'', 4 * c.d_num_samples ≤ ninput →
      general_work c ninput fft_mag fft_mag_w s = .ok s'' →
      ∃ s', find_and_add_peak c fft_mag fft_mag_w s = .ok s' ∧
        TracksExtended c fft_mag fft_mag_w s s') := by
  have hext : ∀ s', find_and_add_peak c fft_mag fft_mag_w s = .ok s' →
      TracksExtended c fft_mag fft_mag_w s s' := by
    intro s' h
    exact find_and_add_peak_loop_extended c fft_mag fft_mag_w _ s s' h hwf
  refine ⟨?_, hext, ?_⟩
  · intro pre i post s1 hrange hpre hpeak hnomatch hpool
    have hfail : find_and_add_peak c fft_mag fft_mag_w s = .error Fault.exhausted := by
      unfold find_and_add_peak
      rw [hrange, find_and_add_peak_loop_append c fft_mag fft_mag_w pre _ s s1 hpre,
        find_and_add_peak_loop, if_pos hpeak]
      have : add_peak c fft_mag s1 i = .error Fault.exhausted := by
        unfold add_peak
        simp only [match_track_none c _ _ hnomatch, hpool]
      rw [this]
    refine ⟨hfail, ?_⟩
    intro ninput hn
    unfold general_work
    rw [if_neg (by omega), hfail]
  · intro ninput s'' hn h
    unfold general_work at h
    rw [if_neg (by omega)] at h
    split at h
    · exact absurd h (by simp)
    · rename_i s1 h1
      exact ⟨s1, h1, hext s1 h1⟩

theorem track_exhaustion_fatal_witness :
    TrackWF init ∧
      ∃ s', find_and_add_peak cfg7 spectrum_one_line spectrum_one_line init = .ok s' ∧
        TracksExtended cfg7 spectrum_one_line spectrum_one_line init s' := by
  have hwf : TrackWF init := by
    constructor
    · intro bt hbt; simp [init] at hbt
    · intro id hid
      simp only [init, List.mem_range] at hid
      simpa [init] using hid
  have hok : (find_and_add_peak cfg7 spectrum_one_line spectrum_one_line init).toBool = true := by
    decide!
  cases h : find_and_add_peak cfg7 spectrum_one_line spectrum_one_line init with
  | error e => rw [h] at hok; exact absurd hok (by simp [Except.toBool])
  | ok s' =>
    exact ⟨hwf, s', rfl,
      (track_exhaustion_fatal cfg7 spectrum_one_line spectrum_one_line init hwf).2.1 s' h⟩

/-- C8: with forty open packets and an empty `d_packet_id_pool`, a PREAMBLE
symbol makes `add_symbol_to_packet` read `front()` of the empty deque (line 328);
no emptiness test precedes it, and the exhaustion fault of the track-id pool
is not raised. -/
theorem add_symbol_preamble_empty_pool :
    st_full.d_packet_state_list.length = 40 ∧ st_full.d_packet_id_pool = [] ∧
      add_symbol_to_packet cfg7 st_full ⟨5000, 3, 1⟩ symbol_type.SYMBOL_PREAMBLE
        = .error Fault.undefined_front ∧
      add_symbol_to_packet cfg7 st_full ⟨5000, 3, 1⟩ symbol_type.SYMBOL_PREAMBLE
        ≠ .error Fault.exhausted := by
  refine ⟨by simp [st_full, packet_id_size], rfl, rfl, ?_⟩
  intro h
  have h2 : add_symbol_to_packet cfg7 st_full ⟨5000, 3, 1⟩ symbol_type.SYMBOL_PREAMBLE
      = .error Fault.undefined_front := rfl
  rw [h2] at h
  cases h

/-! ## Id pools -/

theorem add_peak_frame (c : Config) (fft_mag : Nat → ℚ) (s s' : State) (i : Nat)
    (h : add_peak c fft_mag s i = .ok s') :
    s'.d_packet_state_list = s.d_packet_state_list ∧
      s'.d_packet_id_pool = s.d_packet_id_pool ∧
      s'.d_track.length = s.d_track.length ∧
      (TrackIdInv s → TrackIdInv s') := by
  unfold add_peak at h
  simp only at h
  split at h
  · rename_i id l heq
    obtain ⟨_, hmap⟩ := match_track_some c _ _ _ _ heq
    simp only [Except.ok.injEq] at h
    subst h
    refine ⟨rfl, rfl, length_push_peak _ _ _, ?_⟩
    intro hinv
    unfold TrackIdInv at hinv ⊢
    simpa only [hmap] using hinv
  · split at h
    · exact absurd h (by simp)
    · rename_i id pool hpool
      simp only [Except.ok.injEq] at h
      subst h
      refine ⟨rfl, rfl, length_push_peak _ _ _, ?_⟩
      intro hinv
      unfold TrackIdInv at hinv ⊢
      rw [hpool] at hinv
      simp only [List.map_append, List.map_cons, List.map_nil, List.append_assoc,
        List.singleton_append]
      exact hinv

theorem find_and_add_peak_loop_frame (c : Config) (fft_mag fft_mag_w : Nat → ℚ) :
    ∀ (bins : List Nat) (s s' : State),
      find_and_add_peak_loop c fft_mag fft_mag_w bins s = .ok s' →
      s'.d_packet_state_list = s.d_packet_state_list ∧
        s'.d_packet_id_pool = s.d_packet_id_pool ∧
        s'.d_track.length = s.d_track.length ∧
        (TrackIdInv s → TrackIdInv s') := by
  intro bins
  induction bins with
  | nil =>
    intro s s' h
    simp only [find_and_add_peak_loop, Except.ok.injEq] at h
    subst h
    exact ⟨rfl, rfl, rfl, id⟩
  | cons i rest ih =>
    intro s s' h
    rw [find_and_add_peak_loop] at h
    by_cases hp : is_peak c fft_mag_w i = true
    · rw [if_pos hp] at h
      split at h
      · rename_i s1 h1
        obtain ⟨a1, a2, a3, a4⟩ := add_peak_frame c fft_mag s s1 i h1
        obtain ⟨b1, b2, b3, b4⟩ := ih s1 s' h
        exact ⟨b1.trans a1, b2.trans a2, b3.trans a3, fun hi => b4 (a4 hi)⟩
      · exact absurd h (by simp)
    · rw [if_neg hp] at h
      exact ih s s' h

theorem add_symbol_to_packet_frame (c : Config) (s s' : State) (pk : Peak)
    (st : symbol_type) (b : Bool) (h : add_symbol_to_packet c s pk st = .ok (s', b)) :
    s'.d_bin_track_id_list = s.d_bin_track_id_list ∧
      s'.d_track_id_pool = s.d_track_id_pool ∧
      s'.d_track = s.d_track ∧
      (PacketInv s → PacketInv s') := by
  unfold add_symbol_to_packet at h
  cases st with
  | SYMBOL_PREAMBLE =>
    simp only at h
    split at h
    · exact absurd h (by simp)
    · rename_i id pool hpool
      simp only [Except.ok.injEq, Prod.mk.injEq] at h
      obtain ⟨h, _⟩ := h
      subst h
      refine ⟨rfl, rfl, rfl, ?_⟩
      intro hinv
      unfold PacketInv at hinv ⊢
      rw [hpool] at hinv
      simp only [List.length_append, List.length_cons, List.length_nil] at hinv ⊢
      omega
  | SYMBOL_DATA =>
    simp only at h
    split at h
    · simp only [Except.ok.injEq, Prod.mk.injEq] at h
      obtain ⟨h, _⟩ := h
      subst h
      refine ⟨rfl, rfl, rfl, ?_⟩
      intro hinv
      unfold PacketInv at hinv ⊢
      simpa only [set_ttl, List.length_set] using hinv
    · simp only [Except.ok.injEq, Prod.mk.injEq] at h
      obtain ⟨h, _⟩ := h
      subst h
      exact ⟨rfl, rfl, rfl, id⟩
  | SYMBOL_BROKEN_DATA =>
    simp only [Except.ok.injEq, Prod.mk.injEq] at h
    obtain ⟨h, _⟩ := h
    subst h
    exact ⟨rfl, rfl, rfl, id⟩

theorem close_tracks_frame (c : Config) :
    ∀ (l : List bin_track_id) (s s1 : State), close_tracks c l s = .ok s1 →
      s1.d_bin_track_id_list = s.d_bin_track_id_list ∧
        s1.d_track_id_pool = s.d_track_id_pool
          ++ (l.filter (fun bt => !bt.updated)).map (fun bt => bt.track_id) ∧
        s1.d_track.length = s.d_track.length ∧
        (PacketInv s → PacketInv s1) := by
  intro l
  induction l with
  | nil =>
    intro s s1 h
    simp only [close_tracks, Except.ok.injEq] at h
    subst h
    exact ⟨rfl, by simp, rfl, id⟩
  | cons bt rest ih =>
    intro s s1 h
    rw [close_tracks] at h
    by_cases hu : bt.updated = true
    · rw [if_pos hu] at h
      obtain ⟨a1, a2, a3, a4⟩ := ih s s1 h
      refine ⟨a1, ?_, a3, a4⟩
      rw [a2]
      simp [List.filter_cons, hu]
    · rw [if_neg hu] at h
      simp only at h
      have hu' : bt.updated = false := by simpa using hu
      split at h
      · exact absurd h (by simp)
      · rename_i s2 hrouted
        obtain ⟨a1, a2, a3, a4⟩ := ih _ s1 h
        have hfr : s2.d_bin_track_id_list = s.d_bin_track_id_list ∧
            s2.d_track_id_pool = s.d_track_id_pool ∧ s2.d_track = s.d_track ∧
            (PacketInv s → PacketInv s2) := by
          split at hrouted
          · split at hrouted
            · rename_i res hres
              simp only [Except.ok.injEq] at hrouted
              subst hrouted
              exact add_symbol_to_packet_frame c s res.1 _ _ res.2 hres
            · exact absurd hrouted (by simp)
          · simp only [Except.ok.injEq] at hrouted
            subst hrouted
            exact ⟨rfl, rfl, rfl, id⟩
        obtain ⟨f1, f2, f3, f4⟩ := hfr
        refine ⟨a1.trans f1, ?_, ?_, fun hi => a4 (f4 hi)⟩
        · rw [a2]
          simp [List.filter_cons, hu', f2]
        · rw [a3]
          simp [f3]

theorem check_and_update_track_frame (c : Config) (s s' : State)
    (h : check_and_update_track c s = .ok s') :
    s'.d_track.length = s.d_track.length ∧ (TrackIdInv s → TrackIdInv s') ∧
      (PacketInv s → PacketInv s') := by
  unfold check_and_update_track at h
  split at h
  · exact absurd h (by simp)
  · rename_i s1 h1
    obtain ⟨a1, a2, a3, a4⟩ := close_tracks_frame c _ s s1 h1
    simp only [Except.ok.injEq] at h
    subst h
    refine ⟨a3, ?_, a4⟩
    intro hinv
    unfold TrackIdInv at hinv ⊢
    simp only [a1, a2, List.map_map]
    have hmap : (List.map ((fun bt : bin_track_id => bt.track_id) ∘
          fun bt : bin_track_id => { bt with updated := false })
        (s.d_bin_track_id_list.filter (fun bt => bt.updated)))
        = (s.d_bin_track_id_list.filter (fun bt => bt.updated)).map
            (fun bt => bt.track_id) := by
      apply List.map_congr_left
      intro a _
      rfl
    rw [hmap]
    have hsplit : List.Perm
        ((s.d_bin_track_id_list.filter (fun bt => bt.updated)).map (fun bt => bt.track_id)
          ++ (s.d_bin_track_id_list.filter (fun bt => !bt.updated)).map
              (fun bt => bt.track_id))
        (s.d_bin_track_id_list.map (fun bt => bt.track_id)) := by
      rw [← List.map_append]
      exact List.Perm.map _ (List.filter_append_perm _ _)
    refine List.Perm.trans (List.Perm.append_left _ List.perm_append_comm) ?_
    rw [← List.append_assoc]
    exact List.Perm.trans (List.Perm.append_right _ hsplit) hinv

theorem finish_packets_frame (c : Config) :
    ∀ (l : List packet_state) (s : State),
      (finish_packets c l s).d_bin_track_id_list = s.d_bin_track_id_list ∧
        (finish_packets c l s).d_track_id_pool = s.d_track_id_pool ∧
        (finish_packets c l s).d_track = s.d_track ∧
        (finish_packets c l s).d_packet_state_list = s.d_packet_state_list ∧
        (finish_packets c l s).d_packet_id_pool = s.d_packet_id_pool
          ++ (l.filter (fun ps => decide (ps.ttl ≤ 0))).map (fun ps => ps.packet_id) := by
  intro l
  induction l with
  | nil => intro s; simp [finish_packets]
  | cons ps rest ih =>
    intro s
    rw [finish_packets]
    by_cases ht : ps.ttl ≤ 0
    · rw [if_pos ht]
      obtain ⟨a1, a2, a3, a4, a5⟩ := ih (finish_packet c s ps)
      refine ⟨a1, a2, a3, a4, ?_⟩
      rw [a5]
      simp [finish_packet, List.filter_cons, ht]
    · rw [if_neg ht]
      obtain ⟨a1, a2, a3, a4, a5⟩ := ih s
      refine ⟨a1, a2, a3, a4, ?_⟩
      rw [a5]
      simp [List.filter_cons, ht]

theorem general_work_frame (c : Config) (ninput : Nat) (fft_res_add fft_res_add_w : Nat → ℚ)
    (s s' : State) (h : general_work c ninput fft_res_add fft_res_add_w s = .ok s') :
    s'.d_track.length = s.d_track.length ∧ (TrackIdInv s → TrackIdInv s') ∧
      (PacketInv s → PacketInv s') := by
  unfold general_work at h
  split at h
  · simp only [Except.ok.injEq] at h
    subst h
    exact ⟨rfl, id, id⟩
  · split at h
    · exact absurd h (by simp)
    · rename_i s1 h1
      split at h
      · exact absurd h (by simp)
      · rename_i s2 h2
        simp only [Except.ok.injEq] at h
        subst h
        obtain ⟨a1, a2, a3, a4⟩ := find_and_add_peak_loop_frame c _ _ _ s s1 h1
        obtain ⟨b1, b2, b3⟩ := check_and_update_track_frame c s1 s2 h2
        obtain ⟨f1, f2, f3, f4, f5⟩ := finish_packets_frame c s2.d_packet_state_list s2
        refine ⟨?_, ?_, ?_⟩
        · show (finish_packets c s2.d_packet_state_list s2).d_track.length = _
          rw [f3, b1, a3]
        · intro hinv
          have := b2 (a4 hinv)
          unfold TrackIdInv at this ⊢
          show List.Perm
            ((finish_packets c s2.d_packet_state_list s2).d_bin_track_id_list.map _
              ++ (finish_packets c s2.d_packet_state_list s2).d_track_id_pool) _
          rw [f1, f2]
          exact this
        · intro hinv
          have hs1 : PacketInv s1 := by
            unfold PacketInv at hinv ⊢
            rw [a1, a2]; exact hinv
          have hs2 := b3 hs1
          unfold PacketInv at hs2 ⊢
          simp only [age_and_advance]
          rw [f4, f5]
          simp only [List.length_map, List.length_append]
          have hcount := (List.filter_append_perm (fun ps : packet_state => decide (ps.ttl ≤ 0))
            s2.d_packet_state_list).length_eq
          simp only [List.length_append] at hcount
          omega

/-- In every reachable state the track ids are a rearrangement of
`0, ..., track_size - 1`, `d_track` has `track_size` entries, and the count of
open packets and free packet ids is `packet_id_size`. -/
theorem reachable_inv (c : Config) (s : State) (h : Reachable c s) :
    TrackIdInv s ∧ s.d_track.length = track_size ∧ PacketInv s := by
  induction h with
  | init =>
    refine ⟨?_, ?_, ?_⟩
    · unfold TrackIdInv
      simp [init]
    · simp [init]
    · simp [PacketInv, init]
  | step s s' ninput m mw _ hstep ih =>
    obtain ⟨a1, a2, a3⟩ := general_work_frame c ninput m mw s s' hstep
    exact ⟨a2 ih.1, a1.trans ih.2.1, a3 ih.2.2⟩

/-- In every reachable state the track ids in use and in the pool index into
`d_track`. -/
theorem reachable_trackWF (c : Config) (s : State) (h : Reachable c s) : TrackWF s := by
  obtain ⟨hperm, hlen, _⟩ := reachable_inv c s h
  unfold TrackIdInv at hperm
  constructor
  · intro bt hbt
    have : bt.track_id ∈ s.d_bin_track_id_list.map (fun bt => bt.track_id)
        ++ s.d_track_id_pool :=
      List.mem_append_left _ (List.mem_map_of_mem _ hbt)
    have := (hperm.mem_iff).1 this
    rw [hlen]
    exact List.mem_range.1 this
  · intro id hid
    have : id ∈ s.d_bin_track_id_list.map (fun bt => bt.track_id) ++ s.d_track_id_pool :=
      List.mem_append_right _ hid
    have := (hperm.mem_iff).1 this
    rw [hlen]
    exact List.mem_range.1 this

/-- C9: track-id pool invariant. After construction and after every step that
returns, the ids held by the open track references followed by the free ids
are a rearrangement of `0, ..., 39`: they are pairwise distinct, they are
exactly the numbers below `track_size = 40`, the two counts add up to
`track_size`, the pool has no duplicate and holds no id in use. -/
theorem track_id_pool_invariant (c : Config) (s : State) (h : Reachable c s) :
    List.Perm (s.d_bin_track_id_list.map (fun bt => bt.track_id) ++ s.d_track_id_pool)
        (List.range track_size) ∧
      track_size = 40 ∧
      s.d_bin_track_id_list.length + s.d_track_id_pool.length = track_size ∧
      (s.d_bin_track_id_list.map (fun bt => bt.track_id) ++ s.d_track_id_pool).Nodup ∧
      (∀ id, id ∈ s.d_bin_track_id_list.map (fun bt => bt.track_id) ++ s.d_track_id_pool
        ↔ id < track_size) ∧
      s.d_track_id_pool.Nodup ∧
      (∀ bt ∈ s.d_bin_track_id_list, bt.track_id ∉ s.d_track_id_pool) := by
  obtain ⟨hperm, _, _⟩ := reachable_inv c s h
  unfold TrackIdInv at hperm
  have hnodup : (s.d_bin_track_id_list.map (fun bt => bt.track_id)
      ++ s.d_track_id_pool).Nodup :=
    (hperm.nodup_iff).2 (List.nodup_range _)
  refine ⟨hperm, rfl, ?_, hnodup, ?_, ?_, ?_⟩
  · have := hperm.length_eq
    simpa using this
  · intro id
    rw [hperm.mem_iff, List.mem_range]
  · exact (List.nodup_append.1 hnodup).2.1
  · intro bt hbt hin
    exact (List.nodup_append.1 hnodup).2.2 (List.mem_map_of_mem _ hbt) hin

theorem track_id_pool_invariant_witness :
    ∃ s', general_work cfg7 1024 spectrum_one_line spectrum_one_line init = .ok s' ∧
      s'.d_bin_track_id_list.length + s'.d_track_id_pool.length = track_size := by
  have hok : (general_work cfg7 1024 spectrum_one_line spectrum_one_line init).toBool
      = true := by
    decide!
  cases h : general_work cfg7 1024 spectrum_one_line spectrum_one_line init with
  | error e => rw [h] at hok; exact absurd hok (by simp [Except.toBool])
  | ok s' =>
    exact ⟨s', rfl,
      (track_id_pool_invariant cfg7 s'
        (Reachable.step init s' 1024 spectrum_one_line spectrum_one_line Reachable.init h)).2.2.1⟩

/-- Count of open packets and free ids while no step meets the empty pool:
after construction and after every step that returns in the embedding, the
number of packet states plus the number of free packet ids is
`packet_id_size = 40`. Creating a packet takes the id at the head of the pool
and appends one packet state; finalising a packet state appends its id to the
pool, and the erase that follows removes exactly the states with `ttl <= 0`. -/
theorem packet_id_pool_invariant (c : Config) (s : State) (h : Reachable c s) :
    s.d_packet_state_list.length + s.d_packet_id_pool.length = packet_id_size ∧
      packet_id_size = 40 ∧
      (∀ (pk : Peak) (id : Nat) (pool : List Nat), s.d_packet_id_pool = id :: pool →
        ∃ s', add_symbol_to_packet c s pk symbol_type.SYMBOL_PREAMBLE = .ok (s', true) ∧
          s'.d_packet_id_pool = pool ∧
          s'.d_packet_state_list = s.d_packet_state_list ++ [⟨id, (d_ttl : Int)⟩]) ∧
      (∀ ps : packet_state,
        (finish_packet c s ps).d_packet_id_pool = s.d_packet_id_pool ++ [ps.packet_id] ∧
          (finish_packet c s ps).d_packet_state_list = s.d_packet_state_list) ∧
      (age_and_advance c s).d_packet_id_pool = s.d_packet_id_pool ∧
      (age_and_advance c s).d_packet_state_list
        = (s.d_packet_state_list.filter (fun ps => !decide (ps.ttl ≤ 0))).map
            (fun ps => { ps with ttl := ps.ttl - 1 }) := by
  obtain ⟨_, _, hp⟩ := reachable_inv c s h
  refine ⟨hp, rfl, ?_, ?_, rfl, rfl⟩
  · intro pk id pool hpool
    refine ⟨{ s with
        d_packet_id_pool := pool
        d_packet := push_peak s.d_packet id pk
        d_packet_state_list := s.d_packet_state_list ++ [⟨id, (d_ttl : Int)⟩] },
      ?_, rfl, rfl⟩
    simp only [add_symbol_to_packet, hpool]
  · intro ps
    exact ⟨rfl, rfl⟩

theorem packet_id_pool_invariant_witness :
    ∃ s', general_work cfg7 1024 spectrum_one_line spectrum_one_line init = .ok s' ∧
      s'.d_packet_state_list.length + s'.d_packet_id_pool.length = packet_id_size := by
  have hok : (general_work cfg7 1024 spectrum_one_line spectrum_one_line init).toBool
      = true := by
    decide!
  cases h : general_work cfg7 1024 spectrum_one_line spectrum_one_line init with
  | error e => rw [h] at hok; exact absurd hok (by simp [Except.toBool])
  | ok s' =>
    exact ⟨s', rfl,
      (packet_id_pool_invariant cfg7 s'
        (Reachable.step init s' 1024 spectrum_one_line spectrum_one_line Reachable.init h)).1⟩

/-! ## Peak detection -/

theorem pos_mod_pred (i B : Nat) (hB : 0 < B) :
    pos_mod ((i : Int) - 1) B = (i + B - 1) % B := by
  have h := pos_mod_cast ((i : Int) - 1) B hB
  have e : ((i : Int) - 1) = ((i + B - 1 : Nat) : Int) + (B : Int) * (-1) := by
    have : 1 ≤ i + B := by omega
    push_cast [Nat.cast_sub this]
    ring
  have h2 : ((i : Int) - 1) % (B : Int) = ((i + B - 1 : Nat) : Int) % (B : Int) := by
    rw [e, Int.add_mul_emod_self_left]
  rw [h2] at h
  have : (((i + B - 1 : Nat) : Int) % (B : Int)) = (((i + B - 1) % B : Nat) : Int) := by simp
  omega

theorem pos_mod_succ (i B : Nat) (hB : 0 < B) :
    pos_mod ((i : Int) + 1) B = (i + 1) % B := by
  have h := pos_mod_nat (i + 1) B hB
  simpa using h

/-- The test of line 210, with the neighbours taken circularly. -/
theorem is_peak_iff (c : Config) (fft_mag_w : Nat → ℚ) (i : Nat) (hB : 0 < c.d_bin_size) :
    is_peak c fft_mag_w i = true ↔
      fft_mag_w i > c.threshold ∧
        fft_mag_w i > fft_mag_w ((i + c.d_bin_size - 1) % c.d_bin_size) ∧
        fft_mag_w i > fft_mag_w ((i + 1) % c.d_bin_size) := by
  unfold is_peak
  simp only [pos_mod_pred i _ hB, pos_mod_succ i _ hB, Bool.and_eq_true, decide_eq_true_eq,
    and_assoc]

theorem mem_assigned_to (pks : List Peak) (assign : List Nat) (t : Nat) (pk : Peak)
    (h : pk ∈ assigned_to pks assign t) : pk ∈ pks := by
  unfold assigned_to at h
  obtain ⟨x, hx, rfl⟩ := List.mem_map.1 h
  have := (List.mem_filter.1 hx).1
  exact (List.of_mem_zip this).1

theorem exists_assigned_to : ∀ (pks : List Peak) (assign : List Nat) (pk : Peak),
    assign.length = pks.length → pk ∈ pks → ∃ t, pk ∈ assigned_to pks assign t := by
  intro pks
  induction pks with
  | nil => intro assign pk _ h; simp at h
  | cons q pks ih =>
    intro assign pk hlen h
    cases assign with
    | nil => simp at hlen
    | cons id assign =>
      rcases List.mem_cons.1 h with h | h
      · refine ⟨id, ?_⟩
        rw [assigned_to_cons, if_pos rfl, h]
        simp
      · obtain ⟨t, ht⟩ := ih assign pk (by simpa using hlen) h
        refine ⟨t, ?_⟩
        rw [assigned_to_cons]
        exact List.mem_append_right _ ht

theorem mem_detected_peaks (c : Config) (fft_mag fft_mag_w : Nat → ℚ) (ts_ref : Nat)
    (bins : List Nat) (pk : Peak) :
    pk ∈ detected_peaks c fft_mag fft_mag_w ts_ref bins ↔
      ∃ i ∈ bins, is_peak c fft_mag_w i = true ∧ pk = ⟨ts_ref, i, fft_mag i⟩ := by
  unfold detected_peaks
  simp only [List.mem_map, List.mem_filter]
  constructor
  · rintro ⟨i, ⟨hi, hp⟩, rfl⟩
    exact ⟨i, hi, hp, rfl⟩
  · rintro ⟨i, hi, hp, rfl⟩
    exact ⟨i, ⟨hi, hp⟩, rfl⟩

/-- C14: peak detection. When `find_and_add_peak` returns, the observations it
appended to the tracks are such that a bin `i` below `d_bin_size` has an
observation appended iff the windowed spectrum at `i` exceeds the threshold and
both circular neighbours, and every appended observation is
`peak(d_ts_ref, i, fft_mag[i])`, its height read from the plain spectrum. -/
theorem peak_detection (c : Config) (fft_mag fft_mag_w : Nat → ℚ) (s s' : State)
    (hwf : TrackWF s) (hB : 0 < c.d_bin_size)
    (h : find_and_add_peak c fft_mag fft_mag_w s = .ok s') :
    ∃ appended : Nat → List Peak,
      (∀ t, s'.d_track.getD t [] = s.d_track.getD t [] ++ appended t) ∧
      (∀ i, i < c.d_bin_size →
        ((∃ t, ∃ pk ∈ appended t, pk.bin = i) ↔
          (fft_mag_w i > c.threshold ∧
            fft_mag_w i > fft_mag_w ((i + c.d_bin_size - 1) % c.d_bin_size) ∧
            fft_mag_w i > fft_mag_w ((i + 1) % c.d_bin_size)))) ∧
      (∀ t, ∀ pk ∈ appended t, pk = ⟨s.d_ts_ref, pk.bin, fft_mag pk.bin⟩) := by
  obtain ⟨assign, hlen, _, _, hall⟩ :=
    find_and_add_peak_loop_extended c fft_mag fft_mag_w _ s s' h hwf
  refine ⟨fun t => assigned_to
    (detected_peaks c fft_mag fft_mag_w s.d_ts_ref (List.range c.d_bin_size)) assign t,
    hall, ?_, ?_⟩
  · intro i hi
    rw [← is_peak_iff c fft_mag_w i hB]
    constructor
    · rintro ⟨t, pk, hpk, hbin⟩
      have hd := mem_assigned_to _ _ _ _ hpk
      obtain ⟨j, _, hp, rfl⟩ := (mem_detected_peaks _ _ _ _ _ _).1 hd
      simp only at hbin
      rw [← hbin]; exact hp
    · intro hp
      have hd : (⟨s.d_ts_ref, i, fft_mag i⟩ : Peak)
          ∈ detected_peaks c fft_mag fft_mag_w s.d_ts_ref (List.range c.d_bin_size) :=
        (mem_detected_peaks _ _ _ _ _ _).2 ⟨i, List.mem_range.2 hi, hp, rfl⟩
      obtain ⟨t, ht⟩ := exists_assigned_to _ assign _ hlen hd
      exact ⟨t, _, ht, rfl⟩
  · intro t pk hpk
    have hd := mem_assigned_to _ _ _ _ hpk
    obtain ⟨j, _, _, rfl⟩ := (mem_detected_peaks _ _ _ _ _ _).1 hd
    rfl

theorem peak_detection_witness :
    TrackWF init ∧ 0 < cfg7.d_bin_size ∧
      ∃ s', find_and_add_peak cfg7 spectrum_one_line spectrum_one_line init = .ok s' ∧
        ∃ appended : Nat → List Peak,
          (∀ t, s'.d_track.getD t [] = init.d_track.getD t [] ++ appended t) ∧
          (∃ t, ∃ pk ∈ appended t, pk.bin = 5) := by
  have hwf : TrackWF init := reachable_trackWF cfg7 init Reachable.init
  have hok : (find_and_add_peak cfg7 spectrum_one_line spectrum_one_line init).toBool = true := by
    decide!
  cases h : find_and_add_peak cfg7 spectrum_one_line spectrum_one_line init with
  | error e => rw [h] at hok; exact absurd hok (by simp [Except.toBool])
  | ok s' =>
    obtain ⟨appended, h1, h2, _⟩ :=
      peak_detection cfg7 spectrum_one_line spectrum_one_line init s' hwf (by decide) h
    refine ⟨hwf, by decide, s', rfl, appended, h1, ?_⟩
    exact (h2 5 (by decide)).2 (by decide!)

/-! ## Grid intervals -/

/-- A peak whose timestamp equals the left end of the interval fails the test
of lines 626 and 638. -/
theorem in_interval_left_end (c : Config) (ts_interval_l : Nat) (pk : Peak)
    (h : pk.ts = ts_interval_l) : in_interval c ts_interval_l pk = false := by
  unfold in_interval
  simp [h]

/-- C15: in `pkt_boundary` the first data peak has normalised timestamp 1152,
the left end `4*N + N/2` of grid interval 0, and the other seven data peaks lie
inside the intervals 1 to 7. The interval test rejects the peak at 1152, no
peak is found for interval 0, and the walk ends with the single marker `[0]`;
nothing is published. -/
theorem demod_packet_boundary :
    (sort_peaks (normalise cfg7 1000 pkt_boundary)).map (fun pk => pk.ts)
        = [0, 1152, 1536, 1792, 2048, 2304, 2560, 2816, 3072] ∧
      4 * cfg7.d_num_samples + cfg7.d_num_samples / 2 = 1152 ∧ cfg7.d_num_samples = 256 ∧
      in_interval cfg7 1152 ⟨1152, 75, 1⟩ = false ∧
      demod_packet cfg7 pkt_boundary = [0] ∧
      publish (demod_packet cfg7 pkt_boundary) = none := by
  decide!

/-! ## Classifier: the emitted peak -/

/-- The peak a PREAMBLE track yields, in terms of the 16-bit length `len`. -/
theorem get_central_peak_preamble (c : Config) (track : List Peak)
    (h : 82 ≤ track.length % 65536) :
    get_central_peak c track =
      (symbol_type.SYMBOL_PREAMBLE,
        if (track.getD (track.length % 65536 / 2 - 40) default).h
            > (track.getD ((track.length % 65536 - 1) / 2 + 40) default).h then
          ⟨(track.getD (track.length % 65536 / 2 - 40) default).ts + c.d_num_samples / 4
              + 5 * c.d_num_samples,
            (track.getD (track.length % 65536 / 2 - 40) default).bin,
            f32 (height_sum track (List.range' 32 32) 0 / 32)⟩
        else
          ⟨(track.getD ((track.length % 65536 - 1) / 2 + 40) default).ts
              + c.d_num_samples / 4,
            (track.getD ((track.length % 65536 - 1) / 2 + 40) default).bin,
            f32 (height_sum track (List.range' 32 32) 0 / 32)⟩) := by
  have hlt : track.length % 65536 < 65536 := Nat.mod_lt _ (by norm_num)
  have h1 : 16 * (6 - 1) + 2 ≤ track.length % 65536 := h
  have e1 : (track.length % 65536 / 2 - 16 * (6 - 1) / 2) % 65536
      = track.length % 65536 / 2 - 40 := by omega
  have e2 : ((track.length % 65536 - 1) / 2 + 16 * (6 - 1) / 2) % 65536
      = (track.length % 65536 - 1) / 2 + 40 := by omega
  unfold get_central_peak
  simp only [d_overlaps, d_num_preamble, ge_iff_le, if_pos h1, e1, e2]
  split <;> norm_num

/-- For a track of 82 to 65535 observations the anchor is taken at
`lo = L/2 - 40` when `obs[lo].h > obs[hi].h` and at `hi = (L-1)/2 + 40`
otherwise, equal heights included. -/
theorem get_central_peak_preamble_short (c : Config) (track : List Peak)
    (h82 : 82 ≤ track.length) (hlen : track.length < 65536) :
    get_central_peak c track =
      (symbol_type.SYMBOL_PREAMBLE,
        if (track.getD (track.length / 2 - 40) default).h
            > (track.getD ((track.length - 1) / 2 + 40) default).h then
          ⟨(track.getD (track.length / 2 - 40) default).ts + c.d_num_samples / 4
              + 5 * c.d_num_samples,
            (track.getD (track.length / 2 - 40) default).bin,
            f32 (height_sum track (List.range' 32 32) 0 / 32)⟩
        else
          ⟨(track.getD ((track.length - 1) / 2 + 40) default).ts + c.d_num_samples / 4,
            (track.getD ((track.length - 1) / 2 + 40) default).bin,
            f32 (height_sum track (List.range' 32 32) 0 / 32)⟩) := by
  have h := get_central_peak_preamble c track (by rw [Nat.mod_eq_of_lt hlen]; exact h82)
  rw [Nat.mod_eq_of_lt hlen] at h
  exact h

theorem getD_track_65618 (k : Nat) (hk : k < 65618) :
    track_65618.getD k default = ⟨k, k % 100, 1⟩ := by
  unfold track_65618
  rw [List.getD_eq_getElem?_getD, List.getElem?_map, List.getElem?_range hk]
  rfl

/-- C18: the track `track_65618` has 65618 observations, so `lo = L/2 - 40 = 32769`
and `hi = (L-1)/2 + 40 = 32848`, and its heights are equal, which selects
`obs[hi]` with timestamp 32848. The classifier, working on the 16-bit length
82, anchors at `obs[80]` instead: the emitted timestamp is `80 + N/4 = 144`. -/
theorem get_central_peak_track_65618 :
    track_65618.length = 65618 ∧
      track_65618.getD ((65618 - 1) / 2 + 40) default = ⟨32848, 48, 1⟩ ∧
      (get_central_peak cfg7 track_65618).1 = symbol_type.SYMBOL_PREAMBLE ∧
      (get_central_peak cfg7 track_65618).2.ts = 144 ∧
      (get_central_peak cfg7 track_65618).2.bin = 80 := by
  have hlen : track_65618.length = 65618 := by
    unfold track_65618
    rw [List.length_map, List.length_range]
  have hg := get_central_peak_preamble cfg7 track_65618 (by rw [hlen])
  rw [hlen] at hg
  have e1 : 65618 % 65536 / 2 - 40 = 1 := by norm_num
  have e2 : (65618 % 65536 - 1) / 2 + 40 = 80 := by norm_num
  rw [e1, e2, getD_track_65618 1 (by norm_num), getD_track_65618 80 (by norm_num)] at hg
  refine ⟨hlen, ?_, ?_, ?_, ?_⟩
  · rw [getD_track_65618 _ (by norm_num)]
  · rw [hg]
  · rw [hg]; simp [cfg7, Config.d_num_samples, Config.d_num_symbols]
  · rw [hg]; simp

/-- The loop of lines 293-302 over the indices `a, ..., a+n-1`, started with
the height of an earlier index `j`: it ends on the first index of maximal
height among `j` and the indices visited. -/
theorem apex_loop_spec (track : List Peak) :
    ∀ (n a j : Nat), j < a →
      (apex_loop track (List.range' a n) ((track.getD j default).h, j)).1
          = (track.getD
              (apex_loop track (List.range' a n) ((track.getD j default).h, j)).2 default).h ∧
        ((apex_loop track (List.range' a n) ((track.getD j default).h, j)).2 = j ∨
          (a ≤ (apex_loop track (List.range' a n) ((track.getD j default).h, j)).2 ∧
            (apex_loop track (List.range' a n) ((track.getD j default).h, j)).2 < a + n)) ∧
        (∀ i, (i = j ∨ (a ≤ i ∧ i < a + n)) →
          (track.getD i default).h ≤ (track.getD
            (apex_loop track (List.range' a n) ((track.getD j default).h, j)).2 default).h) ∧
        (∀ i, (i = j ∨ (a ≤ i ∧ i < a + n)) →
          i < (apex_loop track (List.range' a n) ((track.getD j default).h, j)).2 →
          (track.getD i default).h < (track.getD
            (apex_loop track (List.range' a n) ((track.getD j default).h, j)).2 default).h) := by
  intro n
  induction n with
  | zero =>
    intro a j _
    refine ⟨rfl, Or.inl rfl, ?_, ?_⟩
    · intro i hi
      show _ ≤ (track.getD j default).h
      rcases hi with hi | hi
      · rw [hi]
      · omega
    · intro i hi hlt
      have hlt' : i < j := hlt
      rcases hi with hi | hi
      · omega
      · omega
  | succ n ih =>
    intro a j hj
    rw [List.range', apex_loop]
    by_cases hgt : (track.getD a default).h > (track.getD j default).h
    · rw [if_pos hgt]
      obtain ⟨h1, h2, h3, h4⟩ := ih (a + 1) a (by omega)
      refine ⟨h1, ?_, ?_, ?_⟩
      · rcases h2 with h2 | h2
        · right; omega
        · right; omega
      · intro i hi
        rcases hi with hi | hi
        · rw [hi]
          exact le_trans (le_of_lt hgt) (h3 a (Or.inl rfl))
        · by_cases hia : i = a
          · exact h3 i (Or.inl hia)
          · exact h3 i (Or.inr (by omega))
      · intro i hi hlt
        rcases hi with hi | hi
        · rw [hi]
          exact lt_of_lt_of_le hgt (h3 a (Or.inl rfl))
        · by_cases hia : i = a
          · exact h4 i (Or.inl hia) hlt
          · exact h4 i (Or.inr (by omega)) hlt
    · rw [if_neg hgt]
      have hle : (track.getD a default).h ≤ (track.getD j default).h := not_lt.1 hgt
      obtain ⟨h1, h2, h3, h4⟩ := ih (a + 1) j (by omega)
      refine ⟨h1, ?_, ?_, ?_⟩
      · rcases h2 with h2 | h2
        · left; exact h2
        · right; omega
      · intro i hi
        rcases hi with hi | hi
        · exact h3 i (Or.inl hi)
        · by_cases hia : i = a
          · rw [hia]; exact le_trans hle (h3 j (Or.inl rfl))
          · exact h3 i (Or.inr (by omega))
      · intro i hi hlt
        rcases hi with hi | hi
        · exact h4 i (Or.inl hi) hlt
        · by_cases hia : i = a
          · rw [hia]
            rw [hia] at hlt
            rcases h2 with h2 | h2
            · omega
            · exact lt_of_le_of_lt hle (h4 j (Or.inl rfl) (by omega))
          · exact h4 i (Or.inr (by omega)) hlt

/-- C19: data apex. For a track of 2 to `2*d_overlaps = 32` observations the
classifier returns DATA together with one observation of the track, unchanged;
no observation of the track is higher, and every earlier observation is
strictly lower. -/
theorem get_central_peak_data (c : Config) (track : List Peak)
    (hlen : 2 ≤ track.length ∧ track.length ≤ 2 * d_overlaps) :
    ∃ (idx : Nat) (pk : Peak), track[idx]? = some pk ∧
      get_central_peak c track = (symbol_type.SYMBOL_DATA, pk) ∧
      (∀ (i : Nat) (q : Peak), track[i]? = some q → q.h ≤ pk.h) ∧
      (∀ (i : Nat) (q : Peak), i < idx → track[i]? = some q → q.h < pk.h) := by
  obtain ⟨h2, h32⟩ := hlen
  simp only [d_overlaps] at h32
  have hmod : track.length % 65536 = track.length := Nat.mod_eq_of_lt (by omega)
  obtain ⟨_, a2, a3, a4⟩ := apex_loop_spec track (track.length - 1) 1 0 (by omega)
  have hidx : (apex_loop track (List.range' 1 (track.length - 1))
      ((track.getD 0 default).h, 0)).2 < track.length := by
    rcases a2 with a2 | a2
    · omega
    · omega
  have hget : ∀ (i : Nat) (q : Peak), track[i]? = some q → track.getD i default = q := by
    intro i q hq
    rw [List.getD_eq_getElem?_getD, hq]; rfl
  have hsome : ∀ i, i < track.length → track[i]? = some (track.getD i default) := by
    intro i hi
    rw [List.getD_eq_getElem?_getD, List.getElem?_eq_getElem hi]; rfl
  refine ⟨_, _, hsome _ hidx, ?_, ?_, ?_⟩
  · unfold get_central_peak
    have hn1 : ¬ (track.length ≥ 16 * (6 - 1) + 2) := by omega
    have hn2 : track.length ≥ 2 ∧ track.length ≤ 2 * 16 := ⟨h2, by omega⟩
    simp only [d_overlaps, d_num_preamble, hmod, if_neg hn1, if_pos hn2]
  · intro i q hq
    have hi : i < track.length := (List.getElem?_eq_some.1 hq).1
    rw [← hget i q hq]
    exact a3 i (by omega)
  · intro i q hlt hq
    have hi : i < track.length := (List.getElem?_eq_some.1 hq).1
    rw [← hget i q hq]
    exact a4 i (by omega) hlt

theorem get_central_peak_data_witness :
    ∃ (idx : Nat) (pk : Peak),
      ([⟨0, 5, 1⟩, ⟨16, 13, 3⟩, ⟨32, 21, 3⟩, ⟨48, 29, 2⟩] : List Peak)[idx]? = some pk ∧
      get_central_peak cfg7 [⟨0, 5, 1⟩, ⟨16, 13, 3⟩, ⟨32, 21, 3⟩, ⟨48, 29, 2⟩]
        = (symbol_type.SYMBOL_DATA, pk) ∧ idx = 1 := by
  obtain ⟨idx, pk, h1, h2, h3, h4⟩ :=
    get_central_peak_data cfg7 [⟨0, 5, 1⟩, ⟨16, 13, 3⟩, ⟨32, 21, 3⟩, ⟨48, 29, 2⟩]
      (by decide)
  refine ⟨idx, pk, h1, h2, ?_⟩
  have e : get_central_peak cfg7 [⟨0, 5, 1⟩, ⟨16, 13, 3⟩, ⟨32, 21, 3⟩, ⟨48, 29, 2⟩]
      = (symbol_type.SYMBOL_DATA, ⟨16, 13, 3⟩) := by decide!
  rw [e] at h2
  have hpk : pk = ⟨16, 13, 3⟩ := by
    have := congrArg Prod.snd h2
    exact this.symm
  subst hpk
  match idx, h1, h4 with
  | 0, h1, _ => simp at h1
  | 1, _, _ => rfl
  | 2, _, h4 =>
    have := h4 1 ⟨16, 13, 3⟩ (by norm_num) rfl
    simp at this
  | 3, h1, _ => simp at h1
  | (n + 4), h1, _ => simp at h1

/-! ## Track matching -/

theorem pos_mod_zero_left (m : Nat) : pos_mod 0 m = 0 := by
  unfold pos_mod
  simp

theorem pos_mod_self_add (a : Int) (m : Nat) (hm : 0 < m) :
    pos_mod ((m : Int) + a) m = pos_mod a m := by
  have h1 := pos_mod_cast ((m : Int) + a) m hm
  have h2 := pos_mod_cast a m hm
  have : ((m : Int) + a) % (m : Int) = a % (m : Int) := by
    rw [Int.add_comm, Int.add_emod_self]
  omega

theorem match_track_first (c : Config) (cur_bin : Nat) :
    ∀ (pre : List bin_track_id) (bt : bin_track_id) (post : List bin_track_id),
      (∀ b ∈ pre, bin_matches c cur_bin b = false) → bin_matches c cur_bin bt = true →
      match_track c cur_bin (pre ++ bt :: post)
        = some (bt.track_id, pre ++ { bt with updated := true } :: post) := by
  intro pre
  induction pre with
  | nil =>
    intro bt post _ hbt
    simp only [List.nil_append, match_track, hbt, if_true]
  | cons b pre ih =>
    intro bt post hpre hbt
    have hb : bin_matches c cur_bin b = false := hpre b (List.mem_cons_self _ _)
    rw [List.cons_append, match_track, hb,
      ih bt post (fun x hx => hpre x (List.mem_cons_of_mem _ hx)) hbt]
    rfl

theorem nodup_of_trackIdInv (s : State) (h : TrackIdInv s) :
    (s.d_bin_track_id_list.map (fun bt => bt.track_id) ++ s.d_track_id_pool).Nodup :=
  (List.Perm.nodup_iff h).2 (List.nodup_range _)

theorem lt_of_trackerInv_pool (s : State) (h : TrackerInv s) (id : Nat)
    (hid : id ∈ s.d_track_id_pool) : id < s.d_track.length := by
  have := (List.Perm.mem_iff h.1).1 (List.mem_append_right _ hid)
  rw [h.2.1]
  exact List.mem_range.1 this

theorem lt_of_trackerInv_list (s : State) (h : TrackerInv s) (bt : bin_track_id)
    (hbt : bt ∈ s.d_bin_track_id_list) : bt.track_id < s.d_track.length := by
  have := (List.Perm.mem_iff h.1).1
    (List.mem_append_left _ (List.mem_map_of_mem (fun bt => bt.track_id) hbt))
  rw [h.2.1]
  exact List.mem_range.1 this

/-- C20: track matching. The relative bin of a detected peak at raw bin `i` is
`(i - d_bin_ref) mod d_bin_size`; an entry matches when the circular distance
`(cur_bin - bt.bin) mod d_bin_size` is at most `d_bin_tolerance` or at least
`d_bin_size - d_bin_tolerance`. The peak is appended to the track of the first
matching entry of `d_bin_track_id_list`, which is marked updated and keeps its
bin; when no entry matches, the entry `{cur_bin, id, true}` with the id at the
head of the pool is added behind all entries and the peak is the only
observation of track `id`. -/
theorem add_peak_matching (c : Config) (fft_mag : Nat → ℚ) (s : State) (i : Nat)
    (hB : 0 < c.d_bin_size) (hinv : TrackerInv s) :
    ((rel_bin c s.d_bin_ref i : Int) = ((i : Int) - s.d_bin_ref) % (c.d_bin_size : Int)) ∧
    (∀ bt : bin_track_id, bin_matches c (rel_bin c s.d_bin_ref i) bt = true ↔
      (((rel_bin c s.d_bin_ref i : Int) - bt.bin) % (c.d_bin_size : Int)
          ≤ (c.d_bin_tolerance : Int) ∨
        ((rel_bin c s.d_bin_ref i : Int) - bt.bin) % (c.d_bin_size : Int)
          ≥ ((c.d_bin_size - c.d_bin_tolerance : Nat) : Int))) ∧
    (∀ (pre : List bin_track_id) (bt : bin_track_id) (post : List bin_track_id),
      s.d_bin_track_id_list = pre ++ bt :: post →
      (∀ b ∈ pre, bin_matches c (rel_bin c s.d_bin_ref i) b = false) →
      bin_matches c (rel_bin c s.d_bin_ref i) bt = true →
      add_peak c fft_mag s i = .ok { s with
          d_bin_track_id_list := pre ++ { bt with updated := true } :: post
          d_track := push_peak s.d_track bt.track_id ⟨s.d_ts_ref, i, fft_mag i⟩ } ∧
        (push_peak s.d_track bt.track_id ⟨s.d_ts_ref, i, fft_mag i⟩).getD bt.track_id []
          = s.d_track.getD bt.track_id [] ++ [⟨s.d_ts_ref, i, fft_mag i⟩]) ∧
    ((∀ b ∈ s.d_bin_track_id_list, bin_matches c (rel_bin c s.d_bin_ref i) b = false) →
      ∀ (id : Nat) (pool : List Nat), s.d_track_id_pool = id :: pool →
        add_peak c fft_mag s i = .ok { s with
          d_track_id_pool := pool
          d_bin_track_id_list :=
            s.d_bin_track_id_list ++ [⟨rel_bin c s.d_bin_ref i, id, true⟩]
          d_track := push_peak s.d_track id ⟨s.d_ts_ref, i, fft_mag i⟩ } ∧
        (push_peak s.d_track id ⟨s.d_ts_ref, i, fft_mag i⟩).getD id []
          = [⟨s.d_ts_ref, i, fft_mag i⟩]) := by
  refine ⟨?_, ?_, ?_, ?_⟩
  · unfold rel_bin
    rw [pos_mod_cast _ _ hB]
    have : (c.d_bin_size : Int) + i - s.d_bin_ref
        = ((i : Int) - s.d_bin_ref) + (c.d_bin_size : Int) := by ring
    rw [this, Int.add_emod_self]
  · intro bt
    unfold bin_matches
    simp only [Bool.or_eq_true, decide_eq_true_eq, ge_iff_le]
    have e : (c.d_bin_size : Int) + (rel_bin c s.d_bin_ref i : Int) - bt.bin
        = (c.d_bin_size : Int) + ((rel_bin c s.d_bin_ref i : Int) - bt.bin) := by ring
    have h1 : (pos_mod ((c.d_bin_size : Int) + (rel_bin c s.d_bin_ref i : Int) - bt.bin)
        c.d_bin_size : Int)
        = ((rel_bin c s.d_bin_ref i : Int) - bt.bin) % (c.d_bin_size : Int) := by
      rw [e, pos_mod_self_add _ _ hB, pos_mod_cast _ _ hB]
    rw [← h1]
    constructor
    · rintro (h | h)
      · left; exact_mod_cast h
      · right; exact_mod_cast h
    · rintro (h | h)
      · left; exact_mod_cast h
      · right; exact_mod_cast h
  · intro pre bt post hl hpre hbt
    have hm := match_track_first c (rel_bin c s.d_bin_ref i) pre bt post hpre hbt
    refine ⟨?_, ?_⟩
    · unfold add_peak
      simp only [hl]
      unfold rel_bin at hm
      rw [hm]
    · apply getD_push_peak_same
      apply lt_of_trackerInv_list s hinv bt
      rw [hl]
      simp
  · intro hnone id pool hpool
    have hm := match_track_none c (rel_bin c s.d_bin_ref i) _ hnone
    refine ⟨?_, ?_⟩
    · unfold add_peak
      unfold rel_bin at hm
      simp only [hm, hpool]
      rfl
    · have hid : id ∈ s.d_track_id_pool := by rw [hpool]; exact List.mem_cons_self _ _
      rw [getD_push_peak_same _ _ _ (lt_of_trackerInv_pool s hinv id hid), hinv.2.2 id hid]
      rfl

/-! ## Tracker invariant -/

theorem match_track_none_iff (c : Config) (cur_bin : Nat) :
    ∀ (l : List bin_track_id), match_track c cur_bin l = none →
      ∀ b ∈ l, bin_matches c cur_bin b = false := by
  intro l
  induction l with
  | nil => intro _ b hb; simp at hb
  | cons bt rest ih =>
    intro h b hb
    rw [match_track] at h
    by_cases hm : bin_matches c cur_bin bt = true
    · rw [if_pos hm] at h; exact absurd h (by simp)
    · rw [if_neg hm] at h
      have hm' : bin_matches c cur_bin bt = false := by simpa using hm
      rcases List.mem_cons.1 hb with hb | hb
      · rw [hb]; exact hm'
      · apply ih _ b hb
        cases hrest : match_track c cur_bin rest with
        | none => rfl
        | some x => rw [hrest] at h; exact absurd h (by simp)

theorem match_track_some_first (c : Config) (cur_bin : Nat) :
    ∀ (l : List bin_track_id) (id : Nat) (l' : List bin_track_id),
      match_track c cur_bin l = some (id, l') →
      ∃ (pre : List bin_track_id) (bt : bin_track_id) (post : List bin_track_id),
        l = pre ++ bt :: post ∧ (∀ b ∈ pre, bin_matches c cur_bin b = false) ∧
        bin_matches c cur_bin bt = true ∧ id = bt.track_id ∧
        l' = pre ++ { bt with updated := true } :: post := by
  intro l
  induction l with
  | nil => intro id l' h; simp [match_track] at h
  | cons bt rest ih =>
    intro id l' h
    rw [match_track] at h
    by_cases hm : bin_matches c cur_bin bt = true
    · rw [if_pos hm] at h
      simp only [Option.some.injEq, Prod.mk.injEq] at h
      obtain ⟨h1, h2⟩ := h
      exact ⟨[], bt, rest, rfl, by simp, hm, h1.symm, h2.symm⟩
    · rw [if_neg hm] at h
      have hm' : bin_matches c cur_bin bt = false := by simpa using hm
      cases hrest : match_track c cur_bin rest with
      | none => rw [hrest] at h; exact absurd h (by simp)
      | some x =>
        obtain ⟨id1, rest1⟩ := x
        rw [hrest] at h
        simp only [Option.some.injEq, Prod.mk.injEq] at h
        obtain ⟨h1, h2⟩ := h
        obtain ⟨pre, b, post, e1, e2, e3, e4, e5⟩ := ih id1 rest1 hrest
        refine ⟨bt :: pre, b, post, by rw [e1]; rfl, ?_, e3, by rw [← h1, e4], ?_⟩
        · intro x hx
          rcases List.mem_cons.1 hx with hx | hx
          · rw [hx]; exact hm'
          · exact e2 x hx
        · rw [← h2, e5]; rfl

/-- The two ways `add_peak` returns: the peak joined the track of the first
matching entry, or no entry matched and the head of the pool opened a track. -/
theorem add_peak_cases (c : Config) (fft_mag : Nat → ℚ) (s s' : State) (i : Nat)
    (h : add_peak c fft_mag s i = .ok s') :
    (∃ (pre : List bin_track_id) (bt : bin_track_id) (post : List bin_track_id),
      s.d_bin_track_id_list = pre ++ bt :: post ∧
      (∀ b ∈ pre, bin_matches c (rel_bin c s.d_bin_ref i) b = false) ∧
      bin_matches c (rel_bin c s.d_bin_ref i) bt = true ∧
      s' = { s with
        d_bin_track_id_list := pre ++ { bt with updated := true } :: post
        d_track := push_peak s.d_track bt.track_id ⟨s.d_ts_ref, i, fft_mag i⟩ }) ∨
    ((∀ b ∈ s.d_bin_track_id_list, bin_matches c (rel_bin c s.d_bin_ref i) b = false) ∧
      ∃ (id : Nat) (pool : List Nat), s.d_track_id_pool = id :: pool ∧
        s' = { s with
          d_track_id_pool := pool
          d_bin_track_id_list :=
            s.d_bin_track_id_list ++ [⟨rel_bin c s.d_bin_ref i, id, true⟩]
          d_track := push_peak s.d_track id ⟨s.d_ts_ref, i, fft_mag i⟩ }) := by
  unfold add_peak at h
  simp only at h
  split at h
  · rename_i id l heq
    obtain ⟨pre, bt, post, e1, e2, e3, e4, e5⟩ := match_track_some_first c _ _ _ _ heq
    simp only [Except.ok.injEq] at h
    left
    refine ⟨pre, bt, post, e1, e2, e3, ?_⟩
    rw [← h, e4, e5]
  · rename_i heq
    split at h
    · exact absurd h (by simp)
    · rename_i id pool hpool
      simp only [Except.ok.injEq] at h
      right
      exact ⟨match_track_none_iff c _ _ heq, id, pool, hpool, h.symm⟩

theorem add_peak_trackerInv (c : Config) (fft_mag : Nat → ℚ) (s s' : State) (i : Nat)
    (hinv : TrackerInv s) (h : add_peak c fft_mag s i = .ok s') : TrackerInv s' := by
  obtain ⟨_, _, hlen, hperm⟩ := add_peak_frame c fft_mag s s' i h
  have hnd := nodup_of_trackIdInv s hinv.1
  refine ⟨hperm hinv.1, hlen.trans hinv.2.1, ?_⟩
  rcases add_peak_cases c fft_mag s s' i h with
    ⟨pre, bt, post, hl, _, _, rfl⟩ | ⟨_, id, pool, hpool, rfl⟩
  · intro x hx
    have hx' : x ∈ s.d_track_id_pool := hx
    have hne : x ≠ bt.track_id := by
      intro hxe
      have hin : bt.track_id ∈ s.d_bin_track_id_list.map (fun bt => bt.track_id) := by
        rw [hl]; simp
      exact (List.nodup_append.1 hnd).2.2 hin (hxe ▸ hx')
    show (push_peak s.d_track bt.track_id _).getD x [] = []
    rw [getD_push_peak_other _ _ _ _ hne]
    exact hinv.2.2 x hx'
  · intro x hx
    have hx' : x ∈ pool := hx
    have hpnd : (id :: pool).Nodup := hpool ▸ (List.nodup_append.1 hnd).2.1
    have hne : x ≠ id := by
      intro hxe
      exact (List.nodup_cons.1 hpnd).1 (hxe ▸ hx')
    show (push_peak s.d_track id _).getD x [] = []
    rw [getD_push_peak_other _ _ _ _ hne]
    exact hinv.2.2 x (by rw [hpool]; exact List.mem_cons_of_mem _ hx')

theorem find_and_add_peak_loop_trackerInv (c : Config) (fft_mag fft_mag_w : Nat → ℚ) :
    ∀ (bins : List Nat) (s s' : State), TrackerInv s →
      find_and_add_peak_loop c fft_mag fft_mag_w bins s = .ok s' → TrackerInv s' := by
  intro bins
  induction bins with
  | nil =>
    intro s s' hinv h
    simp only [find_and_add_peak_loop, Except.ok.injEq] at h
    subst h; exact hinv
  | cons i rest ih =>
    intro s s' hinv h
    rw [find_and_add_peak_loop] at h
    by_cases hp : is_peak c fft_mag_w i = true
    · rw [if_pos hp] at h
      split at h
      · rename_i s1 h1
        exact ih s1 s' (add_peak_trackerInv c fft_mag s s1 i hinv h1) h
      · exact absurd h (by simp)
    · rw [if_neg hp] at h
      exact ih s s' hinv h

theorem close_tracks_pool_clean (c : Config) :
    ∀ (l : List bin_track_id) (s s1 : State), close_tracks c l s = .ok s1 →
      (∀ id ∈ s.d_track_id_pool, s.d_track.getD id [] = []) →
      ∀ id ∈ s1.d_track_id_pool, s1.d_track.getD id [] = [] := by
  intro l
  induction l with
  | nil =>
    intro s s1 h hc
    simp only [close_tracks, Except.ok.injEq] at h
    subst h; exact hc
  | cons bt rest ih =>
    intro s s1 h hc
    rw [close_tracks] at h
    by_cases hu : bt.updated = true
    · rw [if_pos hu] at h
      exact ih s s1 h hc
    · rw [if_neg hu] at h
      simp only at h
      split at h
      · exact absurd h (by simp)
      · rename_i s2 hrouted
        have hfr : s2.d_track_id_pool = s.d_track_id_pool ∧ s2.d_track = s.d_track := by
          split at hrouted
          · split at hrouted
            · rename_i res hres
              simp only [Except.ok.injEq] at hrouted
              subst hrouted
              obtain ⟨_, f2, f3, _⟩ := add_symbol_to_packet_frame c s res.1 _ _ res.2 hres
              exact ⟨f2, f3⟩
            · exact absurd hrouted (by simp)
          · simp only [Except.ok.injEq] at hrouted
            subst hrouted
            exact ⟨rfl, rfl⟩
        apply ih _ s1 h
        intro x hx
        have hx' : x ∈ s2.d_track_id_pool ++ [bt.track_id] := hx
        show (s2.d_track.set bt.track_id []).getD x [] = []
        by_cases hxe : x = bt.track_id
        · rw [hxe, List.getD_eq_getElem?_getD]
          by_cases hlt : bt.track_id < s2.d_track.length
          · rw [List.getElem?_set_self hlt]; rfl
          · rw [List.getElem?_eq_none (by rw [List.length_set]; omega)]; rfl
        · rw [List.getD_eq_getElem?_getD, List.getElem?_set_ne (Ne.symm hxe),
            ← List.getD_eq_getElem?_getD, hfr.2]
          rcases List.mem_append.1 hx' with hx' | hx'
          · exact hc x (hfr.1 ▸ hx')
          · exact absurd (List.mem_singleton.1 hx') hxe

theorem check_and_update_track_trackerInv (c : Config) (s s' : State) (hinv : TrackerInv s)
    (h : check_and_update_track c s = .ok s') : TrackerInv s' := by
  obtain ⟨a1, a2, _⟩ := check_and_update_track_frame c s s' h
  refine ⟨a2 hinv.1, a1.trans hinv.2.1, ?_⟩
  unfold check_and_update_track at h
  split at h
  · exact absurd h (by simp)
  · rename_i s1 h1
    simp only [Except.ok.injEq] at h
    subst h
    exact close_tracks_pool_clean c _ s s1 h1 hinv.2.2

theorem general_work_trackerInv (c : Config) (ninput : Nat)
    (fft_res_add fft_res_add_w : Nat → ℚ) (s s' : State) (hinv : TrackerInv s)
    (h : general_work c ninput fft_res_add fft_res_add_w s = .ok s') : TrackerInv s' := by
  unfold general_work at h
  split at h
  · simp only [Except.ok.injEq] at h
    subst h; exact hinv
  · split at h
    · exact absurd h (by simp)
    · rename_i s1 h1
      split at h
      · exact absurd h (by simp)
      · rename_i s2 h2
        simp only [Except.ok.injEq] at h
        subst h
        have i1 := find_and_add_peak_loop_trackerInv c _ _ _ s s1 hinv h1
        have i2 := check_and_update_track_trackerInv c s1 s2 i1 h2
        obtain ⟨f1, f2, f3, _, _⟩ := finish_packets_frame c s2.d_packet_state_list s2
        refine ⟨?_, ?_, ?_⟩
        · have := i2.1
          unfold TrackIdInv at this ⊢
          show List.Perm
            ((finish_packets c s2.d_packet_state_list s2).d_bin_track_id_list.map _
              ++ (finish_packets c s2.d_packet_state_list s2).d_track_id_pool) _
          rw [f1, f2]; exact this
        · show (finish_packets c s2.d_packet_state_list s2).d_track.length = _
          rw [f3]; exact i2.2.1
        · intro x hx
          have hx' : x ∈ (finish_packets c s2.d_packet_state_list s2).d_track_id_pool := hx
          show (finish_packets c s2.d_packet_state_list s2).d_track.getD x [] = []
          rw [f3]
          exact i2.2.2 x (f2 ▸ hx')

/-- Every reachable state satisfies the tracker invariant; by
`find_and_add_peak_loop_trackerInv` so does every state between two peak
insertions of a step. -/
theorem reachable_trackerInv (c : Config) (s : State) (h : Reachable c s) : TrackerInv s := by
  induction h with
  | init =>
    refine ⟨(reachable_inv c init Reachable.init).1, (reachable_inv c init Reachable.init).2.1, ?_⟩
    intro id hid
    have hid' : id < track_size := by
      have : id ∈ List.range track_size := hid
      exact List.mem_range.1 this
    show (List.replicate track_size ([] : List Peak)).getD id [] = []
    rw [List.getD_eq_getElem?_getD]
    simp [List.getElem?_replicate, hid']
  | step s s' ninput m mw _ hstep ih =>
    exact general_work_trackerInv c ninput m mw s s' ih hstep

theorem add_peak_matching_witness :
    0 < cfg7.d_bin_size ∧ TrackerInv init ∧
      add_peak cfg7 spectrum_one_line init 5 = .ok { init with
        d_track_id_pool := (List.range track_size).drop 1
        d_bin_track_id_list := init.d_bin_track_id_list ++ [⟨rel_bin cfg7 init.d_bin_ref 5, 0, true⟩]
        d_track := push_peak init.d_track 0 ⟨init.d_ts_ref, 5, spectrum_one_line 5⟩ } ∧
      (push_peak init.d_track 0 ⟨init.d_ts_ref, 5, spectrum_one_line 5⟩).getD 0 []
        = [⟨init.d_ts_ref, 5, spectrum_one_line 5⟩] :=
  ⟨by decide, reachable_trackerInv cfg7 init Reachable.init,
    (add_peak_matching cfg7 spectrum_one_line init 5 (by decide)
      (reachable_trackerInv cfg7 init Reachable.init)).2.2.2
      (by intro b hb; simp [init] at hb) 0 ((List.range track_size).drop 1) (by decide)⟩

/-! ## Best of interval -/

theorem xlt_iff (a b : XFloat) : xlt a b = true ↔ a < b := by
  show _ ↔ XFloat.toK a < XFloat.toK b
  cases a <;> cases b <;> simp [xlt, XFloat.toK, WithBot.bot_lt_coe, WithTop.coe_lt_top]
  exact WithBot.coe_lt_coe.2 (WithTop.coe_lt_top _)

theorem not_lt_pinf (a : XFloat) (h : ¬ a < XFloat.pinf) : a = XFloat.pinf := by
  have h' : ¬ XFloat.toK a < XFloat.toK XFloat.pinf := h
  cases a <;> simp_all [XFloat.toK]

/-- The inner loop of lines 622-643 once a first peak was found: it advances over
the peaks inside the interval and stops at the first one outside. -/
theorem scan_interval_rest (c : Config) (L : Nat) :
    ∀ (l : List Peak) (e s : Nat) (g : Bool),
      ∃ n, n ≤ l.length ∧ scan_interval c L l e s false g = (s, e + n, g) ∧
        (∀ (i : Nat) (pk : Peak), i < n → l[i]? = some pk → in_interval c L pk = true) ∧
        (∀ pk : Peak, l[n]? = some pk → in_interval c L pk = false) := by
  intro l
  induction l with
  | nil =>
    intro e s g
    exact ⟨0, le_refl _, rfl, by intro i pk hi; omega, by intro pk h; simp at h⟩
  | cons pk rest ih =>
    intro e s g
    by_cases hin : in_interval c L pk = true
    · obtain ⟨n, hn, hr, h1, h2⟩ := ih (e + 1) s g
      refine ⟨n + 1, by simp only [List.length_cons]; omega, ?_, ?_, ?_⟩
      · rw [scan_interval, if_pos hin, hr]
        have : e + 1 + n = e + (n + 1) := by omega
        rw [this]
      · intro i q hi hq
        cases i with
        | zero =>
          simp only [List.getElem?_cons_zero, Option.some.injEq] at hq
          rw [← hq]; exact hin
        | succ i =>
          simp only [List.getElem?_cons_succ] at hq
          exact h1 i q (by omega) hq
      · intro q hq
        simp only [List.getElem?_cons_succ] at hq
        exact h2 q hq
    · have hin' : in_interval c L pk = false := by simpa using hin
      refine ⟨0, by omega, ?_, by intro i q hi; omega, ?_⟩
      · rw [scan_interval, if_neg hin]
        rfl
      · intro q hq
        simp only [List.getElem?_cons_zero, Option.some.injEq] at hq
        rw [← hq]; exact hin'

/-- The inner loop of lines 622-643 from its start: either no remaining peak is
inside the interval and `end_idx` runs to the end, or the result delimits the
first run of consecutive peaks inside the interval. -/
theorem scan_interval_first (c : Config) (L : Nat) :
    ∀ (l : List Peak) (e s : Nat) (g : Bool),
      ((∀ pk ∈ l, in_interval c L pk = false) ∧
        scan_interval c L l e s true g = (s, e + l.length, g)) ∨
      (∃ a n, 0 < n ∧ a + n ≤ l.length ∧
        scan_interval c L l e s true g = (e + a, e + a + n, true) ∧
        (∀ (i : Nat) (pk : Peak), i < a → l[i]? = some pk → in_interval c L pk = false) ∧
        (∀ (i : Nat) (pk : Peak), a ≤ i → i < a + n → l[i]? = some pk →
          in_interval c L pk = true) ∧
        (∀ pk : Peak, l[a + n]? = some pk → in_interval c L pk = false)) := by
  intro l
  induction l with
  | nil =>
    intro e s g
    left
    exact ⟨by intro pk h; simp at h, rfl⟩
  | cons pk rest ih =>
    intro e s g
    by_cases hin : in_interval c L pk = true
    · right
      obtain ⟨n, hn, hr, h1, h2⟩ := scan_interval_rest c L rest (e + 1) e true
      refine ⟨0, n + 1, by omega, by simp only [List.length_cons]; omega, ?_, ?_, ?_, ?_⟩
      · rw [scan_interval, if_pos hin, hr]
        have : e + 1 + n = e + 0 + (n + 1) := by omega
        rw [this]; rfl
      · intro i q hi; omega
      · intro i q _ hi hq
        cases i with
        | zero =>
          simp only [List.getElem?_cons_zero, Option.some.injEq] at hq
          rw [← hq]; exact hin
        | succ i =>
          simp only [List.getElem?_cons_succ] at hq
          exact h1 i q (by omega) hq
      · intro q hq
        have : 0 + (n + 1) = n + 1 := by omega
        rw [this] at hq
        simp only [List.getElem?_cons_succ] at hq
        exact h2 q hq
    · have hin' : in_interval c L pk = false := by simpa using hin
      rcases ih (e + 1) s g with ⟨hall, hr⟩ | ⟨a, n, hn, han, hr, h1, h2, h3⟩
      · left
        refine ⟨?_, ?_⟩
        · intro q hq
          rcases List.mem_cons.1 hq with hq | hq
          · rw [hq]; exact hin'
          · exact hall q hq
        · rw [scan_interval, if_neg hin, hr]
          simp only [List.length_cons]
          have : e + 1 + rest.length = e + (rest.length + 1) := by omega
          rw [this]
      · right
        refine ⟨a + 1, n, hn, by simp only [List.length_cons]; omega, ?_, ?_, ?_, ?_⟩
        · rw [scan_interval, if_neg hin, hr]
          have e1 : e + 1 + a = e + (a + 1) := by omega
          rw [e1]
        · intro i q hi hq
          cases i with
          | zero =>
            simp only [List.getElem?_cons_zero, Option.some.injEq] at hq
            rw [← hq]; exact hin'
          | succ i =>
            simp only [List.getElem?_cons_succ] at hq
            exact h1 i q (by omega) hq
        · intro i q hai hi hq
          cases i with
          | zero => omega
          | succ i =>
            simp only [List.getElem?_cons_succ] at hq
            exact h2 i q (by omega) (by omega) hq
        · intro q hq
          have : a + 1 + n = (a + n) + 1 := by omega
          rw [this] at hq
          simp only [List.getElem?_cons_succ] at hq
          exact h3 q hq

/-- The search of lines 648-662 over the indices `a, ..., a+n-1`, once an
earlier index `j` holds the current minimum: it ends on the first index of
minimal distance among `j` and the indices visited. -/
theorem best_peak_loop_some (c : Config) (pre_ts : Nat) (pre_h : ℚ) (pkt : List Peak) :
    ∀ (n a j : Nat), j < a →
      ((best_peak_loop c pre_ts pre_h pkt (List.range' a n)
          (peak_dis c pre_ts pre_h (pkt.getD j default), j)).2 = j ∨
        (a ≤ (best_peak_loop c pre_ts pre_h pkt (List.range' a n)
            (peak_dis c pre_ts pre_h (pkt.getD j default), j)).2 ∧
          (best_peak_loop c pre_ts pre_h pkt (List.range' a n)
            (peak_dis c pre_ts pre_h (pkt.getD j default), j)).2 < a + n)) ∧
      (∀ i, (i = j ∨ (a ≤ i ∧ i < a + n)) →
        peak_dis c pre_ts pre_h (pkt.getD
          (best_peak_loop c pre_ts pre_h pkt (List.range' a n)
            (peak_dis c pre_ts pre_h (pkt.getD j default), j)).2 default)
          ≤ peak_dis c pre_ts pre_h (pkt.getD i default)) ∧
      (∀ i, (i = j ∨ (a ≤ i ∧ i < a + n)) →
        i < (best_peak_loop c pre_ts pre_h pkt (List.range' a n)
            (peak_dis c pre_ts pre_h (pkt.getD j default), j)).2 →
        peak_dis c pre_ts pre_h (pkt.getD
          (best_peak_loop c pre_ts pre_h pkt (List.range' a n)
            (peak_dis c pre_ts pre_h (pkt.getD j default), j)).2 default)
          < peak_dis c pre_ts pre_h (pkt.getD i default)) := by
  intro n
  induction n with
  | zero =>
    intro a j _
    refine ⟨Or.inl rfl, ?_, ?_⟩
    · intro i hi
      show peak_dis c pre_ts pre_h (pkt.getD j default) ≤ _
      rcases hi with hi | hi
      · rw [hi]
      · omega
    · intro i hi hlt
      have hlt' : i < j := hlt
      rcases hi with hi | hi
      · omega
      · omega
  | succ n ih =>
    intro a j hj
    rw [List.range', best_peak_loop]
    by_cases hlt : peak_dis c pre_ts pre_h (pkt.getD a default)
        < peak_dis c pre_ts pre_h (pkt.getD j default)
    · have hl : xlt (peak_dis c pre_ts pre_h (pkt.getD a default))
          (peak_dis c pre_ts pre_h (pkt.getD j default), j).1 = true := (xlt_iff _ _).2 hlt
      rw [if_pos hl]
      obtain ⟨h2, h3, h4⟩ := ih (a + 1) a (by omega)
      refine ⟨?_, ?_, ?_⟩
      · rcases h2 with h2 | h2
        · right; omega
        · right; omega
      · intro i hi
        rcases hi with hi | hi
        · rw [hi]
          exact le_trans (h3 a (Or.inl rfl)) (le_of_lt hlt)
        · by_cases hia : i = a
          · exact h3 i (Or.inl hia)
          · exact h3 i (Or.inr (by omega))
      · intro i hi hlt2
        rcases hi with hi | hi
        · rw [hi]
          exact lt_of_le_of_lt (h3 a (Or.inl rfl)) hlt
        · by_cases hia : i = a
          · exact h4 i (Or.inl hia) hlt2
          · exact h4 i (Or.inr (by omega)) hlt2
    · have hl : ¬ xlt (peak_dis c pre_ts pre_h (pkt.getD a default))
          (peak_dis c pre_ts pre_h (pkt.getD j default), j).1 = true :=
        fun h => hlt ((xlt_iff _ _).1 h)
      rw [if_neg hl]
      have hle : peak_dis c pre_ts pre_h (pkt.getD j default)
          ≤ peak_dis c pre_ts pre_h (pkt.getD a default) := not_lt.1 hlt
      obtain ⟨h2, h3, h4⟩ := ih (a + 1) j (by omega)
      refine ⟨?_, ?_, ?_⟩
      · rcases h2 with h2 | h2
        · left; exact h2
        · right; omega
      · intro i hi
        rcases hi with hi | hi
        · exact h3 i (Or.inl hi)
        · by_cases hia : i = a
          · rw [hia]; exact le_trans (h3 j (Or.inl rfl)) hle
          · exact h3 i (Or.inr (by omega))
      · intro i hi hlt2
        rcases hi with hi | hi
        · exact h4 i (Or.inl hi) hlt2
        · by_cases hia : i = a
          · rw [hia]
            rw [hia] at hlt2
            rcases h2 with h2 | h2
            · omega
            · exact lt_of_lt_of_le (h4 j (Or.inl rfl) (by omega)) hle
          · exact h4 i (Or.inr (by omega)) hlt2

/-- The search of lines 648-662 over a non-empty run `lo, ..., hi-1`: the index
it returns lies in the run, has minimal distance there, and every earlier index
of the run has a strictly larger distance. -/
theorem best_peak_loop_run (c : Config) (pre_ts : Nat) (pre_h : ℚ) (pkt : List Peak)
    (lo hi : Nat) (hlt : lo < hi) :
    lo ≤ (best_peak_loop c pre_ts pre_h pkt (List.range' lo (hi - lo)) (XFloat.pinf, lo)).2 ∧
      (best_peak_loop c pre_ts pre_h pkt (List.range' lo (hi - lo)) (XFloat.pinf, lo)).2 < hi ∧
      (∀ i, lo ≤ i → i < hi →
        peak_dis c pre_ts pre_h (pkt.getD
          (best_peak_loop c pre_ts pre_h pkt (List.range' lo (hi - lo)) (XFloat.pinf, lo)).2 default)
          ≤ peak_dis c pre_ts pre_h (pkt.getD i default)) ∧
      (∀ i, lo ≤ i →
        i < (best_peak_loop c pre_ts pre_h pkt (List.range' lo (hi - lo)) (XFloat.pinf, lo)).2 →
        peak_dis c pre_ts pre_h (pkt.getD
          (best_peak_loop c pre_ts pre_h pkt (List.range' lo (hi - lo)) (XFloat.pinf, lo)).2 default)
          < peak_dis c pre_ts pre_h (pkt.getD i default)) := by
  obtain ⟨n, hn⟩ : ∃ n, hi - lo = n + 1 := ⟨hi - lo - 1, by omega⟩
  have hstep : best_peak_loop c pre_ts pre_h pkt (List.range' lo (hi - lo)) (XFloat.pinf, lo)
      = best_peak_loop c pre_ts pre_h pkt (List.range' (lo + 1) n)
          (peak_dis c pre_ts pre_h (pkt.getD lo default), lo) := by
    rw [hn, List.range', best_peak_loop]
    by_cases h : xlt (peak_dis c pre_ts pre_h (pkt.getD lo default)) XFloat.pinf = true
    · exact if_pos h
    · have e : peak_dis c pre_ts pre_h (pkt.getD lo default) = XFloat.pinf :=
        not_lt_pinf _ (fun hl => h ((xlt_iff _ _).2 hl))
      rw [if_neg h, e]
  rw [hstep]
  obtain ⟨h2, h3, h4⟩ := best_peak_loop_some c pre_ts pre_h pkt n (lo + 1) lo (by omega)
  refine ⟨?_, ?_, ?_, ?_⟩
  · rcases h2 with h2 | h2 <;> omega
  · rcases h2 with h2 | h2 <;> omega
  · intro i h1 h5
    by_cases hil : i = lo
    · exact h3 i (Or.inl hil)
    · exact h3 i (Or.inr (by omega))
  · intro i h1 h5
    by_cases hil : i = lo
    · exact h4 i (Or.inl hil) h5
    · refine h4 i (Or.inr ⟨by omega, ?_⟩) h5
      rcases h2 with h2 | h2 <;> omega

theorem getD_of_getElem? (pkt : List Peak) (i : Nat) (pk : Peak) (h : pkt[i]? = some pk) :
    pkt.getD i default = pk := by
  rw [List.getD_eq_getElem?_getD, h]; rfl

theorem getElem?_getD_of_lt (pkt : List Peak) (i : Nat) (h : i < pkt.length) :
    pkt[i]? = some (pkt.getD i default) := by
  rw [List.getD_eq_getElem?_getD, List.getElem?_eq_getElem h]; rfl

/-- One iteration of the outer loop of the walk when some remaining peak lies in
the interval: the inner loop delimits the run `lo, ..., hi-1`. -/
theorem scan_interval_found (c : Config) (L : Nat) (pkt : List Peak) (start_idx : Nat)
    (hex : ∃ (i : Nat) (pk : Peak), start_idx ≤ i ∧ pkt[i]? = some pk ∧
      in_interval c L pk = true) :
    ∃ lo hi, start_idx ≤ lo ∧ lo < hi ∧ hi ≤ pkt.length ∧
      scan_interval c L (pkt.drop start_idx) start_idx start_idx true false = (lo, hi, true) ∧
      (∀ (i : Nat) (pk : Peak), start_idx ≤ i → i < lo → pkt[i]? = some pk →
        in_interval c L pk = false) ∧
      (∀ (i : Nat) (pk : Peak), lo ≤ i → i < hi → pkt[i]? = some pk →
        in_interval c L pk = true) ∧
      (∀ pk : Peak, pkt[hi]? = some pk → in_interval c L pk = false) := by
  obtain ⟨i0, pk0, hi0, hpk0, hin0⟩ := hex
  rcases scan_interval_first c L (pkt.drop start_idx) start_idx start_idx false with
    ⟨hall, _⟩ | ⟨a, n, hn, han, hr, h1, h2, h3⟩
  · have hmem : pk0 ∈ pkt.drop start_idx := by
      apply List.mem_iff_getElem?.2
      refine ⟨i0 - start_idx, ?_⟩
      rw [List.getElem?_drop]
      have : start_idx + (i0 - start_idx) = i0 := by omega
      rw [this]; exact hpk0
    have := hall pk0 hmem
    rw [hin0] at this
    exact absurd this (by decide)
  · rw [List.length_drop] at han
    refine ⟨start_idx + a, start_idx + a + n, by omega, by omega, by omega, hr, ?_, ?_, ?_⟩
    · intro i pk hsi hi hpk
      refine h1 (i - start_idx) pk (by omega) ?_
      rw [List.getElem?_drop]
      have : start_idx + (i - start_idx) = i := by omega
      rw [this]; exact hpk
    · intro i pk hsi hi hpk
      refine h2 (i - start_idx) pk (by omega) (by omega) ?_
      rw [List.getElem?_drop]
      have : start_idx + (i - start_idx) = i := by omega
      rw [this]; exact hpk
    · intro pk hpk
      refine h3 pk ?_
      rw [List.getElem?_drop]
      have : start_idx + (a + n) = start_idx + a + n := by omega
      rw [this]; exact hpk

/-- With the preamble at timestamp 0 the distance of lines 652-656 is the
rounded phase term `2*f` (for `f <= 1/2`) or `2*(1-f)`, with `f` the rounded
quotient `(ts mod N)/N`, to which line 656 adds the relative height
difference. -/
theorem peak_dis_eq (c : Config) (hN : 0 < c.d_num_samples) (pre_h : ℚ) (pk : Peak) :
    peak_dis c 0 pre_h pk =
      float_dis
        (if f32 (f32 ((pk.ts % c.d_num_samples : Nat) : ℚ) / f32 (c.d_num_samples : ℚ)) ≤ 1 / 2
          then f32 (f32 (f32 ((pk.ts % c.d_num_samples : Nat) : ℚ) / f32 (c.d_num_samples : ℚ)) * 2)
          else f32 (f32 (1 - f32 (f32 ((pk.ts % c.d_num_samples : Nat) : ℚ)
            / f32 (c.d_num_samples : ℚ))) * 2))
        pk.h pre_h := by
  unfold peak_dis phase_dis
  simp only [Nat.cast_zero, sub_zero, pos_mod_nat pk.ts _ hN]
  by_cases h : f32 (f32 ((pk.ts % c.d_num_samples : Nat) : ℚ) / f32 (c.d_num_samples : ℚ)) ≤ 1 / 2
  · rw [if_pos h, if_neg (not_lt.2 h)]
  · rw [if_neg h, if_pos (not_le.1 h)]

/-- Line 656 for a positive `pre_h` when neither the difference nor the
quotient overflows: the rounded sum of `dis` and the rounded quotient
`|h - pre_h| / pre_h` of the rounded difference. -/
theorem float_dis_finite (dis h pre_h x y : ℚ) (hpre : 0 < pre_h)
    (hx : f32x (h - pre_h) = XFloat.fin x) (hy : f32x (|x| / pre_h) = XFloat.fin y) :
    float_dis dis h pre_h = f32x (dis + y) := by
  unfold float_dis
  rw [hx]
  simp only
  rw [if_neg (ne_of_gt hpre), hy]

/-- C16, amended: best-of-interval selection on the distance as computed. In an
iteration of the walk whose interval holds at least one of the remaining peaks,
the inner loop delimits the first run `lo, ..., hi-1` of consecutive peaks
inside the interval (for a packet sorted by timestamp no later peak is inside);
the peak used for the symbol is in that run, minimises over it the `float`
value `peak_dis` that lines 652-656 compute for
`d(pk) = phase_term(pk) + |pk.h - pre_h| / pre_h` (every operation rounded to
binary32), and is the earliest minimiser of that value. -/
theorem best_of_interval (c : Config) (pre_bin : Nat) (pre_h : ℚ) (pkt : List Peak)
    (fuel start_idx L : Nat) (symbols : List Nat)
    (hN : 0 < c.d_num_samples) (hpre : 0 < pre_h)
    (hex : ∃ (i : Nat) (pk : Peak), start_idx ≤ i ∧ pkt[i]? = some pk ∧
      in_interval c L pk = true) :
    ∃ (lo hi idx : Nat) (best : Peak),
      start_idx ≤ lo ∧ lo ≤ idx ∧ idx < hi ∧ hi ≤ pkt.length ∧ pkt[idx]? = some best ∧
      (∀ (i : Nat) (pk : Peak), start_idx ≤ i → i < lo → pkt[i]? = some pk →
        in_interval c L pk = false) ∧
      (∀ (i : Nat) (pk : Peak), lo ≤ i → i < hi → pkt[i]? = some pk →
        in_interval c L pk = true) ∧
      (∀ pk : Peak, pkt[hi]? = some pk → in_interval c L pk = false) ∧
      (List.Pairwise (fun a b : Peak => a.ts ≤ b.ts) pkt →
        ∀ (i : Nat) (pk : Peak), hi ≤ i → pkt[i]? = some pk → in_interval c L pk = false) ∧
      (∀ (i : Nat) (pk : Peak), lo ≤ i → i < hi → pkt[i]? = some pk →
        peak_dis c 0 pre_h best ≤ peak_dis c 0 pre_h pk) ∧
      (∀ (i : Nat) (pk : Peak), lo ≤ i → i < idx → pkt[i]? = some pk →
        peak_dis c 0 pre_h best < peak_dis c 0 pre_h pk) ∧
      (∀ pk : Peak, peak_dis c 0 pre_h pk =
        float_dis
          (if f32 (f32 ((pk.ts % c.d_num_samples : Nat) : ℚ) / f32 (c.d_num_samples : ℚ))
              ≤ 1 / 2
            then f32 (f32 (f32 ((pk.ts % c.d_num_samples : Nat) : ℚ)
              / f32 (c.d_num_samples : ℚ)) * 2)
            else f32 (f32 (1 - f32 (f32 ((pk.ts % c.d_num_samples : Nat) : ℚ)
              / f32 (c.d_num_samples : ℚ))) * 2))
          pk.h pre_h) ∧
      (∀ (dis h x y : ℚ), f32x (h - pre_h) = XFloat.fin x →
        f32x (|x| / pre_h) = XFloat.fin y → float_dis dis h pre_h = f32x (dis + y)) ∧
      grid_walk_loop c 0 pre_bin pre_h pkt (fuel + 1) start_idx L symbols
        = grid_walk_loop c 0 pre_bin pre_h pkt fuel hi
            (pos_mod ((L : Int) + c.d_num_samples) c.TIMESTAMP_MOD)
            (symbols ++ [symbol_of_peak c 0 pre_bin best]) := by
  obtain ⟨lo, hi, h1, h2, h3, hr, hskip, hrun, hend⟩ :=
    scan_interval_found c L pkt start_idx hex
  obtain ⟨b1, b2, b3, b4⟩ := best_peak_loop_run c 0 pre_h pkt lo hi h2
  have hstart : start_idx < pkt.length := by omega
  refine ⟨lo, hi, _, _, h1, b1, b2, h3, getElem?_getD_of_lt pkt _ (by omega), hskip, hrun,
    hend, ?_, ?_, ?_, peak_dis_eq c hN pre_h,
    fun dis h x y hx hy => float_dis_finite dis h pre_h x y hpre hx hy, ?_⟩
  · intro hsorted i pk hhi hpk
    have hi_lt : i < pkt.length := (List.getElem?_eq_some.1 hpk).1
    have hprev := hrun (hi - 1) _ (by omega) (by omega)
      (getElem?_getD_of_lt pkt (hi - 1) (by omega))
    have hnext := hend _ (getElem?_getD_of_lt pkt hi (by omega))
    have hpw := List.pairwise_iff_getElem.1 hsorted
    have hlt1 : hi - 1 < pkt.length := by omega
    have hlt2 : hi < pkt.length := by omega
    have e1 : pkt.getD (hi - 1) default = pkt[hi - 1] := by
      rw [List.getD_eq_getElem?_getD, List.getElem?_eq_getElem hlt1]; rfl
    have e2 : pkt.getD hi default = pkt[hi] := by
      rw [List.getD_eq_getElem?_getD, List.getElem?_eq_getElem hlt2]; rfl
    have e3 : pk = pkt[i] := by
      have := (List.getElem?_eq_some.1 hpk).2
      exact this.symm
    have s1 := hpw (hi - 1) hi (by omega) (by omega) (by omega)
    rw [← e1, ← e2] at s1
    unfold in_interval at hprev hnext ⊢
    simp only [Bool.and_eq_true, decide_eq_true_eq, Bool.and_eq_false_imp, decide_eq_false_iff_not,
      gt_iff_lt, not_lt] at hprev hnext ⊢
    have hge : L + c.d_num_samples ≤ (pkt.getD hi default).ts := hnext (by omega)
    intro _
    by_cases hih : i = hi
    · subst hih
      rw [e3, ← e2]; exact hge
    · have s2 := hpw hi i (by omega) hi_lt (by omega)
      rw [← e2, ← e3] at s2
      omega
  · intro i pk hl hh hpk
    rw [← getD_of_getElem? pkt i pk hpk]
    exact b3 i hl hh
  · intro i pk hl hh hpk
    rw [← getD_of_getElem? pkt i pk hpk]
    exact b4 i hl hh
  · rw [grid_walk_loop, if_pos hstart]
    simp only [hr, if_true]

theorem best_of_interval_witness :
    0 < cfg7.d_num_samples ∧ (0 : ℚ) < 1 ∧
      ∃ (lo hi idx : Nat) (best : Peak),
        1 ≤ lo ∧ lo ≤ idx ∧ idx < hi ∧ hi ≤ pkt_two_in_interval.length ∧
        pkt_two_in_interval[idx]? = some best ∧
        grid_walk_loop cfg7 0 10 1 pkt_two_in_interval (3 + 1) 1 1152 []
          = grid_walk_loop cfg7 0 10 1 pkt_two_in_interval 3 hi
              (pos_mod ((1152 : Int) + cfg7.d_num_samples) cfg7.TIMESTAMP_MOD)
              ([] ++ [symbol_of_peak cfg7 0 10 best]) := by
  obtain ⟨lo, hi, idx, best, h1, h2, h3, h4, h5, _, _, _, _, _, _, _, _, h6⟩ :=
    best_of_interval cfg7 10 1 pkt_two_in_interval 3 1 1152 [] (by decide) (by norm_num)
      ⟨1, ⟨1200, 20, 1⟩, le_refl _, rfl, by decide⟩
  exact ⟨by decide, by norm_num, lo, hi, idx, best, h1, h2, h3, h4, h5, h6⟩

/-! ## Track bin invariant -/

/-- C13 as stated fails: after a step with a spectral line at bin 5 and a step
with a line at bin 13 the open track 0 holds the observations with stored bins
5 and 13, although `(13 - 5) mod 128 = 8` is neither at most `d_bin_tolerance = 0`
nor at least `128 - 0`. -/
theorem stored_bin_inv_fails : ∃ s, Reachable cfg7 s ∧ ¬ StoredBinInv cfg7 s := by
  have e : after_two_steps.toOption.map
      (fun s => (s.d_bin_track_id_list, s.d_track.getD 0 []))
      = some ([⟨5, 0, false⟩], [⟨0, 5, 1⟩, ⟨16, 13, 1⟩]) := by decide!
  unfold after_two_steps at e
  cases h1 : general_work cfg7 1024 spectrum_one_line spectrum_one_line init with
  | error e1 => rw [h1] at e; simp [Except.toOption] at e
  | ok s1 =>
    rw [h1] at e
    simp only at e
    cases h2 : general_work cfg7 1024 spectrum_line13 spectrum_line13 s1 with
    | error e2 => rw [h2] at e; simp [Except.toOption] at e
    | ok s2 =>
      rw [h2] at e
      simp only [Except.toOption, Option.map_some', Option.some.injEq, Prod.mk.injEq] at e
      obtain ⟨hl, ht⟩ := e
      refine ⟨s2, Reachable.step s1 s2 _ _ _
        (Reachable.step init s1 _ _ _ Reachable.init h1) h2, ?_⟩
      intro hinv
      have := hinv ⟨5, 0, false⟩ (by rw [hl]; simp) ⟨0, 5, 1⟩ (by rw [ht]; rfl)
        ⟨16, 13, 1⟩ (by rw [ht]; simp)
      revert this
      decide

theorem bin_matches_congr (c : Config) (x : Nat) (bt bt' : bin_track_id)
    (h : bt.bin = bt'.bin) : bin_matches c x bt = bin_matches c x bt' := by
  unfold bin_matches
  rw [h]

theorem bin_matches_self (c : Config) (x id : Nat) (u : Bool) :
    bin_matches c x ⟨x, id, u⟩ = true := by
  unfold bin_matches
  have h0 : pos_mod ((c.d_bin_size : Int) + (x : Int) - (x : Int)) c.d_bin_size = 0 := by
    have e : (c.d_bin_size : Int) + (x : Int) - (x : Int) = (c.d_bin_size : Int) + 0 := by ring
    rw [e]
    rcases Nat.eq_zero_or_pos c.d_bin_size with hz | hp
    · rw [hz]; exact pos_mod_zero_left 0
    · rw [pos_mod_self_add 0 _ hp]; exact pos_mod_zero_left _
  simp only [h0]
  simp

theorem obsOK_congr (c : Config) (k : Nat) (bt bt' : bin_track_id) (obs : Peak)
    (h : bt.bin = bt'.bin) (ho : ObsOK c k bt obs) : ObsOK c k bt' obs := by
  obtain ⟨j, hj, hts, hm⟩ := ho
  exact ⟨j, hj, hts, by rw [← bin_matches_congr c _ bt bt' h]; exact hm⟩

theorem firstOK_congr (c : Config) (k : Nat) (bt bt' : bin_track_id) (first : Peak)
    (h : bt.bin = bt'.bin) (ho : FirstOK c k bt first) : FirstOK c k bt' first := by
  obtain ⟨j, hj, hts, hm⟩ := ho
  exact ⟨j, hj, hts, by rw [← h]; exact hm⟩

theorem obsOK_mono (c : Config) (k k' : Nat) (bt : bin_track_id) (obs : Peak)
    (h : k ≤ k') (ho : ObsOK c k bt obs) : ObsOK c k' bt obs := by
  obtain ⟨j, hj, hts, hm⟩ := ho
  exact ⟨j, le_trans hj h, hts, hm⟩

theorem firstOK_mono (c : Config) (k k' : Nat) (bt : bin_track_id) (first : Peak)
    (h : k ≤ k') (ho : FirstOK c k bt first) : FirstOK c k' bt first := by
  obtain ⟨j, hj, hts, hm⟩ := ho
  exact ⟨j, le_trans hj h, hts, hm⟩

theorem track_id_ne_of_nodup (pre post : List bin_track_id) (bt b : bin_track_id)
    (hnd : ((pre ++ bt :: post).map (fun x => x.track_id)).Nodup)
    (hb : b ∈ pre ∨ b ∈ post) : b.track_id ≠ bt.track_id := by
  rw [List.map_append, List.map_cons] at hnd
  have h1 := (List.nodup_middle.1 hnd)
  have h2 := (List.nodup_cons.1 h1).1
  intro he
  apply h2
  rw [← he]
  rcases hb with hb | hb
  · exact List.mem_append_left _ (List.mem_map_of_mem (fun x => x.track_id) hb)
  · exact List.mem_append_right _ (List.mem_map_of_mem (fun x => x.track_id) hb)

/-- An insertion keeps the relative-bin invariant. -/
theorem add_peak_relBinInv (c : Config) (fft_mag : Nat → ℚ) (k : Nat) (s s' : State)
    (i : Nat) (hinv : TrackerInv s) (hrel : RelBinInvAt c k s)
    (h : add_peak c fft_mag s i = .ok s') : RelBinInvAt c k s' := by
  obtain ⟨hts, hbr, hall⟩ := hrel
  have hnd := nodup_of_trackIdInv s hinv.1
  rcases add_peak_cases c fft_mag s s' i h with
    ⟨pre, bt, post, hl, _, hmatch, rfl⟩ | ⟨_, id, pool, hpool, rfl⟩
  · refine ⟨hts, hbr, ?_⟩
    have hbt_mem : bt ∈ s.d_bin_track_id_list := by rw [hl]; simp
    have hid := lt_of_trackerInv_list s hinv bt hbt_mem
    have hnd' : ((pre ++ bt :: post).map (fun x => x.track_id)).Nodup :=
      hl ▸ (List.nodup_append.1 hnd).1
    intro b hb
    have hb' : b ∈ pre ++ { bt with updated := true } :: post := hb
    show (push_peak s.d_track bt.track_id _).getD b.track_id [] ≠ [] ∧
      (∀ obs ∈ (push_peak s.d_track bt.track_id _).getD b.track_id [], ObsOK c k b obs) ∧
      (∀ first : Peak, ((push_peak s.d_track bt.track_id _).getD b.track_id []).head?
        = some first → FirstOK c k b first)
    rcases List.mem_append.1 hb' with hbp | hbp
    · have hne := track_id_ne_of_nodup pre post bt b hnd' (Or.inl hbp)
      rw [getD_push_peak_other _ _ _ _ hne]
      exact hall b (by rw [hl]; exact List.mem_append_left _ hbp)
    · rcases List.mem_cons.1 hbp with hbe | hbp
      · obtain ⟨o1, o2, o3⟩ := hall bt hbt_mem
        have hbin : bt.bin = b.bin := by rw [hbe]
        have hbid : b.track_id = bt.track_id := by rw [hbe]
        rw [hbid, getD_push_peak_same _ _ _ hid]
        refine ⟨by simp, ?_, ?_⟩
        · intro obs hobs
          rcases List.mem_append.1 hobs with hobs | hobs
          · exact obsOK_congr c k bt b obs hbin (o2 obs hobs)
          · rw [List.mem_singleton.1 hobs]
            refine ⟨k, le_refl _, hts, ?_⟩
            rw [← hbr, ← bin_matches_congr c _ bt b hbin]
            exact hmatch
        · intro first hfirst
          rw [List.head?_append_of_ne_nil _ o1] at hfirst
          exact firstOK_congr c k bt b first hbin (o3 first hfirst)
      · have hne := track_id_ne_of_nodup pre post bt b hnd' (Or.inr hbp)
        rw [getD_push_peak_other _ _ _ _ hne]
        exact hall b (by rw [hl]; exact List.mem_append_right _ (List.mem_cons_of_mem _ hbp))
  · refine ⟨hts, hbr, ?_⟩
    have hid_mem : id ∈ s.d_track_id_pool := by rw [hpool]; exact List.mem_cons_self _ _
    have hid := lt_of_trackerInv_pool s hinv id hid_mem
    intro b hb
    have hb' : b ∈ s.d_bin_track_id_list ++ [⟨rel_bin c s.d_bin_ref i, id, true⟩] := hb
    show (push_peak s.d_track id _).getD b.track_id [] ≠ [] ∧
      (∀ obs ∈ (push_peak s.d_track id _).getD b.track_id [], ObsOK c k b obs) ∧
      (∀ first : Peak, ((push_peak s.d_track id _).getD b.track_id []).head?
        = some first → FirstOK c k b first)
    rcases List.mem_append.1 hb' with hbl | hbn
    · have hne : b.track_id ≠ id := by
        intro he
        exact (List.nodup_append.1 hnd).2.2
          (List.mem_map_of_mem (fun x => x.track_id) hbl) (he ▸ hid_mem)
      rw [getD_push_peak_other _ _ _ _ hne]
      exact hall b hbl
    · have hbe := List.mem_singleton.1 hbn
      subst hbe
      show (push_peak s.d_track id _).getD id [] ≠ [] ∧ _
      rw [getD_push_peak_same _ _ _ hid, hinv.2.2 id hid_mem]
      refine ⟨by simp, ?_, ?_⟩
      · intro obs hobs
        have hobs' := List.mem_singleton.1 (by simpa using hobs)
        rw [hobs']
        refine ⟨k, le_refl _, hts, ?_⟩
        rw [← hbr]
        exact bin_matches_self c _ _ _
      · intro first hfirst
        simp only [List.nil_append, List.head?_cons, Option.some.injEq] at hfirst
        rw [← hfirst]
        exact ⟨k, le_refl _, hts, by rw [← hbr]⟩

theorem find_and_add_peak_loop_relBinInv (c : Config) (fft_mag fft_mag_w : Nat → ℚ)
    (k : Nat) :
    ∀ (bins : List Nat) (s s' : State), TrackerInv s → RelBinInvAt c k s →
      find_and_add_peak_loop c fft_mag fft_mag_w bins s = .ok s' → RelBinInvAt c k s' := by
  intro bins
  induction bins with
  | nil =>
    intro s s' _ hrel h
    simp only [find_and_add_peak_loop, Except.ok.injEq] at h
    subst h; exact hrel
  | cons i rest ih =>
    intro s s' hinv hrel h
    rw [find_and_add_peak_loop] at h
    by_cases hp : is_peak c fft_mag_w i = true
    · rw [if_pos hp] at h
      split at h
      · rename_i s1 h1
        exact ih s1 s' (add_peak_trackerInv c fft_mag s s1 i hinv h1)
          (add_peak_relBinInv c fft_mag k s s1 i hinv hrel h1) h
      · exact absurd h (by simp)
    · rw [if_neg hp] at h
      exact ih s s' hinv hrel h

theorem add_symbol_to_packet_refs (c : Config) (s s' : State) (pk : Peak)
    (st : symbol_type) (b : Bool) (h : add_symbol_to_packet c s pk st = .ok (s', b)) :
    s'.d_ts_ref = s.d_ts_ref ∧ s'.d_bin_ref = s.d_bin_ref ∧ s'.published = s.published := by
  unfold add_symbol_to_packet at h
  cases st with
  | SYMBOL_PREAMBLE =>
    simp only at h
    split at h
    · exact absurd h (by simp)
    · simp only [Except.ok.injEq, Prod.mk.injEq] at h
      obtain ⟨h, _⟩ := h
      subst h
      exact ⟨rfl, rfl, rfl⟩
  | SYMBOL_DATA =>
    simp only at h
    split at h
    · simp only [Except.ok.injEq, Prod.mk.injEq] at h
      obtain ⟨h, _⟩ := h
      subst h
      exact ⟨rfl, rfl, rfl⟩
    · simp only [Except.ok.injEq, Prod.mk.injEq] at h
      obtain ⟨h, _⟩ := h
      subst h
      exact ⟨rfl, rfl, rfl⟩
  | SYMBOL_BROKEN_DATA =>
    simp only [Except.ok.injEq, Prod.mk.injEq] at h
    obtain ⟨h, _⟩ := h
    subst h
    exact ⟨rfl, rfl, rfl⟩

/-- Closing tracks leaves the cursors alone and changes only the tracks of
the entries that were not updated. -/
theorem close_tracks_tracks (c : Config) :
    ∀ (l : List bin_track_id) (s s1 : State), close_tracks c l s = .ok s1 →
      s1.d_ts_ref = s.d_ts_ref ∧ s1.d_bin_ref = s.d_bin_ref ∧
        ∀ id, (∀ bt ∈ l, bt.updated = false → bt.track_id ≠ id) →
          s1.d_track.getD id [] = s.d_track.getD id [] := by
  intro l
  induction l with
  | nil =>
    intro s s1 h
    simp only [close_tracks, Except.ok.injEq] at h
    subst h
    exact ⟨rfl, rfl, fun _ _ => rfl⟩
  | cons bt rest ih =>
    intro s s1 h
    rw [close_tracks] at h
    by_cases hu : bt.updated = true
    · rw [if_pos hu] at h
      obtain ⟨a1, a2, a3⟩ := ih s s1 h
      exact ⟨a1, a2, fun id hid => a3 id (fun b hb => hid b (List.mem_cons_of_mem _ hb))⟩
    · rw [if_neg hu] at h
      have hu' : bt.updated = false := by simpa using hu
      simp only at h
      split at h
      · exact absurd h (by simp)
      · rename_i s2 hrouted
        have hfr : s2.d_track = s.d_track ∧ s2.d_ts_ref = s.d_ts_ref
            ∧ s2.d_bin_ref = s.d_bin_ref := by
          split at hrouted
          · split at hrouted
            · rename_i res hres
              simp only [Except.ok.injEq] at hrouted
              subst hrouted
              obtain ⟨_, _, f3, _⟩ := add_symbol_to_packet_frame c s res.1 _ _ res.2 hres
              obtain ⟨g1, g2, _⟩ := add_symbol_to_packet_refs c s res.1 _ _ res.2 hres
              exact ⟨f3, g1, g2⟩
            · exact absurd hrouted (by simp)
          · simp only [Except.ok.injEq] at hrouted
            subst hrouted
            exact ⟨rfl, rfl, rfl⟩
        obtain ⟨a1, a2, a3⟩ := ih _ s1 h
        refine ⟨a1.trans hfr.2.1, a2.trans hfr.2.2, ?_⟩
        intro id hid
        rw [a3 id (fun b hb => hid b (List.mem_cons_of_mem _ hb))]
        have hne : bt.track_id ≠ id := hid bt (List.mem_cons_self _ _) hu'
        show (s2.d_track.set bt.track_id []).getD id [] = _
        rw [List.getD_eq_getElem?_getD, List.getElem?_set_ne hne,
          ← List.getD_eq_getElem?_getD, hfr.1]

theorem check_and_update_track_relBinInv (c : Config) (k : Nat) (s s' : State)
    (hinv : TrackerInv s) (hrel : RelBinInvAt c k s)
    (h : check_and_update_track c s = .ok s') : RelBinInvAt c k s' := by
  obtain ⟨hts, hbr, hall⟩ := hrel
  have hnd := (List.nodup_append.1 (nodup_of_trackIdInv s hinv.1)).1
  unfold check_and_update_track at h
  split at h
  · exact absurd h (by simp)
  · rename_i s1 h1
    obtain ⟨a1, _, _, _⟩ := close_tracks_frame c _ s s1 h1
    obtain ⟨t1, t2, t3⟩ := close_tracks_tracks c _ s s1 h1
    simp only [Except.ok.injEq] at h
    subst h
    refine ⟨t1.trans hts, t2.trans hbr, ?_⟩
    intro b' hb'
    have hb'' : b' ∈ (s1.d_bin_track_id_list.filter (fun bt => bt.updated)).map
        (fun bt => { bt with updated := false }) := hb'
    rw [a1] at hb''
    obtain ⟨b, hb, rfl⟩ := List.mem_map.1 hb''
    obtain ⟨hbl, hbu⟩ := List.mem_filter.1 hb
    have hsame : s1.d_track.getD b.track_id [] = s.d_track.getD b.track_id [] := by
      apply t3
      intro bt hbt hbtu he
      have := List.inj_on_of_nodup_map hnd hbt hbl he
      rw [this] at hbtu
      rw [hbtu] at hbu
      exact absurd hbu (by decide)
    show s1.d_track.getD b.track_id [] ≠ [] ∧
      (∀ obs ∈ s1.d_track.getD b.track_id [], ObsOK c k { b with updated := false } obs) ∧
      (∀ first : Peak, (s1.d_track.getD b.track_id []).head? = some first →
        FirstOK c k { b with updated := false } first)
    rw [hsame]
    obtain ⟨o1, o2, o3⟩ := hall b hbl
    exact ⟨o1, fun obs ho => obsOK_congr c k b _ obs rfl (o2 obs ho),
      fun first hf => firstOK_congr c k b _ first rfl (o3 first hf)⟩

theorem finish_packets_refs (c : Config) :
    ∀ (l : List packet_state) (s : State),
      (finish_packets c l s).d_ts_ref = s.d_ts_ref ∧
        (finish_packets c l s).d_bin_ref = s.d_bin_ref := by
  intro l
  induction l with
  | nil => intro s; exact ⟨rfl, rfl⟩
  | cons ps rest ih =>
    intro s
    rw [finish_packets]
    split
    · obtain ⟨a1, a2⟩ := ih (finish_packet c s ps)
      exact ⟨a1, a2⟩
    · exact ih s

theorem find_and_add_peak_loop_refs (c : Config) (fft_mag fft_mag_w : Nat → ℚ) :
    ∀ (bins : List Nat) (s s' : State),
      find_and_add_peak_loop c fft_mag fft_mag_w bins s = .ok s' →
      s'.d_ts_ref = s.d_ts_ref ∧ s'.d_bin_ref = s.d_bin_ref := by
  intro bins
  induction bins with
  | nil =>
    intro s s' h
    simp only [find_and_add_peak_loop, Except.ok.injEq] at h
    subst h; exact ⟨rfl, rfl⟩
  | cons i rest ih =>
    intro s s' h
    rw [find_and_add_peak_loop] at h
    by_cases hp : is_peak c fft_mag_w i = true
    · rw [if_pos hp] at h
      split at h
      · rename_i s1 h1
        obtain ⟨a1, a2⟩ := ih s1 s' h
        have hs1 : s1.d_ts_ref = s.d_ts_ref ∧ s1.d_bin_ref = s.d_bin_ref := by
          rcases add_peak_cases c fft_mag s s1 i h1 with
            ⟨_, _, _, _, _, _, rfl⟩ | ⟨_, _, _, _, rfl⟩
          · exact ⟨rfl, rfl⟩
          · exact ⟨rfl, rfl⟩
        exact ⟨a1.trans hs1.1, a2.trans hs1.2⟩
      · exact absurd h (by simp)
    · rw [if_neg hp] at h
      exact ih s s' h

/-- A processed step takes the relative-bin invariant from step count `k` to
`k + 1`; a call without enough input keeps it. -/
theorem general_work_relBinInv (c : Config) (ninput : Nat)
    (fft_res_add fft_res_add_w : Nat → ℚ) (k : Nat) (s s' : State)
    (hinv : TrackerInv s) (hrel : RelBinInvAt c k s)
    (h : general_work c ninput fft_res_add fft_res_add_w s = .ok s') :
    RelBinInvAt c k s' ∨ RelBinInvAt c (k + 1) s' := by
  unfold general_work at h
  split at h
  · simp only [Except.ok.injEq] at h
    subst h; exact Or.inl hrel
  · right
    split at h
    · exact absurd h (by simp)
    · rename_i s1 h1
      split at h
      · exact absurd h (by simp)
      · rename_i s2 h2
        simp only [Except.ok.injEq] at h
        subst h
        have i1 := find_and_add_peak_loop_trackerInv c _ _ _ s s1 hinv h1
        have r1 := find_and_add_peak_loop_relBinInv c _ _ k _ s s1 hinv hrel h1
        obtain ⟨hts, hbr, hall⟩ := check_and_update_track_relBinInv c k s1 s2 i1 r1 h2
        obtain ⟨f1, _, f3, _, _⟩ := finish_packets_frame c s2.d_packet_state_list s2
        obtain ⟨g1, g2⟩ := finish_packets_refs c s2.d_packet_state_list s2
        refine ⟨?_, ?_, ?_⟩
        · show pos_mod (((finish_packets c s2.d_packet_state_list s2).d_ts_ref : Int)
            + (c.d_num_samples / d_overlaps : Nat)) c.TIMESTAMP_MOD = ts_ref_at c (k + 1)
          rw [g1, hts]; rfl
        · show pos_mod (((finish_packets c s2.d_packet_state_list s2).d_bin_ref : Int)
            + (c.d_bin_size / d_overlaps : Nat)) c.d_bin_size = bin_ref_at c (k + 1)
          rw [g2, hbr]; rfl
        · intro b hb
          have hb' : b ∈ (finish_packets c s2.d_packet_state_list s2).d_bin_track_id_list := hb
          rw [f1] at hb'
          show (finish_packets c s2.d_packet_state_list s2).d_track.getD b.track_id [] ≠ [] ∧
            (∀ obs ∈ (finish_packets c s2.d_packet_state_list s2).d_track.getD b.track_id [],
              ObsOK c (k + 1) b obs) ∧
            (∀ first : Peak,
              ((finish_packets c s2.d_packet_state_list s2).d_track.getD b.track_id []).head?
                = some first → FirstOK c (k + 1) b first)
          rw [f3]
          obtain ⟨o1, o2, o3⟩ := hall b hb'
          exact ⟨o1, fun obs ho => obsOK_mono c k (k + 1) b obs (by omega) (o2 obs ho),
            fun first hf => firstOK_mono c k (k + 1) b first (by omega) (o3 first hf)⟩

/-- C13, amended: after construction and after every step that returns, with
`k` the number of steps processed so far, every open track is non-empty, every
stored observation was recorded in a step `j <= k` (its timestamp is the
timestamp cursor of step `j`) and its bin taken relative to the bin reference
of step `j` lies within `d_bin_tolerance` of the bin of the track's entry
(circular distance at most `d_bin_tolerance` or at least
`d_bin_size - d_bin_tolerance`), and the relative bin of the first observation
is the bin of the entry. -/
theorem rel_bin_invariant (c : Config) (s : State) (h : Reachable c s) :
    ∃ k, s.d_ts_ref = ts_ref_at c k ∧ s.d_bin_ref = bin_ref_at c k ∧
      ∀ bt ∈ s.d_bin_track_id_list,
        s.d_track.getD bt.track_id [] ≠ [] ∧
        (∀ obs ∈ s.d_track.getD bt.track_id [],
          ∃ j, j ≤ k ∧ obs.ts = ts_ref_at c j ∧
            bin_matches c (rel_bin c (bin_ref_at c j) obs.bin) bt = true) ∧
        (∀ first : Peak, (s.d_track.getD bt.track_id []).head? = some first →
          ∃ j, j ≤ k ∧ first.ts = ts_ref_at c j ∧
            rel_bin c (bin_ref_at c j) first.bin = bt.bin) := by
  induction h with
  | init =>
    refine ⟨0, rfl, rfl, ?_⟩
    intro bt hbt
    simp [init] at hbt
  | step s s' ninput m mw hs hstep ih =>
    obtain ⟨k, ih⟩ := ih
    rcases general_work_relBinInv c ninput m mw k s s' (reachable_trackerInv c s hs) ih hstep
      with h | h
    · exact ⟨k, h⟩
    · exact ⟨k + 1, h⟩

theorem rel_bin_invariant_witness :
    ∃ s, after_two_steps = .ok s ∧
      ∃ k, s.d_ts_ref = ts_ref_at cfg7 k ∧ s.d_bin_ref = bin_ref_at cfg7 k ∧
        ∀ bt ∈ s.d_bin_track_id_list, s.d_track.getD bt.track_id [] ≠ [] := by
  have e : after_two_steps.toBool = true := by decide!
  have hdef : after_two_steps =
      match general_work cfg7 1024 spectrum_one_line spectrum_one_line init with
      | .ok s1 => general_work cfg7 1024 spectrum_line13 spectrum_line13 s1
      | .error e => .error e := rfl
  cases h1 : general_work cfg7 1024 spectrum_one_line spectrum_one_line init with
  | error e1 => rw [hdef, h1] at e; simp [Except.toBool] at e
  | ok s1 =>
    rw [h1] at hdef
    simp only at hdef
    cases h2 : general_work cfg7 1024 spectrum_line13 spectrum_line13 s1 with
    | error e2 => rw [hdef, h2] at e; simp [Except.toBool] at e
    | ok s2 =>
      obtain ⟨k, a1, a2, a3⟩ := rel_bin_invariant cfg7 s2
        (Reachable.step s1 s2 _ _ _ (Reachable.step init s1 _ _ _ Reachable.init h1) h2)
      exact ⟨s2, by rw [hdef, h2], k, a1, a2, fun bt hbt => (a3 bt hbt).1⟩

/-! ## Packet assembler invariant -/

/-- The three ways `add_symbol_to_packet` returns. -/
theorem add_symbol_to_packet_cases (c : Config) (s s' : State) (pk : Peak)
    (st : symbol_type) (b : Bool) (h : add_symbol_to_packet c s pk st = .ok (s', b)) :
    (st = symbol_type.SYMBOL_PREAMBLE ∧ b = true ∧
      ∃ (id : Nat) (pool : List Nat), s.d_packet_id_pool = id :: pool ∧
        s' = { s with
          d_packet_id_pool := pool
          d_packet := push_peak s.d_packet id pk
          d_packet_state_list := s.d_packet_state_list ++ [⟨id, (d_ttl : Int)⟩] }) ∨
    (st = symbol_type.SYMBOL_DATA ∧ b = true ∧
      ∃ (k : Nat) (ps : packet_state), s.d_packet_state_list[k]? = some ps ∧
        s' = { s with
          d_packet_state_list := s.d_packet_state_list.set k ⟨ps.packet_id, (d_ttl : Int)⟩
          d_packet := push_peak s.d_packet ps.packet_id pk }) ∨
    (st ≠ symbol_type.SYMBOL_PREAMBLE ∧ b = false ∧ s' = s) := by
  unfold add_symbol_to_packet at h
  cases st with
  | SYMBOL_PREAMBLE =>
    simp only at h
    split at h
    · exact absurd h (by simp)
    · rename_i id pool hpool
      simp only [Except.ok.injEq, Prod.mk.injEq] at h
      left
      exact ⟨rfl, h.2.symm, id, pool, hpool, h.1.symm⟩
  | SYMBOL_DATA =>
    simp only at h
    rcases best_packet_loop_spec c s.d_packet pk s.d_packet_state_list 0 ⟨0, 0, none, false⟩
      with ⟨hr, _⟩ | ⟨k, ps, hk, _, hr, _⟩
    · rw [hr] at h
      simp only [Bool.false_eq_true, if_false, Except.ok.injEq, Prod.mk.injEq] at h
      right; right
      exact ⟨by simp, h.2.symm, h.1.symm⟩
    · rw [hr] at h
      simp only [if_true, Except.ok.injEq, Prod.mk.injEq, Nat.zero_add] at h
      right; left
      refine ⟨rfl, h.2.symm, k, ps, hk, ?_⟩
      rw [← h.1]
      have hgetD : s.d_packet_state_list.getD k ⟨0, 0⟩ = ps := by
        rw [List.getD_eq_getElem?_getD, hk]; rfl
      simp only [set_ttl, hgetD]
  | SYMBOL_BROKEN_DATA =>
    simp only [Except.ok.injEq, Prod.mk.injEq] at h
    right; right
    exact ⟨by simp, h.2.symm, h.1.symm⟩

theorem nodup_of_packetIdInv (s : State) (h : PacketIdInv s) :
    (s.d_packet_state_list.map (fun ps => ps.packet_id) ++ s.d_packet_id_pool).Nodup :=
  (List.Perm.nodup_iff h).2 (List.nodup_range _)

theorem lt_of_packetIdInv_list (s : State) (h : PacketIdInv s)
    (hlen : s.d_packet.length = packet_id_size) (ps : packet_state)
    (hps : ps ∈ s.d_packet_state_list) : ps.packet_id < s.d_packet.length := by
  have := (List.Perm.mem_iff h).1
    (List.mem_append_left _ (List.mem_map_of_mem (fun ps => ps.packet_id) hps))
  rw [hlen]
  exact List.mem_range.1 this

theorem lt_of_packetIdInv_pool (s : State) (h : PacketIdInv s)
    (hlen : s.d_packet.length = packet_id_size) (id : Nat)
    (hid : id ∈ s.d_packet_id_pool) : id < s.d_packet.length := by
  have := (List.Perm.mem_iff h).1 (List.mem_append_right _ hid)
  rw [hlen]
  exact List.mem_range.1 this

theorem map_packet_id_set (l : List packet_state) (k : Nat) (ps : packet_state) (t : Int)
    (hk : l[k]? = some ps) :
    (l.set k ⟨ps.packet_id, t⟩).map (fun ps => ps.packet_id)
      = l.map (fun ps => ps.packet_id) := by
  apply List.ext_getElem?
  intro i
  rw [List.getElem?_map, List.getElem?_map]
  by_cases hik : k = i
  · subst hik
    have hlt : k < l.length := (List.getElem?_eq_some.1 hk).1
    rw [List.getElem?_set_self hlt, hk]
    rfl
  · rw [List.getElem?_set_ne hik]

theorem mem_set_cases (l : List packet_state) (k : Nat) (x q : packet_state)
    (h : q ∈ l.set k x) : q = x ∨ q ∈ l := by
  obtain ⟨i, hi⟩ := List.mem_iff_getElem?.1 h
  by_cases hik : k = i
  · subst hik
    have hlt : k < l.length := by
      have := (List.getElem?_eq_some.1 hi).1
      rw [List.length_set] at this
      exact this
    rw [List.getElem?_set_self hlt] at hi
    left
    simp only [Option.some.injEq] at hi
    exact hi.symm
  · rw [List.getElem?_set_ne hik] at hi
    right
    exact List.mem_iff_getElem?.2 ⟨i, hi⟩

/-- Routing a symbol that comes from the classifier keeps the assembler
invariant. -/
theorem add_symbol_to_packet_inv (c : Config) (s s' : State) (pk : Peak)
    (st : symbol_type) (b : Bool) (hinv : AssemblerInv c s) (hfrom : FromClassifier c pk st)
    (h : add_symbol_to_packet c s pk st = .ok (s', b)) : AssemblerInv c s' := by
  obtain ⟨hperm, hlen, hclean, hcont, httl⟩ := hinv
  have hnd := nodup_of_packetIdInv s hperm
  rcases add_symbol_to_packet_cases c s s' pk st b h with
    ⟨hst, _, id, pool, hpool, rfl⟩ | ⟨hst, _, k, ps, hk, rfl⟩ | ⟨_, _, rfl⟩
  · -- a packet is created
    have hid_mem : id ∈ s.d_packet_id_pool := by rw [hpool]; exact List.mem_cons_self _ _
    have hid := lt_of_packetIdInv_pool s hperm hlen id hid_mem
    have hpnd : (id :: pool).Nodup := hpool ▸ (List.nodup_append.1 hnd).2.1
    refine ⟨?_, ?_, ?_, ?_, ?_⟩
    · unfold PacketIdInv at hperm ⊢
      rw [hpool] at hperm
      simp only [List.map_append, List.map_cons, List.map_nil, List.append_assoc,
        List.singleton_append]
      exact hperm
    · show (push_peak s.d_packet id pk).length = _
      rw [length_push_peak]; exact hlen
    · intro x hx
      have hx' : x ∈ pool := hx
      have hne : x ≠ id := fun he => (List.nodup_cons.1 hpnd).1 (he ▸ hx')
      show (push_peak s.d_packet id pk).getD x [] = []
      rw [getD_push_peak_other _ _ _ _ hne]
      exact hclean x (by rw [hpool]; exact List.mem_cons_of_mem _ hx')
    · intro q hq
      have hq' : q ∈ s.d_packet_state_list ++ [⟨id, (d_ttl : Int)⟩] := hq
      show ∃ (pre : Peak) (data : List Peak),
        (push_peak s.d_packet id pk).getD q.packet_id [] = pre :: data ∧ _
      rcases List.mem_append.1 hq' with hql | hqn
      · have hne : q.packet_id ≠ id := by
          intro he
          exact (List.nodup_append.1 hnd).2.2
            (List.mem_map_of_mem (fun ps => ps.packet_id) hql) (he ▸ hid_mem)
        rw [getD_push_peak_other _ _ _ _ hne]
        exact hcont q hql
      · rw [List.mem_singleton.1 hqn]
        show ∃ (pre : Peak) (data : List Peak),
          (push_peak s.d_packet id pk).getD id [] = pre :: data ∧ _
        rw [getD_push_peak_same _ _ _ hid, hclean id hid_mem]
        obtain ⟨track, htrack⟩ := hfrom
        exact ⟨pk, [], rfl, ⟨track, hst ▸ htrack⟩, by intro q hq; simp at hq⟩
    · intro q hq
      have hq' : q ∈ s.d_packet_state_list ++ [⟨id, (d_ttl : Int)⟩] := hq
      rcases List.mem_append.1 hq' with hql | hqn
      · exact httl q hql
      · rw [List.mem_singleton.1 hqn]
        exact ⟨by simp [d_ttl, d_overlaps], le_refl _⟩
  · -- a data peak is appended
    have hps_mem : ps ∈ s.d_packet_state_list := mem_of_getElem?_eq_some _ k ps hk
    have hid := lt_of_packetIdInv_list s hperm hlen ps hps_mem
    have hmap := map_packet_id_set s.d_packet_state_list k ps (d_ttl : Int) hk
    refine ⟨?_, ?_, ?_, ?_, ?_⟩
    · unfold PacketIdInv at hperm ⊢
      show List.Perm ((s.d_packet_state_list.set k ⟨ps.packet_id, (d_ttl : Int)⟩).map _
        ++ s.d_packet_id_pool) _
      rw [hmap]; exact hperm
    · show (push_peak s.d_packet ps.packet_id pk).length = _
      rw [length_push_peak]; exact hlen
    · intro x hx
      have hx' : x ∈ s.d_packet_id_pool := hx
      have hne : x ≠ ps.packet_id := by
        intro he
        exact (List.nodup_append.1 hnd).2.2
          (List.mem_map_of_mem (fun ps => ps.packet_id) hps_mem) (he ▸ hx')
      show (push_peak s.d_packet ps.packet_id pk).getD x [] = []
      rw [getD_push_peak_other _ _ _ _ hne]
      exact hclean x hx'
    · intro q hq
      have hq' : q ∈ s.d_packet_state_list.set k ⟨ps.packet_id, (d_ttl : Int)⟩ := hq
      show ∃ (pre : Peak) (data : List Peak),
        (push_peak s.d_packet ps.packet_id pk).getD q.packet_id [] = pre :: data ∧ _
      have hqid : q.packet_id = ps.packet_id ∨
          (q.packet_id ≠ ps.packet_id ∧ q ∈ s.d_packet_state_list) := by
        rcases mem_set_cases _ _ _ _ hq' with hqe | hql
        · left; rw [hqe]
        · by_cases he : q.packet_id = ps.packet_id
          · left; exact he
          · right; exact ⟨he, hql⟩
      rcases hqid with he | ⟨hne, hql⟩
      · rw [he, getD_push_peak_same _ _ _ hid]
        obtain ⟨pre, data, e1, e2, e3⟩ := hcont ps hps_mem
        obtain ⟨track, htrack⟩ := hfrom
        refine ⟨pre, data ++ [pk], by rw [e1]; rfl, e2, ?_⟩
        intro x hx
        rcases List.mem_append.1 hx with hx | hx
        · exact e3 x hx
        · rw [List.mem_singleton.1 hx]
          exact ⟨track, hst ▸ htrack⟩
      · rw [getD_push_peak_other _ _ _ _ hne]
        exact hcont q hql
    · intro q hq
      have hq' : q ∈ s.d_packet_state_list.set k ⟨ps.packet_id, (d_ttl : Int)⟩ := hq
      rcases mem_set_cases _ _ _ _ hq' with hqe | hql
      · rw [hqe]
        exact ⟨by simp [d_ttl, d_overlaps], le_refl _⟩
      · exact httl q hql
  · exact ⟨hperm, hlen, hclean, hcont, httl⟩

theorem assemblerInv_of_eq (c : Config) (s s' : State)
    (h1 : s'.d_packet_state_list = s.d_packet_state_list)
    (h2 : s'.d_packet_id_pool = s.d_packet_id_pool) (h3 : s'.d_packet = s.d_packet)
    (hinv : AssemblerInv c s) : AssemblerInv c s' := by
  unfold AssemblerInv PacketIdInv PacketContentInv at hinv ⊢
  rw [h1, h2, h3]
  exact hinv

theorem add_peak_packets (c : Config) (fft_mag : Nat → ℚ) (s s' : State) (i : Nat)
    (h : add_peak c fft_mag s i = .ok s') :
    s'.d_packet_state_list = s.d_packet_state_list ∧
      s'.d_packet_id_pool = s.d_packet_id_pool ∧ s'.d_packet = s.d_packet ∧
      s'.published = s.published := by
  rcases add_peak_cases c fft_mag s s' i h with
    ⟨_, _, _, _, _, _, rfl⟩ | ⟨_, _, _, _, rfl⟩
  · exact ⟨rfl, rfl, rfl, rfl⟩
  · exact ⟨rfl, rfl, rfl, rfl⟩

theorem find_and_add_peak_loop_packets (c : Config) (fft_mag fft_mag_w : Nat → ℚ) :
    ∀ (bins : List Nat) (s s' : State),
      find_and_add_peak_loop c fft_mag fft_mag_w bins s = .ok s' →
      s'.d_packet_state_list = s.d_packet_state_list ∧
        s'.d_packet_id_pool = s.d_packet_id_pool ∧ s'.d_packet = s.d_packet ∧
        s'.published = s.published := by
  intro bins
  induction bins with
  | nil =>
    intro s s' h
    simp only [find_and_add_peak_loop, Except.ok.injEq] at h
    subst h; exact ⟨rfl, rfl, rfl, rfl⟩
  | cons i rest ih =>
    intro s s' h
    rw [find_and_add_peak_loop] at h
    by_cases hp : is_peak c fft_mag_w i = true
    · rw [if_pos hp] at h
      split at h
      · rename_i s1 h1
        obtain ⟨a1, a2, a3, a4⟩ := add_peak_packets c fft_mag s s1 i h1
        obtain ⟨b1, b2, b3, b4⟩ := ih s1 s' h
        exact ⟨b1.trans a1, b2.trans a2, b3.trans a3, b4.trans a4⟩
      · exact absurd h (by simp)
    · rw [if_neg hp] at h
      exact ih s s' h

/-- Closing tracks keeps the assembler invariant: every symbol routed comes
from the classifier. -/
theorem close_tracks_inv (c : Config) :
    ∀ (l : List bin_track_id) (s s1 : State), AssemblerInv c s →
      close_tracks c l s = .ok s1 → AssemblerInv c s1 := by
  intro l
  induction l with
  | nil =>
    intro s s1 hinv h
    simp only [close_tracks, Except.ok.injEq] at h
    subst h; exact hinv
  | cons bt rest ih =>
    intro s s1 hinv h
    rw [close_tracks] at h
    by_cases hu : bt.updated = true
    · rw [if_pos hu] at h
      exact ih s s1 hinv h
    · rw [if_neg hu] at h
      simp only at h
      split at h
      · exact absurd h (by simp)
      · rename_i s2 hrouted
        have hs2 : AssemblerInv c s2 := by
          split at hrouted
          · split at hrouted
            · rename_i res hres
              simp only [Except.ok.injEq] at hrouted
              subst hrouted
              exact add_symbol_to_packet_inv c s res.1 _ _ res.2 hinv
                ⟨s.d_track.getD bt.track_id [], rfl⟩ hres
            · exact absurd hrouted (by simp)
          · simp only [Except.ok.injEq] at hrouted
            subst hrouted
            exact hinv
        refine ih _ s1 ?_ h
        exact assemblerInv_of_eq c s2 _ rfl rfl rfl hs2

theorem getD_set_nil (v : List (List Peak)) (i j : Nat) :
    (v.set i []).getD j [] = if i = j then [] else v.getD j [] := by
  by_cases hij : i = j
  · subst hij
    rw [if_pos rfl, List.getD_eq_getElem?_getD]
    by_cases hlt : i < v.length
    · rw [List.getElem?_set_self hlt]; rfl
    · rw [List.getElem?_eq_none (by rw [List.length_set]; omega)]; rfl
  · rw [if_neg hij, List.getD_eq_getElem?_getD, List.getElem?_set_ne hij,
      ← List.getD_eq_getElem?_getD]

/-- The finalisation loop empties the packets of the expired states and leaves
every other packet as it was. -/
theorem finish_packets_packets (c : Config) :
    ∀ (l : List packet_state) (s : State),
      (finish_packets c l s).d_packet.length = s.d_packet.length ∧
      ∀ id, (finish_packets c l s).d_packet.getD id [] =
        if id ∈ (l.filter (fun ps => decide (ps.ttl ≤ 0))).map (fun ps => ps.packet_id)
        then [] else s.d_packet.getD id [] := by
  intro l
  induction l with
  | nil => intro s; exact ⟨rfl, by intro id; simp [finish_packets]⟩
  | cons ps rest ih =>
    intro s
    rw [finish_packets]
    by_cases ht : ps.ttl ≤ 0
    · rw [if_pos ht]
      obtain ⟨a1, a2⟩ := ih (finish_packet c s ps)
      refine ⟨?_, ?_⟩
      · rw [a1]
        show (s.d_packet.set ps.packet_id []).length = _
        exact List.length_set _ _ _
      · intro id
        rw [a2 id]
        have hset : (finish_packet c s ps).d_packet.getD id []
            = if ps.packet_id = id then [] else s.d_packet.getD id [] :=
          getD_set_nil s.d_packet ps.packet_id id
        have hM : (List.filter (fun ps => decide (ps.ttl ≤ 0)) (ps :: rest)).map
            (fun ps => ps.packet_id)
            = ps.packet_id :: (List.filter (fun ps => decide (ps.ttl ≤ 0)) rest).map
                (fun ps => ps.packet_id) := by
          rw [List.filter_cons_of_pos (by simpa using ht), List.map_cons]
        rw [hset, hM]
        by_cases h1 : id ∈ (List.filter (fun ps => decide (ps.ttl ≤ 0)) rest).map
            (fun ps => ps.packet_id)
        · rw [if_pos h1, if_pos (List.mem_cons_of_mem _ h1)]
        · rw [if_neg h1]
          by_cases h2 : ps.packet_id = id
          · rw [if_pos h2, if_pos (by rw [h2]; exact List.mem_cons_self _ _)]
          · rw [if_neg h2, if_neg]
            intro hmem
            rcases List.mem_cons.1 hmem with hmem | hmem
            · exact h2 hmem.symm
            · exact h1 hmem
    · rw [if_neg ht]
      obtain ⟨a1, a2⟩ := ih s
      refine ⟨a1, ?_⟩
      intro id
      rw [a2 id, List.filter_cons_of_neg (by simpa using ht)]

theorem ttl_pos_of_not_expired (ps : packet_state)
    (h : (!decide (ps.ttl ≤ 0)) = true) : 0 < ps.ttl := by
  simpa using h

/-- Finalising the expired packets and ageing the others keeps the assembler
invariant, and leaves every `ttl` below `d_ttl`. -/
theorem finish_and_age_inv (c : Config) (s : State) (hinv : AssemblerInv c s) :
    AssemblerInv c (age_and_advance c (finish_packets c s.d_packet_state_list s)) ∧
      ∀ ps ∈ (age_and_advance c (finish_packets c s.d_packet_state_list s)).d_packet_state_list,
        ps.ttl < (d_ttl : Int) := by
  obtain ⟨hperm, hlen, hclean, hcont, httl⟩ := hinv
  have hnd := nodup_of_packetIdInv s hperm
  obtain ⟨_, _, _, f4, f5⟩ := finish_packets_frame c s.d_packet_state_list s
  obtain ⟨p1, p2⟩ := finish_packets_packets c s.d_packet_state_list s
  have hlist : (age_and_advance c (finish_packets c s.d_packet_state_list s)).d_packet_state_list
      = (s.d_packet_state_list.filter (fun ps => !decide (ps.ttl ≤ 0))).map
          (fun ps => { ps with ttl := ps.ttl - 1 }) := by
    show ((finish_packets c s.d_packet_state_list s).d_packet_state_list.filter _).map _ = _
    rw [f4]
  have hpool : (age_and_advance c (finish_packets c s.d_packet_state_list s)).d_packet_id_pool
      = s.d_packet_id_pool
        ++ (s.d_packet_state_list.filter (fun ps => decide (ps.ttl ≤ 0))).map
            (fun ps => ps.packet_id) := f5
  have hpkt : (age_and_advance c (finish_packets c s.d_packet_state_list s)).d_packet
      = (finish_packets c s.d_packet_state_list s).d_packet := rfl
  have hsurv : ∀ q ∈ (age_and_advance c
      (finish_packets c s.d_packet_state_list s)).d_packet_state_list,
      ∃ p ∈ s.d_packet_state_list, 0 < p.ttl ∧ q = { p with ttl := p.ttl - 1 } ∧
        (finish_packets c s.d_packet_state_list s).d_packet.getD q.packet_id []
          = s.d_packet.getD p.packet_id [] := by
    intro q hq
    rw [hlist] at hq
    obtain ⟨p, hp, rfl⟩ := List.mem_map.1 hq
    obtain ⟨hpl, hpt⟩ := List.mem_filter.1 hp
    have hpos := ttl_pos_of_not_expired p hpt
    refine ⟨p, hpl, hpos, rfl, ?_⟩
    rw [p2]
    rw [if_neg]
    intro hmem
    obtain ⟨e, he, heid⟩ := List.mem_map.1 hmem
    obtain ⟨hel, het⟩ := List.mem_filter.1 he
    have := List.inj_on_of_nodup_map (List.nodup_append.1 hnd).1 hel hpl heid
    rw [this] at het
    have het' : p.ttl ≤ 0 := by simpa using het
    omega
  refine ⟨⟨?_, ?_, ?_, ?_, ?_⟩, ?_⟩
  · unfold PacketIdInv at hperm ⊢
    rw [hlist, hpool, List.map_map]
    have hmap : (List.map ((fun ps : packet_state => ps.packet_id) ∘
          fun ps : packet_state => { ps with ttl := ps.ttl - 1 })
        (s.d_packet_state_list.filter (fun ps => !decide (ps.ttl ≤ 0))))
        = (s.d_packet_state_list.filter (fun ps => !decide (ps.ttl ≤ 0))).map
            (fun ps => ps.packet_id) := by
      apply List.map_congr_left
      intro a _
      rfl
    rw [hmap]
    have hsplit : List.Perm
        ((s.d_packet_state_list.filter (fun ps => decide (ps.ttl ≤ 0))).map
            (fun ps => ps.packet_id)
          ++ (s.d_packet_state_list.filter (fun ps => !decide (ps.ttl ≤ 0))).map
              (fun ps => ps.packet_id))
        (s.d_packet_state_list.map (fun ps => ps.packet_id)) := by
      rw [← List.map_append]
      exact List.Perm.map _ (List.filter_append_perm _ _)
    refine List.Perm.trans ?_ hperm
    refine List.Perm.trans List.perm_append_comm ?_
    rw [List.append_assoc]
    refine List.Perm.trans List.perm_append_comm ?_
    exact List.Perm.append_right _ hsplit
  · rw [hpkt, p1]; exact hlen
  · intro x hx
    rw [hpool] at hx
    rw [hpkt, p2]
    by_cases hmem : x ∈ (s.d_packet_state_list.filter (fun ps => decide (ps.ttl ≤ 0))).map
        (fun ps => ps.packet_id)
    · rw [if_pos hmem]
    · rw [if_neg hmem]
      rcases List.mem_append.1 hx with hx | hx
      · exact hclean x hx
      · exact absurd hx hmem
  · intro q hq
    obtain ⟨p, hpl, _, _, hsame⟩ := hsurv q hq
    rw [hpkt, hsame]
    exact hcont p hpl
  · intro q hq
    obtain ⟨p, hpl, hpos, hqe, _⟩ := hsurv q hq
    have := httl p hpl
    rw [hqe]
    constructor
    · show 0 ≤ p.ttl - 1
      omega
    · show p.ttl - 1 ≤ (d_ttl : Int)
      omega
  · intro q hq
    obtain ⟨p, hpl, hpos, hqe, _⟩ := hsurv q hq
    have := httl p hpl
    rw [hqe]
    show p.ttl - 1 < (d_ttl : Int)
    omega

theorem check_and_update_track_inv (c : Config) (s s' : State) (hinv : AssemblerInv c s)
    (h : check_and_update_track c s = .ok s') : AssemblerInv c s' := by
  unfold check_and_update_track at h
  split at h
  · exact absurd h (by simp)
  · rename_i s1 h1
    simp only [Except.ok.injEq] at h
    subst h
    exact assemblerInv_of_eq c s1 _ rfl rfl rfl (close_tracks_inv c _ s s1 hinv h1)

theorem general_work_inv (c : Config) (ninput : Nat) (fft_res_add fft_res_add_w : Nat → ℚ)
    (s s' : State)
    (hinv : AssemblerInv c s ∧ ∀ ps ∈ s.d_packet_state_list, ps.ttl < (d_ttl : Int))
    (h : general_work c ninput fft_res_add fft_res_add_w s = .ok s') :
    AssemblerInv c s' ∧ ∀ ps ∈ s'.d_packet_state_list, ps.ttl < (d_ttl : Int) := by
  unfold general_work at h
  split at h
  · simp only [Except.ok.injEq] at h
    subst h; exact hinv
  · split at h
    · exact absurd h (by simp)
    · rename_i s1 h1
      split at h
      · exact absurd h (by simp)
      · rename_i s2 h2
        simp only [Except.ok.injEq] at h
        subst h
        obtain ⟨a1, a2, a3, _⟩ := find_and_add_peak_loop_packets c _ _ _ s s1 h1
        have i1 := assemblerInv_of_eq c s s1 a1 a2 a3 hinv.1
        have i2 := check_and_update_track_inv c s1 s2 i1 h2
        exact finish_and_age_inv c s2 i2

/-- Every reachable state satisfies the assembler invariant, with every `ttl`
below `d_ttl`. -/
theorem reachable_assemblerInv (c : Config) (s : State) (h : Reachable c s) :
    AssemblerInv c s ∧ ∀ ps ∈ s.d_packet_state_list, ps.ttl < (d_ttl : Int) := by
  induction h with
  | init =>
    refine ⟨⟨?_, ?_, ?_, ?_, ?_⟩, ?_⟩
    · unfold PacketIdInv
      simp [init]
    · simp [init]
    · intro id hid
      have hid' : id < packet_id_size := by
        have : id ∈ List.range packet_id_size := hid
        exact List.mem_range.1 this
      show (List.replicate packet_id_size ([] : List Peak)).getD id [] = []
      rw [List.getD_eq_getElem?_getD]
      simp [List.getElem?_replicate, hid']
    · intro ps hps
      simp [init] at hps
    · intro ps hps
      simp [init] at hps
    · intro ps hps
      simp [init] at hps
  | step s s' ninput m mw _ hstep ih =>
    exact general_work_inv c ninput m mw s s' ih hstep

/-- Bounds of `ttl` while no step meets the empty pool: after construction and
after every step that returns in the embedding, every open packet has
`0 <= ttl <= d_ttl` with `d_ttl = 6*d_overlaps = 96`, and its packet is one peak
the classifier returned for a PREAMBLE track followed by peaks returned by the
classifier. A packet is created holding the PREAMBLE peak alone, and routing a
symbol never changes the first peak of an open packet. -/
theorem ttl_invariant (c : Config) (s : State) (h : Reachable c s) :
    d_ttl = 6 * d_overlaps ∧ d_ttl = 96 ∧
    (∀ ps ∈ s.d_packet_state_list, 0 ≤ ps.ttl ∧ ps.ttl ≤ (d_ttl : Int) ∧
      ∃ (pre : Peak) (data : List Peak),
        s.d_packet.getD ps.packet_id [] = pre :: data ∧ IsPreamblePeak c pre ∧
          ∀ q ∈ data, IsDataPeak c q) ∧
    (∀ (s0 s1 : State) (pk : Peak) (st : symbol_type) (b : Bool),
      AssemblerInv c s0 → add_symbol_to_packet c s0 pk st = .ok (s1, b) →
      (∀ ps ∈ s0.d_packet_state_list,
        (s1.d_packet.getD ps.packet_id []).head? = (s0.d_packet.getD ps.packet_id []).head?) ∧
      (∀ ps1 ∈ s1.d_packet_state_list,
        ps1.packet_id ∉ s0.d_packet_state_list.map (fun ps => ps.packet_id) →
        st = symbol_type.SYMBOL_PREAMBLE ∧ ps1.ttl = (d_ttl : Int) ∧
          s1.d_packet.getD ps1.packet_id [] = [pk])) := by
  obtain ⟨⟨_, _, _, hcont, httl⟩, _⟩ := reachable_assemblerInv c s h
  refine ⟨rfl, rfl, fun ps hps => ⟨(httl ps hps).1, (httl ps hps).2, hcont ps hps⟩, ?_⟩
  intro s0 s1 pk st b hinv hadd
  obtain ⟨hperm, hlen, hclean, hcont0, _⟩ := hinv
  have hnd := nodup_of_packetIdInv s0 hperm
  rcases add_symbol_to_packet_cases c s0 s1 pk st b hadd with
    ⟨hst, _, id, pool, hpool, rfl⟩ | ⟨hst, _, k, ps, hk, rfl⟩ | ⟨_, _, rfl⟩
  · have hid_mem : id ∈ s0.d_packet_id_pool := by rw [hpool]; exact List.mem_cons_self _ _
    have hid := lt_of_packetIdInv_pool s0 hperm hlen id hid_mem
    refine ⟨?_, ?_⟩
    · intro q hq
      have hne : q.packet_id ≠ id := by
        intro he
        exact (List.nodup_append.1 hnd).2.2
          (List.mem_map_of_mem (fun ps => ps.packet_id) hq) (he ▸ hid_mem)
      show ((push_peak s0.d_packet id pk).getD q.packet_id []).head? = _
      rw [getD_push_peak_other _ _ _ _ hne]
    · intro q hq hnew
      have hq' : q ∈ s0.d_packet_state_list ++ [⟨id, (d_ttl : Int)⟩] := hq
      rcases List.mem_append.1 hq' with hql | hqn
      · exact absurd (List.mem_map_of_mem (fun ps => ps.packet_id) hql) hnew
      · rw [List.mem_singleton.1 hqn]
        refine ⟨hst, rfl, ?_⟩
        show (push_peak s0.d_packet id pk).getD id [] = [pk]
        rw [getD_push_peak_same _ _ _ hid, hclean id hid_mem]
        rfl
  · have hps_mem : ps ∈ s0.d_packet_state_list := mem_of_getElem?_eq_some _ k ps hk
    have hid := lt_of_packetIdInv_list s0 hperm hlen ps hps_mem
    refine ⟨?_, ?_⟩
    · intro q hq
      show ((push_peak s0.d_packet ps.packet_id pk).getD q.packet_id []).head? = _
      by_cases he : q.packet_id = ps.packet_id
      · rw [he, getD_push_peak_same _ _ _ hid]
        obtain ⟨pre, data, e1, _, _⟩ := hcont0 ps hps_mem
        rw [e1]; rfl
      · rw [getD_push_peak_other _ _ _ _ he]
    · intro q hq hnew
      exfalso
      apply hnew
      have hq' : q ∈ s0.d_packet_state_list.set k ⟨ps.packet_id, (d_ttl : Int)⟩ := hq
      rcases mem_set_cases _ _ _ _ hq' with hqe | hql
      · rw [hqe]
        exact List.mem_map_of_mem (fun ps => ps.packet_id) hps_mem
      · exact List.mem_map_of_mem (fun ps => ps.packet_id) hql
  · refine ⟨fun _ _ => rfl, ?_⟩
    intro q hq hnew
    exact absurd (List.mem_map_of_mem (fun ps => ps.packet_id) hq) hnew

/-! ## Packet lifetime -/

theorem mem_set_of_ne (l : List packet_state) (k : Nat) (x y z : packet_state)
    (hx : x ∈ l) (hk : l[k]? = some y) (hne : x ≠ y) : x ∈ l.set k z := by
  obtain ⟨i, hi⟩ := List.mem_iff_getElem?.1 hx
  have hik : k ≠ i := by
    intro he
    rw [he, hi] at hk
    simp only [Option.some.injEq] at hk
    exact hne hk
  exact List.mem_iff_getElem?.2 ⟨i, by rw [List.getElem?_set_ne hik]; exact hi⟩

theorem mem_set_self (l : List packet_state) (k : Nat) (y z : packet_state)
    (hk : l[k]? = some y) : z ∈ l.set k z := by
  have hlt : k < l.length := (List.getElem?_eq_some.1 hk).1
  exact List.mem_iff_getElem?.2 ⟨k, List.getElem?_set_self hlt⟩

/-- What routing one symbol does to an open packet and to a free id. -/
theorem add_symbol_to_packet_evol (c : Config) (s s' : State) (pk : Peak)
    (st : symbol_type) (b : Bool) (hinv : AssemblerInv c s)
    (h : add_symbol_to_packet c s pk st = .ok (s', b)) :
    (∀ (pid : Nat) (t : Int), (⟨pid, t⟩ : packet_state) ∈ s.d_packet_state_list →
      (((⟨pid, t⟩ : packet_state) ∈ s'.d_packet_state_list ∧
          s'.d_packet.getD pid [] = s.d_packet.getD pid []) ∨
        ((⟨pid, (d_ttl : Int)⟩ : packet_state) ∈ s'.d_packet_state_list ∧
          s'.d_packet.getD pid [] = s.d_packet.getD pid [] ++ [pk]))) ∧
    (∀ pid ∈ s.d_packet_id_pool,
      pid ∈ s'.d_packet_id_pool ∨
        (⟨pid, (d_ttl : Int)⟩ : packet_state) ∈ s'.d_packet_state_list) := by
  obtain ⟨hperm, hlen, _, _, _⟩ := hinv
  have hnd := nodup_of_packetIdInv s hperm
  rcases add_symbol_to_packet_cases c s s' pk st b h with
    ⟨_, _, id, pool, hpool, rfl⟩ | ⟨_, _, k, ps, hk, rfl⟩ | ⟨_, _, rfl⟩
  · have hid_mem : id ∈ s.d_packet_id_pool := by rw [hpool]; exact List.mem_cons_self _ _
    refine ⟨?_, ?_⟩
    · intro pid t hmem
      left
      refine ⟨List.mem_append_left _ hmem, ?_⟩
      have hne : pid ≠ id := by
        intro he
        exact (List.nodup_append.1 hnd).2.2
          (List.mem_map_of_mem (fun ps => ps.packet_id) hmem) (he ▸ hid_mem)
      exact getD_push_peak_other _ _ _ _ hne
    · intro pid hpid
      rw [hpool] at hpid
      rcases List.mem_cons.1 hpid with hpid | hpid
      · right
        rw [hpid]
        exact List.mem_append_right _ (List.mem_singleton.2 rfl)
      · left; exact hpid
  · have hps_mem : ps ∈ s.d_packet_state_list := mem_of_getElem?_eq_some _ k ps hk
    have hid := lt_of_packetIdInv_list s hperm hlen ps hps_mem
    refine ⟨?_, fun pid hpid => Or.inl hpid⟩
    intro pid t hmem
    by_cases he : pid = ps.packet_id
    · right
      have hps : ps = ⟨pid, t⟩ :=
        List.inj_on_of_nodup_map (List.nodup_append.1 hnd).1 hps_mem hmem he.symm
      refine ⟨?_, ?_⟩
      · rw [he]
        exact mem_set_self _ k ps _ hk
      · rw [he]
        exact getD_push_peak_same _ _ _ hid
    · left
      refine ⟨mem_set_of_ne _ k _ ps _ hmem hk ?_, getD_push_peak_other _ _ _ _ he⟩
      intro hx
      exact he (by rw [← hx])
  · exact ⟨fun pid t hmem => Or.inl ⟨hmem, rfl⟩, fun pid hpid => Or.inl hpid⟩

/-- What closing tracks does to an open packet and to a free id: the packet
state is left alone, or its `ttl` is `d_ttl` and its packet grew. -/
theorem close_tracks_evol (c : Config) :
    ∀ (l : List bin_track_id) (s s1 : State), AssemblerInv c s →
      close_tracks c l s = .ok s1 →
      (∀ (pid : Nat) (t : Int), (⟨pid, t⟩ : packet_state) ∈ s.d_packet_state_list →
        (((⟨pid, t⟩ : packet_state) ∈ s1.d_packet_state_list ∧
            s1.d_packet.getD pid [] = s.d_packet.getD pid []) ∨
          ((⟨pid, (d_ttl : Int)⟩ : packet_state) ∈ s1.d_packet_state_list ∧
            ∃ added : List Peak, added ≠ [] ∧
              s1.d_packet.getD pid [] = s.d_packet.getD pid [] ++ added))) ∧
      (∀ pid ∈ s.d_packet_id_pool,
        pid ∈ s1.d_packet_id_pool ∨
          (⟨pid, (d_ttl : Int)⟩ : packet_state) ∈ s1.d_packet_state_list) := by
  intro l
  induction l with
  | nil =>
    intro s s1 _ h
    simp only [close_tracks, Except.ok.injEq] at h
    subst h
    exact ⟨fun pid t hmem => Or.inl ⟨hmem, rfl⟩, fun pid hpid => Or.inl hpid⟩
  | cons bt rest ih =>
    intro s s1 hinv h
    rw [close_tracks] at h
    by_cases hu : bt.updated = true
    · rw [if_pos hu] at h
      exact ih s s1 hinv h
    · rw [if_neg hu] at h
      simp only at h
      split at h
      · exact absurd h (by simp)
      · rename_i s2 hrouted
        have hs2 : AssemblerInv c s2 ∧
            (∀ (pid : Nat) (t : Int), (⟨pid, t⟩ : packet_state) ∈ s.d_packet_state_list →
              (((⟨pid, t⟩ : packet_state) ∈ s2.d_packet_state_list ∧
                  s2.d_packet.getD pid [] = s.d_packet.getD pid []) ∨
                ((⟨pid, (d_ttl : Int)⟩ : packet_state) ∈ s2.d_packet_state_list ∧
                  ∃ added : List Peak, added ≠ [] ∧
                    s2.d_packet.getD pid [] = s.d_packet.getD pid [] ++ added))) ∧
            (∀ pid ∈ s.d_packet_id_pool,
              pid ∈ s2.d_packet_id_pool ∨
                (⟨pid, (d_ttl : Int)⟩ : packet_state) ∈ s2.d_packet_state_list) := by
          split at hrouted
          · split at hrouted
            · rename_i res hres
              simp only [Except.ok.injEq] at hrouted
              subst hrouted
              obtain ⟨e1, e2⟩ := add_symbol_to_packet_evol c s res.1 _ _ res.2 hinv hres
              refine ⟨add_symbol_to_packet_inv c s res.1 _ _ res.2 hinv
                ⟨s.d_track.getD bt.track_id [], rfl⟩ hres, ?_, e2⟩
              intro pid t hmem
              rcases e1 pid t hmem with h1 | ⟨h1, h2⟩
              · exact Or.inl h1
              · exact Or.inr ⟨h1, _, by simp, h2⟩
            · exact absurd hrouted (by simp)
          · simp only [Except.ok.injEq] at hrouted
            subst hrouted
            exact ⟨hinv, fun pid t hmem => Or.inl ⟨hmem, rfl⟩, fun pid hpid => Or.inl hpid⟩
        obtain ⟨i2, e1, e2⟩ := hs2
        have hnext := ih { s2 with
            d_track_id_pool := s2.d_track_id_pool ++ [bt.track_id]
            d_track := s2.d_track.set bt.track_id [] } s1
          (assemblerInv_of_eq c s2 _ rfl rfl rfl i2) h
        obtain ⟨n1, n2⟩ := hnext
        refine ⟨?_, ?_⟩
        · intro pid t hmem
          rcases e1 pid t hmem with ⟨h1, h2⟩ | ⟨h1, added, ha, h2⟩
          · rcases n1 pid t h1 with ⟨g1, g2⟩ | ⟨g1, added', ha', g2⟩
            · exact Or.inl ⟨g1, g2.trans h2⟩
            · exact Or.inr ⟨g1, added', ha', by rw [g2]; exact congrArg (· ++ added') h2⟩
          · right
            rcases n1 pid (d_ttl : Int) h1 with ⟨g1, g2⟩ | ⟨g1, added', _, g2⟩
            · exact ⟨g1, added, ha, g2.trans h2⟩
            · refine ⟨g1, added ++ added', by simp [ha], ?_⟩
              rw [g2]
              show s2.d_packet.getD pid [] ++ added' = _
              rw [h2, List.append_assoc]
        · intro pid hpid
          rcases e2 pid hpid with h1 | h1
          · exact n2 pid h1
          · right
            rcases n1 pid (d_ttl : Int) h1 with ⟨g1, _⟩ | ⟨g1, _⟩
            · exact g1
            · exact g1

/-- What the end of a step does to a packet state `{pid, t}`: with `t <= 0` the
packet is finalised (emptied, id released, state erased), with `t > 0` it is
aged by one and its packet is kept. Free ids stay free. -/
theorem finish_and_age_entry (c : Config) (s : State) (hinv : AssemblerInv c s)
    (pid : Nat) (t : Int) (hmem : (⟨pid, t⟩ : packet_state) ∈ s.d_packet_state_list) :
    (t ≤ 0 →
      (age_and_advance c (finish_packets c s.d_packet_state_list s)).d_packet.getD pid [] = [] ∧
      pid ∈ (age_and_advance c (finish_packets c s.d_packet_state_list s)).d_packet_id_pool ∧
      ∀ q ∈ (age_and_advance c (finish_packets c s.d_packet_state_list s)).d_packet_state_list,
        q.packet_id ≠ pid) ∧
    (0 < t →
      (⟨pid, t - 1⟩ : packet_state)
        ∈ (age_and_advance c (finish_packets c s.d_packet_state_list s)).d_packet_state_list ∧
      (age_and_advance c (finish_packets c s.d_packet_state_list s)).d_packet.getD pid []
        = s.d_packet.getD pid []) := by
  obtain ⟨hperm, _, _, _, _⟩ := hinv
  have hnd := nodup_of_packetIdInv s hperm
  obtain ⟨_, _, _, f4, f5⟩ := finish_packets_frame c s.d_packet_state_list s
  obtain ⟨_, p2⟩ := finish_packets_packets c s.d_packet_state_list s
  have hlist : (age_and_advance c (finish_packets c s.d_packet_state_list s)).d_packet_state_list
      = (s.d_packet_state_list.filter (fun ps => !decide (ps.ttl ≤ 0))).map
          (fun ps => { ps with ttl := ps.ttl - 1 }) := by
    show ((finish_packets c s.d_packet_state_list s).d_packet_state_list.filter _).map _ = _
    rw [f4]
  have hpool : (age_and_advance c (finish_packets c s.d_packet_state_list s)).d_packet_id_pool
      = s.d_packet_id_pool
        ++ (s.d_packet_state_list.filter (fun ps => decide (ps.ttl ≤ 0))).map
            (fun ps => ps.packet_id) := f5
  have hpkt : (age_and_advance c (finish_packets c s.d_packet_state_list s)).d_packet
      = (finish_packets c s.d_packet_state_list s).d_packet := rfl
  have hexp : pid ∈ (s.d_packet_state_list.filter (fun ps => decide (ps.ttl ≤ 0))).map
      (fun ps => ps.packet_id) ↔ t ≤ 0 := by
    constructor
    · intro hm
      obtain ⟨e, he, heid⟩ := List.mem_map.1 hm
      obtain ⟨hel, het⟩ := List.mem_filter.1 he
      have := List.inj_on_of_nodup_map (List.nodup_append.1 hnd).1 hel hmem heid
      rw [this] at het
      simpa using het
    · intro ht
      exact List.mem_map.2 ⟨⟨pid, t⟩, List.mem_filter.2 ⟨hmem, by simpa using ht⟩, rfl⟩
  refine ⟨?_, ?_⟩
  · intro ht
    refine ⟨?_, ?_, ?_⟩
    · rw [hpkt, p2, if_pos (hexp.2 ht)]
    · rw [hpool]
      exact List.mem_append_right _ (hexp.2 ht)
    · intro q hq hqid
      rw [hlist] at hq
      obtain ⟨p, hp, rfl⟩ := List.mem_map.1 hq
      obtain ⟨hpl, hpt⟩ := List.mem_filter.1 hp
      have hpos := ttl_pos_of_not_expired p hpt
      have hpe : p = ⟨pid, t⟩ :=
        List.inj_on_of_nodup_map (List.nodup_append.1 hnd).1 hpl hmem hqid
      rw [hpe] at hpos
      have : 0 < t := hpos
      omega
  · intro ht
    refine ⟨?_, ?_⟩
    · rw [hlist]
      exact List.mem_map.2 ⟨⟨pid, t⟩, List.mem_filter.2 ⟨hmem, by simpa using ht⟩, rfl⟩
    · rw [hpkt, p2, if_neg]
      intro hm
      have := hexp.1 hm
      omega

/-- What one processed step does to an open packet `{pid, t}`: it accepted at
least one peak and is left with `ttl = d_ttl - 1`; or it accepted none and
`t > 0`, and is left with `ttl = t - 1` and the same packet; or it accepted
none and `t <= 0`, and is finalised. A free id stays free or becomes a packet
with `ttl = d_ttl - 1`. -/
theorem general_work_evol (c : Config) (ninput : Nat) (fft_res_add fft_res_add_w : Nat → ℚ)
    (s s' : State) (hinv : AssemblerInv c s) (hn : 4 * c.d_num_samples ≤ ninput)
    (h : general_work c ninput fft_res_add fft_res_add_w s = .ok s') :
    (∀ (pid : Nat) (t : Int), (⟨pid, t⟩ : packet_state) ∈ s.d_packet_state_list →
      (((⟨pid, (d_ttl : Int) - 1⟩ : packet_state) ∈ s'.d_packet_state_list ∧
          ∃ added : List Peak, added ≠ [] ∧
            s'.d_packet.getD pid [] = s.d_packet.getD pid [] ++ added) ∨
        (0 < t ∧ (⟨pid, t - 1⟩ : packet_state) ∈ s'.d_packet_state_list ∧
          s'.d_packet.getD pid [] = s.d_packet.getD pid []) ∨
        (t ≤ 0 ∧ s'.d_packet.getD pid [] = [] ∧ pid ∈ s'.d_packet_id_pool ∧
          ∀ q ∈ s'.d_packet_state_list, q.packet_id ≠ pid))) ∧
    (∀ pid ∈ s.d_packet_id_pool,
      pid ∈ s'.d_packet_id_pool ∨
        (⟨pid, (d_ttl : Int) - 1⟩ : packet_state) ∈ s'.d_packet_state_list) := by
  unfold general_work at h
  rw [if_neg (by omega)] at h
  split at h
  · exact absurd h (by simp)
  · rename_i s1 h1
    split at h
    · exact absurd h (by simp)
    · rename_i s2 h2
      simp only [Except.ok.injEq] at h
      subst h
      obtain ⟨a1, a2, a3, _⟩ := find_and_add_peak_loop_packets c _ _ _ s s1 h1
      have i1 := assemblerInv_of_eq c s s1 a1 a2 a3 hinv
      have i2 := check_and_update_track_inv c s1 s2 i1 h2
      have hev : (∀ (pid : Nat) (t : Int),
            (⟨pid, t⟩ : packet_state) ∈ s1.d_packet_state_list →
            (((⟨pid, t⟩ : packet_state) ∈ s2.d_packet_state_list ∧
                s2.d_packet.getD pid [] = s1.d_packet.getD pid []) ∨
              ((⟨pid, (d_ttl : Int)⟩ : packet_state) ∈ s2.d_packet_state_list ∧
                ∃ added : List Peak, added ≠ [] ∧
                  s2.d_packet.getD pid [] = s1.d_packet.getD pid [] ++ added))) ∧
          (∀ pid ∈ s1.d_packet_id_pool,
            pid ∈ s2.d_packet_id_pool ∨
              (⟨pid, (d_ttl : Int)⟩ : packet_state) ∈ s2.d_packet_state_list) := by
        unfold check_and_update_track at h2
        split at h2
        · exact absurd h2 (by simp)
        · rename_i s1' h1'
          simp only [Except.ok.injEq] at h2
          subst h2
          exact close_tracks_evol c _ s1 s1' i1 h1'
      obtain ⟨e1, e2⟩ := hev
      rw [a1, a3] at e1
      rw [a2] at e2
      have hpos96 : (0 : Int) < (d_ttl : Int) := by simp [d_ttl, d_overlaps]
      refine ⟨?_, ?_⟩
      · intro pid t hmem
        rcases e1 pid t hmem with ⟨g1, g2⟩ | ⟨g1, added, ha, g2⟩
        · obtain ⟨f1, f2⟩ := finish_and_age_entry c s2 i2 pid t g1
          by_cases ht : t ≤ 0
          · right; right
            obtain ⟨k1, k2, k3⟩ := f1 ht
            exact ⟨ht, k1, k2, k3⟩
          · right; left
            obtain ⟨k1, k2⟩ := f2 (by omega)
            exact ⟨by omega, k1, k2.trans g2⟩
        · left
          obtain ⟨_, f2⟩ := finish_and_age_entry c s2 i2 pid (d_ttl : Int) g1
          obtain ⟨k1, k2⟩ := f2 hpos96
          exact ⟨k1, added, ha, k2.trans g2⟩
      · intro pid hpid
        rcases e2 pid hpid with g | g
        · left
          obtain ⟨_, _, _, _, f5⟩ := finish_packets_frame c s2.d_packet_state_list s2
          show pid ∈ (finish_packets c s2.d_packet_state_list s2).d_packet_id_pool
          rw [f5]
          exact List.mem_append_left _ g
        · right
          obtain ⟨_, f2⟩ := finish_and_age_entry c s2 i2 pid (d_ttl : Int) g
          exact (f2 hpos96).1

theorem general_work_assemblerInv (c : Config) (ninput : Nat)
    (fft_res_add fft_res_add_w : Nat → ℚ) (s s' : State) (hinv : AssemblerInv c s)
    (h : general_work c ninput fft_res_add fft_res_add_w s = .ok s') : AssemblerInv c s' := by
  unfold general_work at h
  split at h
  · simp only [Except.ok.injEq] at h
    subst h; exact hinv
  · split at h
    · exact absurd h (by simp)
    · rename_i s1 h1
      split at h
      · exact absurd h (by simp)
      · rename_i s2 h2
        simp only [Except.ok.injEq] at h
        subst h
        obtain ⟨a1, a2, a3, _⟩ := find_and_add_peak_loop_packets c _ _ _ s s1 h1
        have i1 := assemblerInv_of_eq c s s1 a1 a2 a3 hinv
        have i2 := check_and_update_track_inv c s1 s2 i1 h2
        exact (finish_and_age_inv c s2 i2).1

/-- C12: bounded packet lifetime. Let `σ 0, σ 1, ...` be the states of a run of
processed steps, step `k` leading from `σ k` to `σ (k+1)`. If packet `pid` is
created or accepts a peak during step 0 and accepts no peak during the steps
`1, ..., d_ttl`, then it is open with `ttl = d_ttl - k` after step `k - 1`
for `k = 1, ..., d_ttl` (that is after each of the steps `0, ..., d_ttl - 1`),
and step `d_ttl` finalises it: its packet is emptied, its id is back in the
pool and no packet state holds it. -/
theorem bounded_lifetime (c : Config) (σ : Nat → State) (ninput : Nat → Nat)
    (fft_res_add fft_res_add_w : Nat → Nat → ℚ) (pid : Nat)
    (h0 : AssemblerInv c (σ 0))
    (hstep : ∀ k, k ≤ d_ttl →
      general_work c (ninput k) (fft_res_add k) (fft_res_add_w k) (σ k) = .ok (σ (k + 1)))
    (hn : ∀ k, k ≤ d_ttl → 4 * c.d_num_samples ≤ ninput k)
    (htouch :
      (pid ∈ (σ 0).d_packet_id_pool ∧
        ∃ t : Int, (⟨pid, t⟩ : packet_state) ∈ (σ 1).d_packet_state_list) ∨
      ((∃ t : Int, (⟨pid, t⟩ : packet_state) ∈ (σ 0).d_packet_state_list) ∧
        ∃ added : List Peak, added ≠ [] ∧
          (σ 1).d_packet.getD pid [] = (σ 0).d_packet.getD pid [] ++ added))
    (hquiet : ∀ k, 1 ≤ k → k ≤ d_ttl →
      ¬ ∃ added : List Peak, added ≠ [] ∧
        (σ (k + 1)).d_packet.getD pid [] = (σ k).d_packet.getD pid [] ++ added) :
    (∀ k, 1 ≤ k → k ≤ d_ttl →
      (⟨pid, (d_ttl : Int) - k⟩ : packet_state) ∈ (σ k).d_packet_state_list) ∧
    pid ∈ (σ (d_ttl + 1)).d_packet_id_pool ∧
    (∀ q ∈ (σ (d_ttl + 1)).d_packet_state_list, q.packet_id ≠ pid) ∧
    (σ (d_ttl + 1)).d_packet.getD pid [] = [] := by
  have hA : ∀ k, k ≤ d_ttl + 1 → AssemblerInv c (σ k) := by
    intro k
    induction k with
    | zero => intro _; exact h0
    | succ k ih =>
      intro hk
      exact general_work_assemblerInv c _ _ _ (σ k) (σ (k + 1)) (ih (by omega))
        (hstep k (by omega))
  have hopen : ∀ k, 1 ≤ k → k ≤ d_ttl →
      (⟨pid, (d_ttl : Int) - k⟩ : packet_state) ∈ (σ k).d_packet_state_list := by
    intro k
    induction k with
    | zero => intro h1 _; omega
    | succ k ih =>
      intro _ hk
      obtain ⟨ev1, ev2⟩ := general_work_evol c _ _ _ (σ k) (σ (k + 1)) (hA k (by omega))
        (hn k (by omega)) (hstep k (by omega))
      have hcast : (d_ttl : Int) - ((k + 1 : Nat) : Int) = (d_ttl : Int) - k - 1 := by
        push_cast; ring
      rw [hcast]
      rcases Nat.eq_zero_or_pos k with hk0 | hkpos
      · subst hk0
        simp only [Nat.cast_zero, sub_zero]
        rcases htouch with ⟨hp, t, ht⟩ | ⟨⟨t, ht⟩, added, ha, hadd⟩
        · rcases ev2 pid hp with hp1 | hp1
          · exfalso
            have hnd := nodup_of_packetIdInv (σ 1) (hA 1 (by omega)).1
            exact (List.nodup_append.1 hnd).2.2
              (List.mem_map_of_mem (fun ps => ps.packet_id) ht) hp1
          · exact hp1
        · rcases ev1 pid t ht with ⟨g1, _⟩ | ⟨_, _, g3⟩ | ⟨_, g2, _⟩
          · exact g1
          · exfalso
            rw [hadd] at g3
            exact ha (List.append_right_eq_self.1 g3)
          · exfalso
            rw [hadd] at g2
            exact ha (List.append_eq_nil.1 g2).2
      · have hprev := ih (by omega) (by omega)
        rcases ev1 pid _ hprev with ⟨_, added, ha, g2⟩ | ⟨_, g2, _⟩ | ⟨g1, _⟩
        · exact absurd ⟨added, ha, g2⟩ (hquiet k (by omega) (by omega))
        · exact g2
        · exfalso
          have : (k : Int) < (d_ttl : Int) := by exact_mod_cast (by omega : k < d_ttl)
          omega
  refine ⟨hopen, ?_⟩
  have hlast := hopen d_ttl (by simp [d_ttl, d_overlaps]) (le_refl _)
  obtain ⟨ev1, _⟩ := general_work_evol c _ _ _ (σ d_ttl) (σ (d_ttl + 1)) (hA d_ttl (by omega))
    (hn d_ttl (le_refl _)) (hstep d_ttl (le_refl _))
  rcases ev1 pid _ hlast with ⟨_, added, ha, g2⟩ | ⟨g1, _⟩ | ⟨_, g2, g3, g4⟩
  · exact absurd ⟨added, ha, g2⟩ (hquiet d_ttl (by simp [d_ttl, d_overlaps]) (le_refl _))
  · exfalso; omega
  · exact ⟨g3, g4, g2⟩

theorem reachable_run_steps (c : Config) :
    ∀ (inputs : List (Nat × (Nat → ℚ) × (Nat → ℚ))) (s s' : State),
      Reachable c s → run_steps c inputs s = .ok s' → Reachable c s' := by
  intro inputs
  induction inputs with
  | nil =>
    intro s s' hs h
    simp only [run_steps, Except.ok.injEq] at h
    subst h; exact hs
  | cons inp rest ih =>
    intro s s' hs h
    rw [run_steps] at h
    split at h
    · rename_i s1 h1
      exact ih s1 s' (Reachable.step s s1 _ _ _ hs h1) h
    · exact absurd h (by simp)

theorem ok_of_toOption {α : Type} (x : Except Fault α) (a : α)
    (h : x.toOption = some a) : x = .ok a := by
  cases x with
  | error e => simp [Except.toOption] at h
  | ok b =>
    simp only [Except.toOption, Option.some.injEq] at h
    rw [h]

theorem ttl_invariant_witness :
    ∃ s, run_steps cfg7 preamble_inputs init = .ok s ∧
      s.d_packet_state_list = [⟨0, 95⟩] ∧
      ∀ ps ∈ s.d_packet_state_list, 0 ≤ ps.ttl ∧ ps.ttl ≤ (d_ttl : Int) ∧
        ∃ (pre : Peak) (data : List Peak),
          s.d_packet.getD ps.packet_id [] = pre :: data ∧ IsPreamblePeak cfg7 pre ∧
            ∀ q ∈ data, IsDataPeak cfg7 q := by
  have e : (run_steps cfg7 preamble_inputs init).toOption.map
      (fun s => s.d_packet_state_list) = some [⟨0, 95⟩] := by decide!
  cases h : run_steps cfg7 preamble_inputs init with
  | error e1 => rw [h] at e; simp [Except.toOption] at e
  | ok s =>
    rw [h] at e
    simp only [Except.toOption, Option.map_some', Option.some.injEq] at e
    exact ⟨s, rfl, e,
      (ttl_invariant cfg7 s (reachable_run_steps cfg7 _ init s Reachable.init h)).2.2.1⟩

theorem bounded_lifetime_witness :
    AssemblerInv cfg7 (lifetime_run 0) ∧
      (∀ k, 1 ≤ k → k ≤ d_ttl →
        (⟨0, (d_ttl : Int) - k⟩ : packet_state) ∈ (lifetime_run k).d_packet_state_list) ∧
      0 ∈ (lifetime_run (d_ttl + 1)).d_packet_id_pool ∧
      (∀ q ∈ (lifetime_run (d_ttl + 1)).d_packet_state_list, q.packet_id ≠ 0) ∧
      (lifetime_run (d_ttl + 1)).d_packet.getD 0 [] = [] := by
  have h0 : AssemblerInv cfg7 (lifetime_run 0) :=
    assemblerInv_of_eq cfg7 init (lifetime_run 0) rfl rfl rfl
      (reachable_assemblerInv cfg7 init Reachable.init).1
  have hsteps : ∀ k, k ≤ 96 →
      (general_work cfg7 1024 spectrum_quiet spectrum_quiet (lifetime_run k)).toOption
        = some (lifetime_run (k + 1)) := by decide!
  have hlen : ∀ k, k ≤ 96 →
      ((lifetime_run (k + 1)).d_packet.getD 0 []).length
        ≤ ((lifetime_run k).d_packet.getD 0 []).length ∨ k = 0 := by decide!
  refine ⟨h0, bounded_lifetime cfg7 lifetime_run (fun _ => 1024) (fun _ => spectrum_quiet)
    (fun _ => spectrum_quiet) 0 h0 ?_ ?_ ?_ ?_⟩
  · intro k hk
    exact ok_of_toOption _ _ (hsteps k hk)
  · intro k _
    show 4 * cfg7.d_num_samples ≤ 1024
    decide
  · left
    exact ⟨by decide, 95, by decide⟩
  · intro k h1 hk ⟨added, ha, he⟩
    have hl := congrArg List.length he
    rw [List.length_append] at hl
    rcases hlen k hk with h | h
    · have : added.length = 0 := by omega
      exact ha (List.length_eq_zero.1 this)
    · omega

/-! ## Sort order -/

theorem in_interval_ts (c : Config) (L : Nat) (p q : Peak) (h : p.ts = q.ts) :
    in_interval c L p = in_interval c L q := by
  unfold in_interval; rw [h]

theorem symbol_of_peak_congr (c : Config) (pre_ts pre_bin : Nat) (p q : Peak)
    (h1 : p.ts = q.ts) (h2 : p.bin = q.bin) :
    symbol_of_peak c pre_ts pre_bin p = symbol_of_peak c pre_ts pre_bin q := by
  unfold symbol_of_peak; rw [h1, h2]

/-- The inner loop of lines 622-643 reads only the timestamps of the peaks. -/
theorem scan_interval_congr (c : Config) (L : Nat) :
    ∀ (l l' : List Peak) (e s : Nat) (f g : Bool),
      l.map (fun pk => pk.ts) = l'.map (fun pk => pk.ts) →
      scan_interval c L l e s f g = scan_interval c L l' e s f g := by
  intro l
  induction l with
  | nil =>
    intro l' e s f g h
    cases l' with
    | nil => rfl
    | cons _ _ => simp at h
  | cons pk rest ih =>
    intro l' e s f g h
    cases l' with
    | nil => simp at h
    | cons pk' rest' =>
      simp only [List.map_cons, List.cons.injEq] at h
      have hin := in_interval_ts c L pk pk' h.1
      cases f with
      | true =>
        rw [scan_interval, scan_interval, hin]
        by_cases hq : in_interval c L pk' = true
        · rw [if_pos hq, if_pos hq]; exact ih _ _ _ _ _ h.2
        · rw [if_neg hq, if_neg hq]; exact ih _ _ _ _ _ h.2
      | false =>
        rw [scan_interval, scan_interval, hin]
        by_cases hq : in_interval c L pk' = true
        · rw [if_pos hq, if_pos hq]; exact ih _ _ _ _ _ h.2
        · rw [if_neg hq, if_neg hq]

/-- The inner loop of lines 622-643 when no remaining peak is inside the
interval: `end_idx` runs to the end and nothing is found. -/
theorem scan_interval_none (c : Config) (L : Nat) (pkt : List Peak) (start_idx : Nat)
    (hle : start_idx ≤ pkt.length)
    (hno : ∀ (i : Nat) (pk : Peak), start_idx ≤ i → pkt[i]? = some pk →
      in_interval c L pk = false) :
    scan_interval c L (pkt.drop start_idx) start_idx start_idx true false
      = (start_idx, pkt.length, false) := by
  rcases scan_interval_first c L (pkt.drop start_idx) start_idx start_idx false with
    ⟨_, hr⟩ | ⟨a, n, hn, han, _, _, h2, _⟩
  · rw [hr, List.length_drop]
    have : start_idx + (pkt.length - start_idx) = pkt.length := by omega
    rw [this]
  · rw [List.length_drop] at han
    have hlt : start_idx + a < pkt.length := by omega
    have h := h2 a _ (le_refl _) (by omega)
      (by rw [List.getElem?_drop]; exact getElem?_getD_of_lt pkt _ hlt)
    have h' := hno (start_idx + a) _ (by omega) (getElem?_getD_of_lt pkt _ hlt)
    rw [h] at h'
    exact absurd h' (by decide)

/-- Two orderings by timestamp of the same peaks carry the same timestamps at
the same positions. -/
theorem map_ts_of_sorted_perm (pkt pkt' : List Peak) (hperm : pkt.Perm pkt')
    (hs : pkt.Pairwise (fun a b => a.ts ≤ b.ts))
    (hs' : pkt'.Pairwise (fun a b => a.ts ≤ b.ts)) :
    pkt.map (fun pk => pk.ts) = pkt'.map (fun pk => pk.ts) :=
  List.eq_of_perm_of_sorted (hperm.map _) (List.pairwise_map.2 hs) (List.pairwise_map.2 hs')

theorem ts_of_map_ts (pkt pkt' : List Peak)
    (hmap : pkt.map (fun pk => pk.ts) = pkt'.map (fun pk => pk.ts))
    (i : Nat) (p : Peak) (hp : pkt[i]? = some p) :
    ∃ p', pkt'[i]? = some p' ∧ p'.ts = p.ts := by
  have h := congrArg (fun l : List Nat => l[i]?) hmap
  simp only [List.getElem?_map, hp, Option.map_some'] at h
  cases h' : pkt'[i]? with
  | none => rw [h'] at h; simp at h
  | some p' =>
    rw [h'] at h
    simp only [Option.map_some', Option.some.injEq] at h
    exact ⟨p', rfl, h.symm⟩

theorem sorted_getElem? (pkt : List Peak) (hs : pkt.Pairwise (fun a b => a.ts ≤ b.ts))
    (i j : Nat) (p q : Peak) (hij : i ≤ j) (hp : pkt[i]? = some p) (hq : pkt[j]? = some q) :
    p.ts ≤ q.ts := by
  obtain ⟨hi, ep⟩ := List.getElem?_eq_some.1 hp
  obtain ⟨hj, eq⟩ := List.getElem?_eq_some.1 hq
  by_cases h : i = j
  · subst h
    rw [← ep, ← eq]
  · have := List.pairwise_iff_getElem.1 hs i j hi hj (by omega)
    rw [← ep, ← eq]; exact this

/-- In a packet sorted by timestamp no peak behind the run delimited by the
inner loop lies inside the interval, and each has a timestamp beyond it. -/
theorem after_run_outside (c : Config) (L : Nat) (pkt : List Peak) (lo hi : Nat)
    (hs : pkt.Pairwise (fun a b => a.ts ≤ b.ts)) (h2 : lo < hi)
    (hrun : ∀ (i : Nat) (pk : Peak), lo ≤ i → i < hi → pkt[i]? = some pk →
      in_interval c L pk = true)
    (hend : ∀ pk : Peak, pkt[hi]? = some pk → in_interval c L pk = false)
    (i : Nat) (pk : Peak) (hhi : hi ≤ i) (hpk : pkt[i]? = some pk) :
    L + c.d_num_samples ≤ pk.ts ∧
      ∀ (j : Nat) (q : Peak), j < hi → pkt[j]? = some q → q.ts < L + c.d_num_samples := by
  have hi_lt : i < pkt.length := (List.getElem?_eq_some.1 hpk).1
  have hx := getElem?_getD_of_lt pkt (hi - 1) (by omega)
  have hy := getElem?_getD_of_lt pkt hi (by omega)
  have hprev := hrun (hi - 1) _ (by omega) (by omega) hx
  have hnext := hend _ hy
  have s1 := sorted_getElem? pkt hs (hi - 1) hi _ _ (by omega) hx hy
  have s2 := sorted_getElem? pkt hs hi i _ _ hhi hy hpk
  unfold in_interval at hprev hnext
  simp only [Bool.and_eq_true, decide_eq_true_eq, Bool.and_eq_false_imp, decide_eq_false_iff_not,
    gt_iff_lt, not_lt] at hprev hnext
  have hge : L + c.d_num_samples ≤ (pkt.getD hi default).ts := hnext (by omega)
  refine ⟨by omega, ?_⟩
  intro j q hj hq
  have s3 := sorted_getElem? pkt hs j (hi - 1) _ _ (by omega) hq hx
  omega

/-- In a sorted packet whose peaks before `start_idx` have timestamp 0 or a
timestamp below those of the remaining peaks, a peak inside the interval that
shares its timestamp with a remaining peak lies in the run. -/
theorem run_index (c : Config) (L : Nat) (pkt : List Peak) (start_idx lo hi : Nat)
    (hs : pkt.Pairwise (fun a b => a.ts ≤ b.ts))
    (hB : ∀ (j i : Nat) (p q : Peak), j < start_idx → start_idx ≤ i →
      pkt[j]? = some p → pkt[i]? = some q → p.ts = 0 ∨ p.ts < q.ts)
    (h2 : lo < hi)
    (hskip : ∀ (i : Nat) (pk : Peak), start_idx ≤ i → i < lo → pkt[i]? = some pk →
      in_interval c L pk = false)
    (hrun : ∀ (i : Nat) (pk : Peak), lo ≤ i → i < hi → pkt[i]? = some pk →
      in_interval c L pk = true)
    (hend : ∀ pk : Peak, pkt[hi]? = some pk → in_interval c L pk = false)
    (j : Nat) (q : Peak) (hq : pkt[j]? = some q) (hin : in_interval c L q = true)
    (i : Nat) (r : Peak) (hi0 : start_idx ≤ i) (hr : pkt[i]? = some r) (hts : r.ts = q.ts) :
    lo ≤ j ∧ j < hi := by
  have hin' := hin
  unfold in_interval at hin'
  simp only [Bool.and_eq_true, decide_eq_true_eq, gt_iff_lt] at hin'
  have hj : start_idx ≤ j := by
    by_contra hlt
    rcases hB j i q r (by omega) hi0 hq hr with h | h <;> omega
  refine ⟨?_, ?_⟩
  · by_contra hlt
    have := hskip j q hj (by omega) hq
    rw [hin] at this
    exact absurd this (by decide)
  · by_contra hge
    have := (after_run_outside c L pkt lo hi hs h2 hrun hend j q (by omega) hq).1
    omega
/-- The peaks chosen by the search of lines 648-662 in two orderings by
timestamp of the same peaks agree in timestamp and bin, when peaks of equal
timestamp and equal distance have equal bins. -/
theorem best_peak_sorted_perm (c : Config) (pre_h : ℚ) (L : Nat) (pkt pkt' : List Peak)
    (start_idx lo hi : Nat)
    (hperm : pkt.Perm pkt')
    (hs : pkt.Pairwise (fun a b => a.ts ≤ b.ts))
    (hs' : pkt'.Pairwise (fun a b => a.ts ≤ b.ts))
    (htie : ∀ p ∈ pkt, ∀ q ∈ pkt, p.ts = q.ts →
      peak_dis c 0 pre_h p = peak_dis c 0 pre_h q → p.bin = q.bin)
    (hB : ∀ (j i : Nat) (p q : Peak), j < start_idx → start_idx ≤ i →
      pkt[j]? = some p → pkt[i]? = some q → p.ts = 0 ∨ p.ts < q.ts)
    (hB' : ∀ (j i : Nat) (p q : Peak), j < start_idx → start_idx ≤ i →
      pkt'[j]? = some p → pkt'[i]? = some q → p.ts = 0 ∨ p.ts < q.ts)
    (h1 : start_idx ≤ lo) (h2 : lo < hi) (h3 : hi ≤ pkt.length)
    (hskip : ∀ (i : Nat) (pk : Peak), start_idx ≤ i → i < lo → pkt[i]? = some pk →
      in_interval c L pk = false)
    (hrun : ∀ (i : Nat) (pk : Peak), lo ≤ i → i < hi → pkt[i]? = some pk →
      in_interval c L pk = true)
    (hend : ∀ pk : Peak, pkt[hi]? = some pk → in_interval c L pk = false)
    (hskip' : ∀ (i : Nat) (pk : Peak), start_idx ≤ i → i < lo → pkt'[i]? = some pk →
      in_interval c L pk = false)
    (hrun' : ∀ (i : Nat) (pk : Peak), lo ≤ i → i < hi → pkt'[i]? = some pk →
      in_interval c L pk = true)
    (hend' : ∀ pk : Peak, pkt'[hi]? = some pk → in_interval c L pk = false) :
    (pkt.getD (best_peak_loop c 0 pre_h pkt (List.range' lo (hi - lo)) (XFloat.pinf, lo)).2
        default).ts
      = (pkt'.getD (best_peak_loop c 0 pre_h pkt' (List.range' lo (hi - lo)) (XFloat.pinf, lo)).2
        default).ts ∧
    (pkt.getD (best_peak_loop c 0 pre_h pkt (List.range' lo (hi - lo)) (XFloat.pinf, lo)).2
        default).bin
      = (pkt'.getD (best_peak_loop c 0 pre_h pkt' (List.range' lo (hi - lo)) (XFloat.pinf, lo)).2
        default).bin := by
  have hlen : pkt.length = pkt'.length := hperm.length_eq
  have hmap := map_ts_of_sorted_perm pkt pkt' hperm hs hs'
  obtain ⟨b1, b2, b3, b4⟩ := best_peak_loop_run c 0 pre_h pkt lo hi h2
  obtain ⟨b1', b2', b3', b4'⟩ := best_peak_loop_run c 0 pre_h pkt' lo hi h2
  generalize (best_peak_loop c 0 pre_h pkt (List.range' lo (hi - lo)) (XFloat.pinf, lo)).2 = idx
    at b1 b2 b3 b4 ⊢
  generalize (best_peak_loop c 0 pre_h pkt' (List.range' lo (hi - lo)) (XFloat.pinf, lo)).2 = idx'
    at b1' b2' b3' b4' ⊢
  have hp := getElem?_getD_of_lt pkt idx (by omega)
  have hp' := getElem?_getD_of_lt pkt' idx' (by omega)
  generalize pkt.getD idx default = p at hp b3 b4 ⊢
  generalize pkt'.getD idx' default = p' at hp' b3' b4' ⊢
  -- the peak chosen in `pkt'` sits in the run of `pkt`
  obtain ⟨j, hj⟩ := List.mem_iff_getElem?.1
    (hperm.mem_iff.2 (mem_of_getElem?_eq_some pkt' idx' p' hp'))
  obtain ⟨r, hr, hrts⟩ := ts_of_map_ts pkt' pkt hmap.symm idx' p' hp'
  have hjr := run_index c L pkt start_idx lo hi hs hB h2 hskip hrun hend j p' hj
    (hrun' idx' p' b1' b2' hp') idx' r (by omega) hr hrts
  -- the peak chosen in `pkt` sits in the run of `pkt'`
  obtain ⟨j', hj'⟩ := List.mem_iff_getElem?.1
    (hperm.mem_iff.1 (mem_of_getElem?_eq_some pkt idx p hp))
  obtain ⟨r', hr', hrts'⟩ := ts_of_map_ts pkt pkt' hmap idx p hp
  have hjr' := run_index c L pkt' start_idx lo hi hs' hB' h2 hskip' hrun' hend' j' p hj'
    (hrun idx p b1 b2 hp) idx r' (by omega) hr' hrts'
  have d1 : peak_dis c 0 pre_h p ≤ peak_dis c 0 pre_h p' := by
    have := b3 j hjr.1 hjr.2
    rw [getD_of_getElem? pkt j p' hj] at this
    exact this
  have d2 : peak_dis c 0 pre_h p' ≤ peak_dis c 0 pre_h p := by
    have := b3' j' hjr'.1 hjr'.2
    rw [getD_of_getElem? pkt' j' p hj'] at this
    exact this
  have hts : p.ts = p'.ts := by
    rcases Nat.lt_trichotomy p.ts p'.ts with h | h | h
    · exfalso
      have hlt : j' < idx' := by
        by_contra hge
        have := sorted_getElem? pkt' hs' idx' j' p' p (by omega) hp' hj'
        omega
      have := b4' j' hjr'.1 hlt
      rw [getD_of_getElem? pkt' j' p hj'] at this
      exact absurd d1 (not_le.2 this)
    · exact h
    · exfalso
      have hlt : j < idx := by
        by_contra hge
        have := sorted_getElem? pkt hs idx j p p' (by omega) hp hj
        omega
      have := b4 j hjr.1 hlt
      rw [getD_of_getElem? pkt j p' hj] at this
      exact absurd d2 (not_le.2 this)
  exact ⟨hts, htie p (mem_of_getElem?_eq_some pkt idx p hp) p'
    (mem_of_getElem?_eq_some pkt j p' hj) hts (le_antisymm d1 d2)⟩

/-- The walk of lines 617-686 on two orderings by timestamp of the same peaks
builds the same symbol vector, when peaks of equal timestamp and equal distance
have equal bins and the peaks before `start_idx` have timestamp 0 or a timestamp
below those of the remaining peaks. -/
theorem grid_walk_loop_sorted_perm (c : Config) (pre_bin : Nat) (pre_h : ℚ)
    (pkt pkt' : List Peak) (hperm : pkt.Perm pkt')
    (hs : pkt.Pairwise (fun a b => a.ts ≤ b.ts))
    (hs' : pkt'.Pairwise (fun a b => a.ts ≤ b.ts))
    (htie : ∀ p ∈ pkt, ∀ q ∈ pkt, p.ts = q.ts →
      peak_dis c 0 pre_h p = peak_dis c 0 pre_h q → p.bin = q.bin) :
    ∀ (fuel start_idx L : Nat) (symbols : List Nat),
      (∀ (j i : Nat) (p q : Peak), j < start_idx → start_idx ≤ i →
        pkt[j]? = some p → pkt[i]? = some q → p.ts = 0 ∨ p.ts < q.ts) →
      (∀ (j i : Nat) (p q : Peak), j < start_idx → start_idx ≤ i →
        pkt'[j]? = some p → pkt'[i]? = some q → p.ts = 0 ∨ p.ts < q.ts) →
      grid_walk_loop c 0 pre_bin pre_h pkt fuel start_idx L symbols
        = grid_walk_loop c 0 pre_bin pre_h pkt' fuel start_idx L symbols := by
  have hlen : pkt.length = pkt'.length := hperm.length_eq
  have hmap := map_ts_of_sorted_perm pkt pkt' hperm hs hs'
  intro fuel
  induction fuel with
  | zero => intro start_idx L symbols _ _; rfl
  | succ fuel ih =>
    intro start_idx L symbols hB hB'
    by_cases hstart : start_idx < pkt.length
    · have hstart' : start_idx < pkt'.length := by omega
      have hscan : scan_interval c L (pkt'.drop start_idx) start_idx start_idx true false
          = scan_interval c L (pkt.drop start_idx) start_idx start_idx true false := by
        apply scan_interval_congr
        rw [List.map_drop, List.map_drop, hmap]
      by_cases hex : ∃ (i : Nat) (pk : Peak), start_idx ≤ i ∧ pkt[i]? = some pk ∧
          in_interval c L pk = true
      · obtain ⟨lo, hi, h1, h2, h3, hr, hskip, hrun, hend⟩ :=
          scan_interval_found c L pkt start_idx hex
        have hex' : ∃ (i : Nat) (pk : Peak), start_idx ≤ i ∧ pkt'[i]? = some pk ∧
            in_interval c L pk = true := by
          obtain ⟨i, pk, hi1, hi2, hi3⟩ := hex
          obtain ⟨pk', hpk', hts⟩ := ts_of_map_ts pkt pkt' hmap i pk hi2
          exact ⟨i, pk', hi1, hpk', by rw [in_interval_ts c L pk' pk hts]; exact hi3⟩
        obtain ⟨lo', hi', _, _, _, hr', hskip', hrun', hend'⟩ :=
          scan_interval_found c L pkt' start_idx hex'
        rw [hscan, hr] at hr'
        simp only [Prod.mk.injEq, and_true] at hr'
        obtain ⟨e1, e2⟩ := hr'
        subst e1; subst e2
        obtain ⟨t1, t2⟩ := best_peak_sorted_perm c pre_h L pkt pkt' start_idx lo hi hperm hs hs'
          htie hB hB' h1 h2 h3 hskip hrun hend hskip' hrun' hend'
        have eL : grid_walk_loop c 0 pre_bin pre_h pkt (fuel + 1) start_idx L symbols
            = grid_walk_loop c 0 pre_bin pre_h pkt fuel hi
                (pos_mod ((L : Int) + c.d_num_samples) c.TIMESTAMP_MOD)
                (symbols ++ [symbol_of_peak c 0 pre_bin (pkt.getD
                  (best_peak_loop c 0 pre_h pkt (List.range' lo (hi - lo)) (XFloat.pinf, lo)).2
                  default)]) := by
          rw [grid_walk_loop, if_pos hstart]
          simp only [hr, if_true]
        have eR : grid_walk_loop c 0 pre_bin pre_h pkt' (fuel + 1) start_idx L symbols
            = grid_walk_loop c 0 pre_bin pre_h pkt' fuel hi
                (pos_mod ((L : Int) + c.d_num_samples) c.TIMESTAMP_MOD)
                (symbols ++ [symbol_of_peak c 0 pre_bin (pkt'.getD
                  (best_peak_loop c 0 pre_h pkt' (List.range' lo (hi - lo)) (XFloat.pinf, lo)).2
                  default)]) := by
          rw [grid_walk_loop, if_pos hstart']
          simp only [hscan, hr, if_true]
        rw [eL, eR, symbol_of_peak_congr c 0 pre_bin _ _ t1 t2]
        apply ih
        · intro j i p q hj hi0 hp hq
          right
          have a1 := after_run_outside c L pkt lo hi hs h2 hrun hend i q hi0 hq
          have := a1.2 j p hj hp
          omega
        · intro j i p q hj hi0 hp hq
          right
          have a1 := after_run_outside c L pkt' lo hi hs' h2 hrun' hend' i q hi0 hq
          have := a1.2 j p hj hp
          omega
      · have hno : ∀ (i : Nat) (pk : Peak), start_idx ≤ i → pkt[i]? = some pk →
            in_interval c L pk = false := by
          intro i pk h1 h2
          by_contra h3
          exact hex ⟨i, pk, h1, h2, by simpa using h3⟩
        have hr := scan_interval_none c L pkt start_idx (by omega) hno
        have eL : grid_walk_loop c 0 pre_bin pre_h pkt (fuel + 1) start_idx L symbols
            = grid_walk_loop c 0 pre_bin pre_h pkt fuel pkt.length
                (pos_mod ((L : Int) + c.d_num_samples) c.TIMESTAMP_MOD) (symbols ++ [0]) := by
          rw [grid_walk_loop, if_pos hstart]
          simp only [hr, Bool.false_eq_true, if_false]
        have eR : grid_walk_loop c 0 pre_bin pre_h pkt' (fuel + 1) start_idx L symbols
            = grid_walk_loop c 0 pre_bin pre_h pkt' fuel pkt.length
                (pos_mod ((L : Int) + c.d_num_samples) c.TIMESTAMP_MOD) (symbols ++ [0]) := by
          rw [grid_walk_loop, if_pos hstart']
          simp only [hscan, hr, Bool.false_eq_true, if_false]
        rw [eL, eR]
        apply ih
        · intro j i p q _ hi0 _ hq
          have := (List.getElem?_eq_some.1 hq).1
          omega
        · intro j i p q _ hi0 _ hq
          have := (List.getElem?_eq_some.1 hq).1
          omega
    · have hstart' : ¬ start_idx < pkt'.length := by omega
      rw [grid_walk_loop, grid_walk_loop, if_neg hstart, if_neg hstart']
/-- The first peak of any ordering by timestamp of a normalised packet has
timestamp 0, the normalised timestamp of the preamble. -/
theorem head_ts_zero (c : Config) (pkt l : List Peak)
    (hperm : l.Perm (normalise c (pkt.getD 0 default).ts pkt))
    (hs : l.Pairwise (fun a b => a.ts ≤ b.ts)) (p : Peak) (hp : l[0]? = some p) :
    p.ts = 0 := by
  cases pkt with
  | nil =>
    have : l = [] := List.Perm.eq_nil hperm
    rw [this] at hp
    simp at hp
  | cons a rest =>
    have hz : (⟨pos_mod ((a.ts : Int) - a.ts) c.TIMESTAMP_MOD, a.bin, a.h⟩ : Peak)
        ∈ normalise c ((a :: rest).getD 0 default).ts (a :: rest) := by
      unfold normalise
      simp only [List.getD_cons_zero, List.map_cons]
      exact List.mem_cons_self _ _
    obtain ⟨k, hk⟩ := List.mem_iff_getElem?.1 (hperm.mem_iff.2 hz)
    have := sorted_getElem? l hs 0 k _ _ (Nat.zero_le _) hp hk
    simp only [sub_self, pos_mod_zero_left] at this
    omega

/-- C17 as stated fails: in `pkt_tie` the peaks `(1200, 20, 1)` and
`(1200, 30, 1)` have the same timestamp and the same distance, the walk takes
the one that comes first, and the two orders of the pair give the symbol
vectors `[50]` and `[60]`. -/
theorem sort_order_matters :
    pkt_tie_swapped.Perm (normalise cfg7 (pkt_tie.getD 0 default).ts pkt_tie) ∧
      pkt_tie_swapped.Pairwise (fun a b => a.ts ≤ b.ts) ∧
      sort_peaks (normalise cfg7 (pkt_tie.getD 0 default).ts pkt_tie) = pkt_tie ∧
      demod_packet cfg7 pkt_tie = [50] ∧
      grid_walk cfg7 (pkt_tie.getD 0 default).bin (pkt_tie.getD 0 default).h pkt_tie_swapped
        = [60] := by
  refine ⟨by decide!, by decide!, by decide!, by decide!, by decide!⟩

/-- C17, amended: the order in which the sort leaves peaks of equal timestamp
does not change the emitted symbols, provided that any two peaks of the packet
with equal normalised timestamp and equal computed distance (the `float` value
`peak_dis` of lines 652-656, which is what line 657 compares) have equal bins:
the walk over any ordering by timestamp of the normalised packet yields the
symbol vector of the packet. -/
theorem sort_order_irrelevant (c : Config) (pkt other : List Peak)
    (hperm : other.Perm (normalise c (pkt.getD 0 default).ts pkt))
    (hsorted : other.Pairwise (fun a b => a.ts ≤ b.ts))
    (htie : ∀ p ∈ normalise c (pkt.getD 0 default).ts pkt,
      ∀ q ∈ normalise c (pkt.getD 0 default).ts pkt, p.ts = q.ts →
        peak_dis c 0 (pkt.getD 0 default).h p = peak_dis c 0 (pkt.getD 0 default).h q →
        p.bin = q.bin) :
    grid_walk c (pkt.getD 0 default).bin (pkt.getD 0 default).h other = demod_packet c pkt := by
  haveI : IsTotal Peak (fun a b => a.ts ≤ b.ts) := ⟨fun a b => le_total a.ts b.ts⟩
  haveI : IsTrans Peak (fun a b => a.ts ≤ b.ts) := ⟨fun _ _ _ h1 h2 => le_trans h1 h2⟩
  have hp1 : (sort_peaks (normalise c (pkt.getD 0 default).ts pkt)).Perm
      (normalise c (pkt.getD 0 default).ts pkt) := List.perm_insertionSort _ _
  have hs1 : (sort_peaks (normalise c (pkt.getD 0 default).ts pkt)).Pairwise
      (fun a b => a.ts ≤ b.ts) := List.sorted_insertionSort _ _
  have hperm2 : other.Perm (sort_peaks (normalise c (pkt.getD 0 default).ts pkt)) :=
    hperm.trans hp1.symm
  unfold demod_packet grid_walk
  rw [hperm2.length_eq]
  apply grid_walk_loop_sorted_perm c _ _ other _ hperm2 hsorted hs1
  · intro p hp q hq
    exact htie p (hperm.mem_iff.1 hp) q (hperm.mem_iff.1 hq)
  · intro j i p q hj _ hp _
    have : j = 0 := by omega
    subst this
    exact Or.inl (head_ts_zero c pkt other hperm hsorted p hp)
  · intro j i p q hj _ hp _
    have : j = 0 := by omega
    subst this
    exact Or.inl (head_ts_zero c pkt _ hp1 hs1 p hp)

theorem sort_order_irrelevant_witness :
    pkt_equal_ts_swapped.Perm
        (normalise cfg7 (pkt_equal_ts.getD 0 default).ts pkt_equal_ts) ∧
      pkt_equal_ts_swapped.Pairwise (fun a b => a.ts ≤ b.ts) ∧
      grid_walk cfg7 (pkt_equal_ts.getD 0 default).bin (pkt_equal_ts.getD 0 default).h
          pkt_equal_ts_swapped = demod_packet cfg7 pkt_equal_ts ∧
      demod_packet cfg7 pkt_equal_ts = [60] :=
  ⟨by decide!, by decide!,
    sort_order_irrelevant cfg7 pkt_equal_ts pkt_equal_ts_swapped (by decide!) (by decide!)
      (by decide!),
    by decide!⟩

/-! ## Separation of the open track references -/

theorem separated_symm (c : Config) (a b : bin_track_id) (h : Separated c a b) :
    Separated c b a :=
  ⟨fun e => h.1 e.symm, h.2.2.2.1, h.2.2.2.2, h.2.1, h.2.2.1⟩

theorem emod_neg_of_pos (x B : Int) (hB : 0 < B) (h : 0 < x % B) :
    (-x) % B = B - x % B := by
  have h1 := Int.emod_add_ediv x B
  have h2 := Int.emod_lt_of_pos x hB
  have e : -x = (B - x % B) + B * (-(x / B) - 1) := by
    have : B * (-(x / B) - 1) = -(B * (x / B)) - B := by ring
    rw [this]; omega
  rw [e, Int.add_mul_emod_self_left]
  exact Int.emod_eq_of_lt (by omega) (by omega)

/-- A bin that matches no entry is separated, in both directions, from the bin
of every entry. -/
theorem separated_of_no_match (c : Config) (hB : 0 < c.d_bin_size) (cur_bin id : Nat)
    (u : Bool) (b : bin_track_id) (hne : id ≠ b.track_id)
    (h : bin_matches c cur_bin b = false) :
    Separated c b ⟨cur_bin, id, u⟩ := by
  unfold bin_matches at h
  simp only [Bool.or_eq_false_iff, decide_eq_false_iff_not, not_le, ge_iff_le] at h
  have hc := pos_mod_cast ((c.d_bin_size : Int) + cur_bin - b.bin) c.d_bin_size hB
  have e : ((c.d_bin_size : Int) + cur_bin - b.bin) % (c.d_bin_size : Int)
      = ((cur_bin : Int) - b.bin) % (c.d_bin_size : Int) := by
    have : (c.d_bin_size : Int) + cur_bin - b.bin = (c.d_bin_size : Int) + (cur_bin - b.bin) := by
      ring
    rw [this, Int.add_emod_self_left]
  rw [e] at hc
  have hB' : (0 : Int) < c.d_bin_size := by exact_mod_cast hB
  have h1 : (c.d_bin_tolerance : Int) < ((cur_bin : Int) - b.bin) % (c.d_bin_size : Int) := by
    rw [← hc]; exact_mod_cast h.1
  have h2 : ((cur_bin : Int) - b.bin) % (c.d_bin_size : Int)
      < (c.d_bin_size : Int) - c.d_bin_tolerance := by
    rw [← hc]
    have := h.2
    omega
  have hpos : 0 < ((cur_bin : Int) - b.bin) % (c.d_bin_size : Int) := by
    have : (0 : Int) ≤ c.d_bin_tolerance := Int.ofNat_nonneg _
    omega
  have e2 := emod_neg_of_pos ((cur_bin : Int) - b.bin) c.d_bin_size hB' hpos
  have e3 : -((cur_bin : Int) - b.bin) = (b.bin : Int) - cur_bin := by ring
  rw [e3] at e2
  refine ⟨fun e => hne e.symm, ?_, ?_, h1, h2⟩
  · show (c.d_bin_tolerance : Int) < ((b.bin : Int) - cur_bin) % (c.d_bin_size : Int)
    omega
  · show ((b.bin : Int) - cur_bin) % (c.d_bin_size : Int) < _
    omega

theorem pairwise_replace {α : Type} (R : α → α → Prop) (pre post : List α) (x y : α)
    (h1 : ∀ z, R z x → R z y) (h2 : ∀ z, R x z → R y z)
    (h : (pre ++ x :: post).Pairwise R) : (pre ++ y :: post).Pairwise R := by
  rw [List.pairwise_append] at h ⊢
  obtain ⟨a, b, d⟩ := h
  rw [List.pairwise_cons] at b ⊢
  refine ⟨a, ⟨fun z hz => h2 z (b.1 z hz), b.2⟩, ?_⟩
  intro u hu v hv
  rcases List.mem_cons.1 hv with hv | hv
  · rw [hv]; exact h1 u (d u hu x (List.mem_cons_self _ _))
  · exact d u hu v (List.mem_cons_of_mem _ hv)

/-- Lines 212-247 keep the open track references separated: a matching peak only
marks its entry, and a new entry is created for a bin that matches none. -/
theorem add_peak_separation (c : Config) (hB : 0 < c.d_bin_size) (fft_mag : Nat → ℚ)
    (s s' : State) (i : Nat) (hinv : TrackerInv s) (hsep : SeparationInv c s)
    (h : add_peak c fft_mag s i = .ok s') : SeparationInv c s' := by
  have hnd := nodup_of_trackIdInv s hinv.1
  rcases add_peak_cases c fft_mag s s' i h with
    ⟨pre, bt, post, hl, _, _, rfl⟩ | ⟨hno, id, pool, hpool, rfl⟩
  · show (pre ++ { bt with updated := true } :: post).Pairwise (Separated c)
    unfold SeparationInv at hsep
    rw [hl] at hsep
    exact pairwise_replace _ pre post bt _ (fun z hz => hz) (fun z hz => hz) hsep
  · show (s.d_bin_track_id_list
      ++ [(⟨rel_bin c s.d_bin_ref i, id, true⟩ : bin_track_id)]).Pairwise (Separated c)
    rw [List.pairwise_append]
    refine ⟨hsep, List.pairwise_singleton _ _, ?_⟩
    intro b hb x hx
    rw [List.mem_singleton] at hx
    subst hx
    have hne : id ≠ b.track_id := by
      intro e
      have hin : b.track_id ∈ s.d_bin_track_id_list.map (fun bt => bt.track_id) :=
        List.mem_map_of_mem (fun bt => bt.track_id) hb
      have hp : id ∈ s.d_track_id_pool := by rw [hpool]; exact List.mem_cons_self _ _
      exact (List.nodup_append.1 hnd).2.2 hin (e ▸ hp)
    exact separated_of_no_match c hB _ id true b hne (hno b hb)

theorem find_and_add_peak_loop_separation (c : Config) (hB : 0 < c.d_bin_size)
    (fft_mag fft_mag_w : Nat → ℚ) :
    ∀ (bins : List Nat) (s s' : State), TrackerInv s → SeparationInv c s →
      find_and_add_peak_loop c fft_mag fft_mag_w bins s = .ok s' → SeparationInv c s' := by
  intro bins
  induction bins with
  | nil =>
    intro s s' _ hsep h
    simp only [find_and_add_peak_loop, Except.ok.injEq] at h
    subst h; exact hsep
  | cons i rest ih =>
    intro s s' hinv hsep h
    rw [find_and_add_peak_loop] at h
    by_cases hp : is_peak c fft_mag_w i = true
    · rw [if_pos hp] at h
      split at h
      · rename_i s1 h1
        exact ih s1 s' (add_peak_trackerInv c fft_mag s s1 i hinv h1)
          (add_peak_separation c hB fft_mag s s1 i hinv hsep h1) h
      · exact absurd h (by simp)
    · rw [if_neg hp] at h
      exact ih s s' hinv hsep h

theorem check_and_update_track_separation (c : Config) (s s' : State)
    (hsep : SeparationInv c s) (h : check_and_update_track c s = .ok s') :
    SeparationInv c s' := by
  unfold check_and_update_track at h
  split at h
  · exact absurd h (by simp)
  · rename_i s1 h1
    simp only [Except.ok.injEq] at h
    subst h
    obtain ⟨f1, _⟩ := close_tracks_frame c _ s s1 h1
    show (((s1.d_bin_track_id_list.filter (fun bt => bt.updated)).map
      (fun bt => { bt with updated := false })) : List bin_track_id).Pairwise (Separated c)
    rw [f1, List.pairwise_map]
    exact List.Pairwise.filter _ hsep

theorem general_work_separation (c : Config) (hB : 0 < c.d_bin_size) (ninput : Nat)
    (fft_res_add fft_res_add_w : Nat → ℚ) (s s' : State) (hinv : TrackerInv s)
    (hsep : SeparationInv c s)
    (h : general_work c ninput fft_res_add fft_res_add_w s = .ok s') : SeparationInv c s' := by
  unfold general_work at h
  split at h
  · simp only [Except.ok.injEq] at h
    subst h; exact hsep
  · split at h
    · exact absurd h (by simp)
    · rename_i s1 h1
      split at h
      · exact absurd h (by simp)
      · rename_i s2 h2
        simp only [Except.ok.injEq] at h
        subst h
        have i1 := find_and_add_peak_loop_separation c hB _ _ _ s s1 hinv hsep h1
        have i2 := check_and_update_track_separation c s1 s2 i1 h2
        obtain ⟨f1, _⟩ := finish_packets_frame c s2.d_packet_state_list s2
        show (finish_packets c s2.d_packet_state_list s2).d_bin_track_id_list.Pairwise _
        rw [f1]; exact i2

theorem reachable_separation (c : Config) (hB : 0 < c.d_bin_size) (s : State)
    (h : Reachable c s) : SeparationInv c s := by
  induction h with
  | init => exact List.Pairwise.nil
  | step s s' ninput m mw hr hstep ih =>
    exact general_work_separation c hB ninput m mw s s' (reachable_trackerInv c s hr) ih hstep

theorem separated_of_pairwise (c : Config) (l : List bin_track_id)
    (h : l.Pairwise (Separated c)) (i j : Nat) (a b : bin_track_id) (hij : i ≠ j)
    (ha : l[i]? = some a) (hb : l[j]? = some b) : Separated c a b := by
  obtain ⟨hi, ea⟩ := List.getElem?_eq_some.1 ha
  obtain ⟨hj, eb⟩ := List.getElem?_eq_some.1 hb
  have hp := List.pairwise_iff_getElem.1 h
  rcases Nat.lt_or_gt_of_ne hij with hlt | hlt
  · have := hp i j hi hj hlt
    rw [ea, eb] at this; exact this
  · have := hp j i hj hi hlt
    rw [ea, eb] at this; exact separated_symm c b a this

/-- C21: separation of the open track references. After construction and after
every step that returns, and in every state the insertion loop of a step passes
through from there (after each peak insertion), any two distinct entries of
`d_bin_track_id_list` hold different track ids, and the circular distance
`(a.bin - b.bin) mod B` of their bins is strictly above `d_bin_tolerance` and
strictly below `B - d_bin_tolerance`; every single insertion preserves this. -/
theorem track_ref_separation (c : Config) (hB : 0 < c.d_bin_size) (s : State)
    (h : Reachable c s) :
    (∀ (i j : Nat) (a b : bin_track_id), i ≠ j → s.d_bin_track_id_list[i]? = some a →
      s.d_bin_track_id_list[j]? = some b → Separated c a b) ∧
    (∀ (fft_mag fft_mag_w : Nat → ℚ) (bins : List Nat) (s1 : State),
      find_and_add_peak_loop c fft_mag fft_mag_w bins s = .ok s1 →
      ∀ (i j : Nat) (a b : bin_track_id), i ≠ j → s1.d_bin_track_id_list[i]? = some a →
        s1.d_bin_track_id_list[j]? = some b → Separated c a b) ∧
    (∀ (fft_mag : Nat → ℚ) (s0 s1 : State) (k : Nat), TrackerInv s0 → SeparationInv c s0 →
      add_peak c fft_mag s0 k = .ok s1 → TrackerInv s1 ∧ SeparationInv c s1) := by
  have hs := reachable_separation c hB s h
  have ht := reachable_trackerInv c s h
  refine ⟨separated_of_pairwise c _ hs, ?_, ?_⟩
  · intro fft_mag fft_mag_w bins s1 h1
    exact separated_of_pairwise c _
      (find_and_add_peak_loop_separation c hB fft_mag fft_mag_w bins s s1 ht hs h1)
  · intro fft_mag s0 s1 k h0 h1 h2
    exact ⟨add_peak_trackerInv c fft_mag s0 s1 k h0 h2,
      add_peak_separation c hB fft_mag s0 s1 k h0 h1 h2⟩

theorem track_ref_separation_witness :
    0 < cfg7.d_bin_size ∧
      ∃ s1, find_and_add_peak cfg7 spectrum_two_lines spectrum_two_lines init = .ok s1 ∧
        s1.d_bin_track_id_list = [⟨5, 0, true⟩, ⟨60, 1, true⟩] ∧
        ∀ (i j : Nat) (a b : bin_track_id), i ≠ j → s1.d_bin_track_id_list[i]? = some a →
          s1.d_bin_track_id_list[j]? = some b → Separated cfg7 a b := by
  have e : (find_and_add_peak cfg7 spectrum_two_lines spectrum_two_lines init).toOption.map
      (fun s => s.d_bin_track_id_list) = some [⟨5, 0, true⟩, ⟨60, 1, true⟩] := by decide!
  cases h : find_and_add_peak cfg7 spectrum_two_lines spectrum_two_lines init with
  | error e1 => rw [h] at e; simp [Except.toOption] at e
  | ok s1 =>
    rw [h] at e
    simp only [Except.toOption, Option.map_some', Option.some.injEq] at e
    exact ⟨by decide, s1, rfl, e,
      (track_ref_separation cfg7 (by decide) init Reachable.init).2.1
        spectrum_two_lines spectrum_two_lines (List.range cfg7.d_bin_size) s1 h⟩

/-! ## Shape and length of the symbol vector -/

/-- An iteration of the outer loop whose interval holds none of the remaining
peaks appends the marker 0 and is the last one. -/
theorem grid_walk_loop_missing (c : Config) (pre_ts pre_bin : Nat) (pre_h : ℚ)
    (pkt : List Peak) (fuel start_idx L : Nat) (symbols : List Nat)
    (hstart : start_idx < pkt.length)
    (hno : ∀ (i : Nat) (pk : Peak), start_idx ≤ i → pkt[i]? = some pk →
      in_interval c L pk = false) :
    grid_walk_loop c pre_ts pre_bin pre_h pkt (fuel + 1) start_idx L symbols
      = symbols ++ [0] := by
  have hr := scan_interval_none c L pkt start_idx (by omega) hno
  rw [grid_walk_loop, if_pos hstart]
  simp only [hr, Bool.false_eq_true, if_false]
  cases fuel with
  | zero => rfl
  | succ f => rw [grid_walk_loop, if_neg (by omega)]

/-- The symbol vector built by the outer loop: the symbols of peaks taken from
consecutive intervals, each peak inside its interval, then at most one marker. -/
theorem grid_walk_loop_shape (c : Config) (pre_ts pre_bin : Nat) (pre_h : ℚ)
    (pkt : List Peak) :
    ∀ (fuel start_idx L : Nat) (symbols : List Nat),
      ∃ chosen : List Peak,
        (∀ (k : Nat) (p : Peak), chosen[k]? = some p →
          ∃ i, start_idx ≤ i ∧ pkt[i]? = some p ∧
            in_interval c (interval_from c L k) p = true) ∧
        (grid_walk_loop c pre_ts pre_bin pre_h pkt fuel start_idx L symbols
            = symbols ++ chosen.map (symbol_of_peak c pre_ts pre_bin) ∨
          grid_walk_loop c pre_ts pre_bin pre_h pkt fuel start_idx L symbols
            = symbols ++ chosen.map (symbol_of_peak c pre_ts pre_bin) ++ [0]) := by
  intro fuel
  induction fuel with
  | zero =>
    intro start_idx L symbols
    exact ⟨[], by intro k p h; simp at h, Or.inl (by simp [grid_walk_loop])⟩
  | succ fuel ih =>
    intro start_idx L symbols
    by_cases hstart : start_idx < pkt.length
    · by_cases hex : ∃ (i : Nat) (pk : Peak), start_idx ≤ i ∧ pkt[i]? = some pk ∧
          in_interval c L pk = true
      · obtain ⟨lo, hi, h1, h2, h3, hr, _, hrun, _⟩ := scan_interval_found c L pkt start_idx hex
        obtain ⟨b1, b2, _, _⟩ := best_peak_loop_run c pre_ts pre_h pkt lo hi h2
        have eL : grid_walk_loop c pre_ts pre_bin pre_h pkt (fuel + 1) start_idx L symbols
            = grid_walk_loop c pre_ts pre_bin pre_h pkt fuel hi (next_interval c L)
                (symbols ++ [symbol_of_peak c pre_ts pre_bin (pkt.getD
                  (best_peak_loop c pre_ts pre_h pkt (List.range' lo (hi - lo)) (XFloat.pinf, lo)).2
                  default)]) := by
          rw [grid_walk_loop, if_pos hstart]
          simp only [hr, if_true]
          rfl
        generalize (best_peak_loop c pre_ts pre_h pkt (List.range' lo (hi - lo)) (XFloat.pinf, lo)).2
          = idx at b1 b2 eL
        have hbest := getElem?_getD_of_lt pkt idx (by omega)
        generalize pkt.getD idx default = best at hbest eL
        obtain ⟨chosen, hc, hres⟩ := ih hi (next_interval c L)
          (symbols ++ [symbol_of_peak c pre_ts pre_bin best])
        refine ⟨best :: chosen, ?_, ?_⟩
        · intro k p hk
          cases k with
          | zero =>
            simp only [List.getElem?_cons_zero, Option.some.injEq] at hk
            subst hk
            exact ⟨idx, by omega, hbest, hrun idx _ b1 b2 hbest⟩
          | succ k =>
            simp only [List.getElem?_cons_succ] at hk
            obtain ⟨i, hi1, hi2, hi3⟩ := hc k p hk
            exact ⟨i, by omega, hi2, hi3⟩
        · rw [eL]
          simp only [List.map_cons]
          rcases hres with hres | hres
          · left; rw [hres]; simp
          · right; rw [hres]; simp
      · have hno : ∀ (i : Nat) (pk : Peak), start_idx ≤ i → pkt[i]? = some pk →
            in_interval c L pk = false := by
          intro i pk h1 h2
          by_contra h3
          exact hex ⟨i, pk, h1, h2, by simpa using h3⟩
        exact ⟨[], by intro k p h; simp at h,
          Or.inr (by
            rw [grid_walk_loop_missing c pre_ts pre_bin pre_h pkt fuel start_idx L symbols
              hstart hno]
            simp)⟩
    · exact ⟨[], by intro k p h; simp at h,
        Or.inl (by rw [grid_walk_loop, if_neg hstart]; simp)⟩

/-- C22: a missing marker can only end the symbol vector. An iteration of the
walk whose interval holds none of the remaining peaks appends 0 and the walk
stops there, whatever peaks remain (at least one does); so the symbol vector of
the walk is the symbols of peaks of index at least 1, the `k`-th taken inside
the `k`-th interval, followed by at most one marker. -/
theorem missing_marker_last (c : Config) (pre_bin : Nat) (pre_h : ℚ) (pkt : List Peak) :
    (∀ (fuel start_idx L : Nat) (symbols : List Nat), start_idx < pkt.length →
      (∀ (i : Nat) (pk : Peak), start_idx ≤ i → pkt[i]? = some pk →
        in_interval c L pk = false) →
      grid_walk_loop c 0 pre_bin pre_h pkt (fuel + 1) start_idx L symbols = symbols ++ [0]) ∧
    ∃ chosen : List Peak,
      (∀ (k : Nat) (p : Peak), chosen[k]? = some p →
        ∃ i, 1 ≤ i ∧ pkt[i]? = some p ∧
          in_interval c
            (interval_from c (4 * c.d_num_samples + c.d_num_samples / 2) k) p = true) ∧
      (grid_walk c pre_bin pre_h pkt = chosen.map (symbol_of_peak c 0 pre_bin) ∨
        grid_walk c pre_bin pre_h pkt = chosen.map (symbol_of_peak c 0 pre_bin) ++ [0]) := by
  refine ⟨fun fuel start_idx L symbols h1 h2 =>
    grid_walk_loop_missing c 0 pre_bin pre_h pkt fuel start_idx L symbols h1 h2, ?_⟩
  obtain ⟨chosen, hc, hres⟩ := grid_walk_loop_shape c 0 pre_bin pre_h pkt pkt.length 1
    (4 * c.d_num_samples + c.d_num_samples / 2) []
  refine ⟨chosen, hc, ?_⟩
  unfold grid_walk
  simpa using hres

theorem missing_marker_last_witness :
    1 < pkt_late_peak.length ∧
      (∀ (i : Nat) (pk : Peak), 1 ≤ i → pkt_late_peak[i]? = some pk →
        in_interval cfg7 1152 pk = false) ∧
      grid_walk_loop cfg7 0 10 1 pkt_late_peak (1 + 1) 1 1152 [] = [] ++ [0] := by
  have hno : ∀ (i : Nat) (pk : Peak), 1 ≤ i → pkt_late_peak[i]? = some pk →
      in_interval cfg7 1152 pk = false := by
    intro i pk hi hpk
    have hlt : i < pkt_late_peak.length := (List.getElem?_eq_some.1 hpk).1
    have h2 : i < 2 := hlt
    have h1 : i = 1 := by omega
    subst h1
    have e : pk = ⟨3000, 5, 1⟩ := by
      have : pkt_late_peak[1]? = some (⟨3000, 5, 1⟩ : Peak) := rfl
      rw [this] at hpk
      exact (Option.some.inj hpk).symm
    subst e
    decide
  exact ⟨by decide, hno,
    (missing_marker_last cfg7 10 1 pkt_late_peak).1 1 1 1152 [] (by decide) hno⟩

/-- The outer loop of the walk appends at most one symbol for each peak from
`start_idx` on. -/
theorem grid_walk_loop_length (c : Config) (pre_ts pre_bin : Nat) (pre_h : ℚ)
    (pkt : List Peak) :
    ∀ (fuel start_idx L : Nat) (symbols : List Nat),
      (grid_walk_loop c pre_ts pre_bin pre_h pkt fuel start_idx L symbols).length
        ≤ symbols.length + (pkt.length - start_idx) := by
  intro fuel
  induction fuel with
  | zero => intro start_idx L symbols; simp [grid_walk_loop]
  | succ fuel ih =>
    intro start_idx L symbols
    rw [grid_walk_loop]
    by_cases hstart : start_idx < pkt.length
    · rw [if_pos hstart]
      have hne : pkt.drop start_idx ≠ [] := by
        intro h
        have := congrArg List.length h
        rw [List.length_drop] at this
        simp only [List.length_nil] at this
        omega
      have hend := (scan_interval_end c L (pkt.drop start_idx) start_idx start_idx true
        false).2.2 rfl hne
      simp only
      split
      · refine le_trans (ih _ _ _) ?_
        simp only [List.length_append, List.length_singleton]
        omega
      · refine le_trans (ih _ _ _) ?_
        simp only [List.length_append, List.length_singleton]
        omega
    · rw [if_neg hstart]; omega

/-- With `pkt.length - start_idx` iterations allowed the outer loop reaches its
exit, and the vector at the exit is the result of `grid_walk_loop`. -/
theorem grid_walk_loop_exit_some (c : Config) (pre_ts pre_bin : Nat) (pre_h : ℚ)
    (pkt : List Peak) :
    ∀ (fuel start_idx L : Nat) (symbols : List Nat), pkt.length - start_idx ≤ fuel →
      grid_walk_loop_exit c pre_ts pre_bin pre_h pkt fuel start_idx L symbols
        = some (grid_walk_loop c pre_ts pre_bin pre_h pkt fuel start_idx L symbols) := by
  intro fuel
  induction fuel with
  | zero =>
    intro start_idx L symbols h
    rw [grid_walk_loop_exit, if_neg (by omega)]
    rfl
  | succ fuel ih =>
    intro start_idx L symbols h
    rw [grid_walk_loop_exit, grid_walk_loop]
    by_cases hstart : start_idx < pkt.length
    · rw [if_pos hstart, if_pos hstart]
      have hne : pkt.drop start_idx ≠ [] := by
        intro h
        have := congrArg List.length h
        rw [List.length_drop] at this
        simp only [List.length_nil] at this
        omega
      have hend := (scan_interval_end c L (pkt.drop start_idx) start_idx start_idx true
        false).2.2 rfl hne
      exact ih _ _ _ (by omega)
    · rw [if_neg hstart, if_neg hstart]

theorem length_sort_normalise (c : Config) (pre_ts : Nat) (pkt : List Peak) :
    (sort_peaks (normalise c pre_ts pkt)).length = pkt.length := by
  unfold sort_peaks normalise
  rw [List.length_insertionSort, List.length_map]

/-- C23: the walk terminates and emits at most one symbol per data peak. For
every packet the outer loop reaches its exit within `pkt.length - 1` iterations
and the vector at the exit is the symbol vector of the packet; that vector has at
most `pkt.length - 1` elements; so a packet with fewer than 8 data peaks
publishes nothing when it is finalised, and a packet that holds only its
preamble emits no symbol. -/
theorem grid_walk_terminates (c : Config) (pkt : List Peak) :
    grid_walk_loop_exit c 0 (pkt.getD 0 default).bin (pkt.getD 0 default).h
        (sort_peaks (normalise c (pkt.getD 0 default).ts pkt)) (pkt.length - 1) 1
        (4 * c.d_num_samples + c.d_num_samples / 2) [] = some (demod_packet c pkt) ∧
      (demod_packet c pkt).length ≤ pkt.length - 1 ∧
      (pkt.length - 1 < 8 → publish (demod_packet c pkt) = none ∧
        ∀ (s : State) (ps : packet_state), s.d_packet.getD ps.packet_id [] = pkt →
          (finish_packet c s ps).published = s.published) ∧
      (pkt.length = 1 → demod_packet c pkt = []) := by
  have hlen := length_sort_normalise c (pkt.getD 0 default).ts pkt
  have hle : (demod_packet c pkt).length ≤ pkt.length - 1 := by
    have := grid_walk_loop_length c 0 (pkt.getD 0 default).bin (pkt.getD 0 default).h
      (sort_peaks (normalise c (pkt.getD 0 default).ts pkt))
      (sort_peaks (normalise c (pkt.getD 0 default).ts pkt)).length 1
      (4 * c.d_num_samples + c.d_num_samples / 2) []
    rw [hlen] at this
    unfold demod_packet grid_walk
    rw [hlen]
    simpa using this
  have hpub : pkt.length - 1 < 8 → publish (demod_packet c pkt) = none := by
    intro h
    unfold publish
    rw [if_neg (by omega)]
  refine ⟨?_, hle, ?_, ?_⟩
  · rw [grid_walk_loop_exit_some c 0 _ _ _ (pkt.length - 1) 1 _ [] (by rw [hlen])]
    unfold demod_packet grid_walk
    rw [hlen]
    have hk : pkt.length = (pkt.length - 1) + (pkt.length - (pkt.length - 1)) := by omega
    have := grid_walk_loop_fuel c 0 (pkt.getD 0 default).bin (pkt.getD 0 default).h
      (sort_peaks (normalise c (pkt.getD 0 default).ts pkt)) (pkt.length - 1)
      (pkt.length - (pkt.length - 1)) 1 (4 * c.d_num_samples + c.d_num_samples / 2) []
      (by rw [hlen])
    rw [← hk] at this
    rw [this]
  · intro h
    refine ⟨hpub h, ?_⟩
    intro s ps hs
    unfold finish_packet
    simp only [hs, hpub h]
  · intro h
    have : (demod_packet c pkt).length = 0 := by omega
    exact List.length_eq_zero.1 this

theorem grid_walk_terminates_witness :
    pkt_missing4.length - 1 < 8 ∧ publish (demod_packet cfg7 pkt_missing4) = none ∧
      (demod_packet cfg7 pkt_missing4).length ≤ pkt_missing4.length - 1 ∧
      [(⟨0, 10, 1⟩ : Peak)].length = 1 ∧ demod_packet cfg7 [⟨0, 10, 1⟩] = [] :=
  ⟨by decide, ((grid_walk_terminates cfg7 pkt_missing4).2.2.1 (by decide)).1,
    (grid_walk_terminates cfg7 pkt_missing4).2.1, rfl,
    (grid_walk_terminates cfg7 [⟨0, 10, 1⟩]).2.2.2 rfl⟩

/-! ## The preamble stays the anchor -/

theorem orderedInsert_zero (z : Peak) (hz : z.ts = 0) (l : List Peak) :
    l.orderedInsert (fun a b => a.ts ≤ b.ts) z = z :: l := by
  cases l with
  | nil => rfl
  | cons b rest =>
    rw [List.orderedInsert, if_pos (by rw [hz]; exact Nat.zero_le _)]

theorem mem_sort_normalise (c : Config) (pre_ts : Nat) (data : List Peak) (q : Peak)
    (hq : q ∈ sort_peaks (normalise c pre_ts data)) :
    ∃ q0 ∈ data, q = { q0 with ts := pos_mod ((q0.ts : Int) - pre_ts) c.TIMESTAMP_MOD } := by
  have hp : (sort_peaks (normalise c pre_ts data)).Perm (normalise c pre_ts data) :=
    List.perm_insertionSort _ _
  have := hp.mem_iff.1 hq
  unfold normalise at this
  obtain ⟨q0, h0, e⟩ := List.mem_map.1 this
  exact ⟨q0, h0, e.symm⟩

/-- C24: the preamble stays the anchor. For a packet `pre :: data` whose peaks
after the first all satisfy the DATA rule of the assembler against `pre`
(`4*N < (q.ts - pre.ts) mod TIMESTAMP_MOD < TIMESTAMP_MOD/2`), normalising and
sorting leaves the preamble at index 0 with timestamp 0 and its bin and height,
followed by the sorted normalised data peaks, each with a timestamp strictly
between `4*N` and `TIMESTAMP_MOD/2`. The walk takes `pre_bin` and `pre_h` from
the preamble, and every symbol it computes from a peak is computed from one of
the data peaks. -/
theorem preamble_stays_first (c : Config) (pre : Peak) (data : List Peak)
    (hdata : ∀ q ∈ data, data_rule c pre q) :
    sort_peaks (normalise c ((pre :: data).getD 0 default).ts (pre :: data))
        = ⟨0, pre.bin, pre.h⟩ :: sort_peaks (normalise c pre.ts data) ∧
      (sort_peaks (normalise c pre.ts data)).Perm (normalise c pre.ts data) ∧
      (∀ q ∈ sort_peaks (normalise c pre.ts data),
        4 * c.d_num_samples < q.ts ∧ q.ts < c.TIMESTAMP_MOD / 2) ∧
      demod_packet c (pre :: data)
        = grid_walk c pre.bin pre.h (⟨0, pre.bin, pre.h⟩ :: sort_peaks (normalise c pre.ts data)) ∧
      ∃ chosen : List Peak,
        (∀ p ∈ chosen, p ∈ sort_peaks (normalise c pre.ts data)) ∧
        (demod_packet c (pre :: data) = chosen.map (symbol_of_peak c 0 pre.bin) ∨
          demod_packet c (pre :: data) = chosen.map (symbol_of_peak c 0 pre.bin) ++ [0]) := by
  have hsort : sort_peaks (normalise c ((pre :: data).getD 0 default).ts (pre :: data))
      = ⟨0, pre.bin, pre.h⟩ :: sort_peaks (normalise c pre.ts data) := by
    simp only [List.getD_cons_zero]
    unfold sort_peaks normalise
    simp only [List.map_cons, List.insertionSort, sub_self, pos_mod_zero_left]
    exact orderedInsert_zero _ rfl _
  have hrange : ∀ q ∈ sort_peaks (normalise c pre.ts data),
      4 * c.d_num_samples < q.ts ∧ q.ts < c.TIMESTAMP_MOD / 2 := by
    intro q hq
    obtain ⟨q0, h0, e⟩ := mem_sort_normalise c pre.ts data q hq
    rw [e]
    exact hdata q0 h0
  have hdemod : demod_packet c (pre :: data)
      = grid_walk c pre.bin pre.h
          (⟨0, pre.bin, pre.h⟩ :: sort_peaks (normalise c pre.ts data)) := by
    unfold demod_packet
    rw [hsort]
    simp only [List.getD_cons_zero]
  refine ⟨hsort, List.perm_insertionSort _ _, hrange, hdemod, ?_⟩
  obtain ⟨chosen, hc, hres⟩ := grid_walk_loop_shape c 0 pre.bin pre.h
    (⟨0, pre.bin, pre.h⟩ :: sort_peaks (normalise c pre.ts data))
    (⟨0, pre.bin, pre.h⟩ :: sort_peaks (normalise c pre.ts data)).length 1
    (4 * c.d_num_samples + c.d_num_samples / 2) []
  refine ⟨chosen, ?_, ?_⟩
  · intro p hp
    obtain ⟨k, hk⟩ := List.mem_iff_getElem?.1 hp
    obtain ⟨i, hi1, hi2, _⟩ := hc k p hk
    obtain ⟨j, rfl⟩ : ∃ j, i = j + 1 := ⟨i - 1, by omega⟩
    simp only [List.getElem?_cons_succ] at hi2
    exact mem_of_getElem?_eq_some _ j p hi2
  · rw [hdemod]
    unfold grid_walk
    simpa using hres

theorem preamble_stays_first_witness :
    (∀ q ∈ pkt_unsorted.tail, data_rule cfg7 ⟨1000, 10, 1⟩ q) ∧
      sort_peaks (normalise cfg7 (pkt_unsorted.getD 0 default).ts pkt_unsorted)
        = [⟨0, 10, 1⟩, ⟨1280, 11, 1⟩, ⟨1540, 12, 1⟩] ∧
      sort_peaks (normalise cfg7 (pkt_unsorted.getD 0 default).ts pkt_unsorted)
        = ⟨0, 10, 1⟩ :: sort_peaks (normalise cfg7 1000 pkt_unsorted.tail) := by
  have hd : ∀ q ∈ pkt_unsorted.tail, data_rule cfg7 ⟨1000, 10, 1⟩ q := by
    intro q hq
    have hq' : q ∈ [(⟨2540, 12, 1⟩ : Peak), ⟨2280, 11, 1⟩] := hq
    simp only [List.mem_cons, List.mem_singleton, List.not_mem_nil, or_false] at hq'
    rcases hq' with rfl | rfl
    · exact ⟨by decide, by decide⟩
    · exact ⟨by decide, by decide⟩
  exact ⟨hd, by decide!,
    (preamble_stays_first cfg7 ⟨1000, 10, 1⟩ pkt_unsorted.tail hd).1⟩

/-- Lines 337-381: a DATA symbol is appended to a packet only if it passes the
candidate test of line 350 against that packet. -/
theorem add_symbol_to_packet_data (c : Config) (s s' : State) (pk : Peak) (b : Bool)
    (h : add_symbol_to_packet c s pk symbol_type.SYMBOL_DATA = .ok (s', b)) :
    (b = true ∧
      ∃ (k : Nat) (ps : packet_state), s.d_packet_state_list[k]? = some ps ∧
        is_candidate c s.d_packet pk ps = true ∧
        s' = { s with
          d_packet_state_list := s.d_packet_state_list.set k ⟨ps.packet_id, (d_ttl : Int)⟩
          d_packet := push_peak s.d_packet ps.packet_id pk }) ∨
    (b = false ∧ s' = s) := by
  unfold add_symbol_to_packet at h
  simp only at h
  rcases best_packet_loop_spec c s.d_packet pk s.d_packet_state_list 0 ⟨0, 0, none, false⟩
    with ⟨hr, _⟩ | ⟨k, ps, hk, hcand, hr, _⟩
  · rw [hr] at h
    simp only [Bool.false_eq_true, if_false, Except.ok.injEq, Prod.mk.injEq] at h
    right
    exact ⟨h.2.symm, h.1.symm⟩
  · rw [hr] at h
    simp only [if_true, Except.ok.injEq, Prod.mk.injEq, Nat.zero_add] at h
    left
    refine ⟨h.2.symm, k, ps, hk, hcand, ?_⟩
    rw [← h.1]
    have hgetD : s.d_packet_state_list.getD k ⟨0, 0⟩ = ps := by
      rw [List.getD_eq_getElem?_getD, hk]; rfl
    simp only [set_ttl, hgetD]

/-- Routing a symbol keeps the DATA rule on the contents of the open packets. -/
theorem add_symbol_to_packet_tsInv (c : Config) (s s' : State) (pk : Peak)
    (st : symbol_type) (b : Bool) (hinv : AssemblerInv c s) (hts : PacketTsInv c s)
    (h : add_symbol_to_packet c s pk st = .ok (s', b)) : PacketTsInv c s' := by
  obtain ⟨hperm, hlen, hclean, hcont, _⟩ := hinv
  have hnd := nodup_of_packetIdInv s hperm
  cases st with
  | SYMBOL_PREAMBLE =>
    rcases add_symbol_to_packet_cases c s s' pk _ b h with
      ⟨_, _, id, pool, hpool, rfl⟩ | ⟨hst, _⟩ | ⟨hst, _⟩
    · have hid_mem : id ∈ s.d_packet_id_pool := by rw [hpool]; exact List.mem_cons_self _ _
      have hid := lt_of_packetIdInv_pool s hperm hlen id hid_mem
      intro q hq pre data hpd x hx
      have hq' : q ∈ s.d_packet_state_list ++ [⟨id, (d_ttl : Int)⟩] := hq
      have hpd' : (push_peak s.d_packet id pk).getD q.packet_id [] = pre :: data := hpd
      rcases List.mem_append.1 hq' with hql | hqn
      · have hne : q.packet_id ≠ id := by
          intro he
          exact (List.nodup_append.1 hnd).2.2
            (List.mem_map_of_mem (fun ps => ps.packet_id) hql) (he ▸ hid_mem)
        rw [getD_push_peak_other _ _ _ _ hne] at hpd'
        exact hts q hql pre data hpd' x hx
      · rw [List.mem_singleton.1 hqn] at hpd'
        have hpd2 : (push_peak s.d_packet id pk).getD id [] = pre :: data := hpd'
        rw [getD_push_peak_same _ _ _ hid, hclean id hid_mem] at hpd2
        simp only [List.nil_append, List.cons.injEq] at hpd2
        rw [← hpd2.2] at hx
        simp at hx
    · exact absurd hst (by simp)
    · exact absurd rfl hst
  | SYMBOL_DATA =>
    rcases add_symbol_to_packet_data c s s' pk b h with
      ⟨_, k, ps, hk, hcand, rfl⟩ | ⟨_, rfl⟩
    · have hps_mem : ps ∈ s.d_packet_state_list := mem_of_getElem?_eq_some _ k ps hk
      have hid := lt_of_packetIdInv_list s hperm hlen ps hps_mem
      intro q hq pre data hpd x hx
      have hq' : q ∈ s.d_packet_state_list.set k ⟨ps.packet_id, (d_ttl : Int)⟩ := hq
      have hpd' : (push_peak s.d_packet ps.packet_id pk).getD q.packet_id [] = pre :: data := hpd
      have hqid : q.packet_id = ps.packet_id ∨
          (q.packet_id ≠ ps.packet_id ∧ q ∈ s.d_packet_state_list) := by
        rcases mem_set_cases _ _ _ _ hq' with hqe | hql
        · left; rw [hqe]
        · by_cases he : q.packet_id = ps.packet_id
          · left; exact he
          · right; exact ⟨he, hql⟩
      rcases hqid with he | ⟨hne, hql⟩
      · rw [he, getD_push_peak_same _ _ _ hid] at hpd'
        obtain ⟨pre0, data0, e1, _, _⟩ := hcont ps hps_mem
        rw [e1] at hpd'
        simp only [List.cons_append, List.cons.injEq] at hpd'
        obtain ⟨hp, hd⟩ := hpd'
        subst hp
        rw [← hd] at hx
        rcases List.mem_append.1 hx with hx | hx
        · exact hts ps hps_mem pre0 data0 e1 x hx
        · rw [List.mem_singleton.1 hx]
          unfold is_candidate ts_dis at hcand
          rw [e1] at hcand
          simp only [List.getD_cons_zero, Bool.and_eq_true, decide_eq_true_eq, gt_iff_lt]
            at hcand
          exact hcand
      · rw [getD_push_peak_other _ _ _ _ hne] at hpd'
        exact hts q hql pre data hpd' x hx
    · exact hts
  | SYMBOL_BROKEN_DATA =>
    rcases add_symbol_to_packet_cases c s s' pk _ b h with
      ⟨hst, _⟩ | ⟨hst, _⟩ | ⟨_, _, rfl⟩
    · exact absurd hst (by simp)
    · exact absurd hst (by simp)
    · exact hts

theorem close_tracks_tsInv (c : Config) :
    ∀ (l : List bin_track_id) (s s1 : State), AssemblerInv c s → PacketTsInv c s →
      close_tracks c l s = .ok s1 → PacketTsInv c s1 := by
  intro l
  induction l with
  | nil =>
    intro s s1 _ hts h
    simp only [close_tracks, Except.ok.injEq] at h
    subst h; exact hts
  | cons bt rest ih =>
    intro s s1 hinv hts h
    rw [close_tracks] at h
    by_cases hu : bt.updated = true
    · rw [if_pos hu] at h
      exact ih s s1 hinv hts h
    · rw [if_neg hu] at h
      simp only at h
      split at h
      · exact absurd h (by simp)
      · rename_i s2 hrouted
        have hs2 : AssemblerInv c s2 ∧ PacketTsInv c s2 := by
          split at hrouted
          · split at hrouted
            · rename_i res hres
              simp only [Except.ok.injEq] at hrouted
              subst hrouted
              exact ⟨add_symbol_to_packet_inv c s res.1 _ _ res.2 hinv
                  ⟨s.d_track.getD bt.track_id [], rfl⟩ hres,
                add_symbol_to_packet_tsInv c s res.1 _ _ res.2 hinv hts hres⟩
            · exact absurd hrouted (by simp)
          · simp only [Except.ok.injEq] at hrouted
            subst hrouted
            exact ⟨hinv, hts⟩
        refine ih _ s1 ?_ ?_ h
        · exact assemblerInv_of_eq c s2 _ rfl rfl rfl hs2.1
        · exact hs2.2

theorem finish_and_age_tsInv (c : Config) (s : State) (hinv : AssemblerInv c s)
    (hts : PacketTsInv c s) :
    PacketTsInv c (age_and_advance c (finish_packets c s.d_packet_state_list s)) := by
  obtain ⟨_, _, _, f4, _⟩ := finish_packets_frame c s.d_packet_state_list s
  intro q hq pre data hpd x hx
  have hq' : q ∈ ((finish_packets c s.d_packet_state_list s).d_packet_state_list.filter
      (fun ps => !decide (ps.ttl ≤ 0))).map (fun ps => { ps with ttl := ps.ttl - 1 }) := hq
  rw [f4] at hq'
  obtain ⟨p, hp, rfl⟩ := List.mem_map.1 hq'
  obtain ⟨hpl, hpt⟩ := List.mem_filter.1 hp
  have hpos := ttl_pos_of_not_expired p hpt
  have hsame := ((finish_and_age_entry c s hinv p.packet_id p.ttl hpl).2 hpos).2
  have hpd' : (age_and_advance c (finish_packets c s.d_packet_state_list s)).d_packet.getD
      p.packet_id [] = pre :: data := hpd
  rw [hsame] at hpd'
  exact hts p hpl pre data hpd' x hx

theorem general_work_tsInv (c : Config) (ninput : Nat) (fft_res_add fft_res_add_w : Nat → ℚ)
    (s s' : State) (hinv : AssemblerInv c s) (hts : PacketTsInv c s)
    (h : general_work c ninput fft_res_add fft_res_add_w s = .ok s') : PacketTsInv c s' := by
  unfold general_work at h
  split at h
  · simp only [Except.ok.injEq] at h
    subst h; exact hts
  · split at h
    · exact absurd h (by simp)
    · rename_i s1 h1
      split at h
      · exact absurd h (by simp)
      · rename_i s2 h2
        simp only [Except.ok.injEq] at h
        subst h
        obtain ⟨a1, a2, a3, _⟩ := find_and_add_peak_loop_packets c _ _ _ s s1 h1
        have i1 := assemblerInv_of_eq c s s1 a1 a2 a3 hinv
        have t1 : PacketTsInv c s1 := by
          unfold PacketTsInv
          rw [a1, a3]; exact hts
        have i2 := check_and_update_track_inv c s1 s2 i1 h2
        have t2 : PacketTsInv c s2 := by
          unfold check_and_update_track at h2
          split at h2
          · exact absurd h2 (by simp)
          · rename_i s3 h3
            simp only [Except.ok.injEq] at h2
            subst h2
            exact close_tracks_tsInv c _ s1 s3 i1 t1 h3
        exact finish_and_age_tsInv c s2 i2 t2

/-- In every reachable state each open packet is its first peak followed by
peaks that satisfy the DATA rule against it. -/
theorem reachable_packetTsInv (c : Config) (s : State) (h : Reachable c s) :
    ∀ ps ∈ s.d_packet_state_list, ∃ (pre : Peak) (data : List Peak),
      s.d_packet.getD ps.packet_id [] = pre :: data ∧ ∀ q ∈ data, data_rule c pre q := by
  have hts : PacketTsInv c s := by
    induction h with
    | init =>
      intro ps hps
      simp [init] at hps
    | step s s' ninput m mw hr hstep ih =>
      exact general_work_tsInv c ninput m mw s s' (reachable_assemblerInv c s hr).1 ih hstep
  intro ps hps
  obtain ⟨pre, data, e, _, _⟩ := (reachable_assemblerInv c s h).1.2.2.2.1 ps hps
  exact ⟨pre, data, e, hts ps hps pre data e⟩

/-! ## Index safety of the classifier -/

theorem getElem?_eq_getD_peak (track : List Peak) (i : Nat) (h : i < track.length) :
    track[i]? = some (track.getD i default) := by
  rw [List.getD_eq_getElem?_getD, List.getElem?_eq_getElem h]; rfl

theorem height_sum_checked_eq (track : List Peak) :
    ∀ (idxs : List Nat) (sum : ℚ), (∀ i ∈ idxs, i < track.length) →
      height_sum_checked track idxs sum = some (height_sum track idxs sum) := by
  intro idxs
  induction idxs with
  | nil => intro sum _; rfl
  | cons i rest ih =>
    intro sum h
    rw [height_sum_checked, getElem?_eq_getD_peak track i (h i (List.mem_cons_self _ _))]
    simp only
    rw [height_sum]
    exact ih _ (fun j hj => h j (List.mem_cons_of_mem _ hj))

theorem apex_loop_checked_eq (track : List Peak) :
    ∀ (idxs : List Nat) (acc : ℚ × Nat), (∀ i ∈ idxs, i < track.length) →
      apex_loop_checked track idxs acc = some (apex_loop track idxs acc) := by
  intro idxs
  induction idxs with
  | nil => intro acc _; rfl
  | cons i rest ih =>
    intro acc h
    rw [apex_loop_checked, getElem?_eq_getD_peak track i (h i (List.mem_cons_self _ _))]
    simp only
    rw [apex_loop]
    split
    · exact ih _ (fun j hj => h j (List.mem_cons_of_mem _ hj))
    · exact ih _ (fun j hj => h j (List.mem_cons_of_mem _ hj))

/-- Every access of the classifier to the observations of a track is in range:
with the accesses checked it returns the result of `get_central_peak`. -/
theorem get_central_peak_checked_eq (c : Config) (track : List Peak) :
    get_central_peak_checked c track = some (get_central_peak c track) := by
  have hle : track.length % 65536 ≤ track.length := Nat.mod_le _ _
  unfold get_central_peak_checked get_central_peak
  simp only
  by_cases h1 : track.length % 65536 ≥ d_overlaps * (d_num_preamble - 1) + 2
  · rw [if_pos h1, if_pos h1]
    have h1' : track.length % 65536 ≥ 82 := h1
    have hlt : track.length % 65536 < 65536 := Nat.mod_lt _ (by decide)
    have hl : preamble_l_idx (track.length % 65536) < track.length := by
      unfold preamble_l_idx d_overlaps d_num_preamble
      have : (track.length % 65536 / 2 - 16 * (6 - 1) / 2) % 65536
          = track.length % 65536 / 2 - 40 := Nat.mod_eq_of_lt (by omega)
      omega
    have hr : preamble_r_idx (track.length % 65536) < track.length := by
      unfold preamble_r_idx d_overlaps d_num_preamble
      have : ((track.length % 65536 - 1) / 2 + 16 * (6 - 1) / 2) % 65536
          = (track.length % 65536 - 1) / 2 + 40 := Nat.mod_eq_of_lt (by omega)
      omega
    have hs := height_sum_checked_eq track
      (List.range' (d_overlaps * 2) (d_overlaps * (d_num_preamble - 2) - d_overlaps * 2)) 0
      (by
        intro i hi
        rw [List.mem_range'_1] at hi
        simp only [d_overlaps, d_num_preamble] at hi
        omega)
    rw [getElem?_eq_getD_peak track _ hl, getElem?_eq_getD_peak track _ hr]
    simp only [hs]
    unfold preamble_l_idx preamble_r_idx
    split <;> rfl
  · rw [if_neg h1, if_neg h1]
    by_cases h2 : track.length % 65536 ≥ 2 ∧ track.length % 65536 ≤ 2 * d_overlaps
    · rw [if_pos h2, if_pos h2]
      have h0 : 0 < track.length := by omega
      have ha := apex_loop_checked_eq track (List.range' 1 (track.length % 65536 - 1))
        ((track.getD 0 default).h, 0)
        (by
          intro i hi
          rw [List.mem_range'_1] at hi
          omega)
      obtain ⟨_, a2, _, _⟩ := apex_loop_spec track (track.length % 65536 - 1) 1 0 (by omega)
      have hidx : (apex_loop track (List.range' 1 (track.length % 65536 - 1))
          ((track.getD 0 default).h, 0)).2 < track.length := by
        rcases a2 with a2 | a2
        · omega
        · omega
      rw [getElem?_eq_getD_peak track 0 h0]
      simp only [ha, getElem?_eq_getD_peak track _ hidx]
    · rw [if_neg h2, if_neg h2]

/-- C25: index safety of the classifier. For every track the classifier, with
each access to an observation checked against the size of the track, returns
the result of `get_central_peak`: no access is out of range, on the PREAMBLE
branch and on the DATA branch alike. The PREAMBLE threshold is
`d_overlaps*(d_num_preamble-1)+2 = 82`; for a track of `L >= 82` observations
`L/2 - 40 <= (L-1)/2 + 40 <= L - 1` and the indices `32, ..., 63` of the height
average are below `L`; for `L < 65536` the indices computed in lines 268-269
are `L/2 - 40` and `(L-1)/2 + 40`. -/
theorem classifier_index_safety (c : Config) (track : List Peak) :
    get_central_peak_checked c track = some (get_central_peak c track) ∧
    d_overlaps * (d_num_preamble - 1) + 2 = 82 ∧
    (82 ≤ track.length →
      track.length / 2 - 40 ≤ (track.length - 1) / 2 + 40 ∧
      (track.length - 1) / 2 + 40 ≤ track.length - 1 ∧
      (∀ i ∈ List.range' (d_overlaps * 2)
          (d_overlaps * (d_num_preamble - 2) - d_overlaps * 2),
        32 ≤ i ∧ i < 64 ∧ i < track.length) ∧
      (track.length < 65536 →
        preamble_l_idx (track.length % 65536) = track.length / 2 - 40 ∧
        preamble_r_idx (track.length % 65536) = (track.length - 1) / 2 + 40)) := by
  refine ⟨get_central_peak_checked_eq c track, by decide, ?_⟩
  intro h
  refine ⟨by omega, by omega, ?_, ?_⟩
  · intro i hi
    rw [List.mem_range'_1] at hi
    simp only [d_overlaps, d_num_preamble] at hi
    omega
  · intro hlt
    have hmod : track.length % 65536 = track.length := Nat.mod_eq_of_lt hlt
    rw [hmod]
    unfold preamble_l_idx preamble_r_idx d_overlaps d_num_preamble
    constructor
    · have : (track.length / 2 - 16 * (6 - 1) / 2) % 65536 = track.length / 2 - 40 :=
        Nat.mod_eq_of_lt (by omega)
      exact this
    · have : ((track.length - 1) / 2 + 16 * (6 - 1) / 2) % 65536 = (track.length - 1) / 2 + 40 :=
        Nat.mod_eq_of_lt (by omega)
      exact this

theorem classifier_index_safety_witness :
    82 ≤ track82.length ∧ track82.length < 65536 ∧
      get_central_peak_checked cfg7 track82 = some (get_central_peak cfg7 track82) ∧
      preamble_l_idx (track82.length % 65536) = track82.length / 2 - 40 ∧
      preamble_r_idx (track82.length % 65536) = (track82.length - 1) / 2 + 40 ∧
      (track82.length - 1) / 2 + 40 ≤ track82.length - 1 :=
  ⟨by decide, by decide, (classifier_index_safety cfg7 track82).1,
    (((classifier_index_safety cfg7 track82).2.2 (by decide)).2.2.2 (by decide)).1,
    (((classifier_index_safety cfg7 track82).2.2 (by decide)).2.2.2 (by decide)).2,
    ((classifier_index_safety cfg7 track82).2.2 (by decide)).2.1⟩

/-! ## Index safety of the spectrum fold -/

theorem add_32f_some (a b : List ℚ) (sb : Nat) :
    ∀ (idxs : List Nat), (∀ i ∈ idxs, i < a.length ∧ sb + i < b.length) →
      add_32f a b sb idxs = some (idxs.map (fun i => a.getD i 0 + b.getD (sb + i) 0)) := by
  intro idxs
  induction idxs with
  | nil => intro _; rfl
  | cons i rest ih =>
    intro h
    obtain ⟨h1, h2⟩ := h i (List.mem_cons_self _ _)
    have e1 : a[i]? = some (a.getD i 0) := by
      rw [List.getD_eq_getElem?_getD, List.getElem?_eq_getElem h1]; rfl
    have e2 : b[sb + i]? = some (b.getD (sb + i) 0) := by
      rw [List.getD_eq_getElem?_getD, List.getElem?_eq_getElem h2]; rfl
    rw [add_32f, e1, e2, ih (fun j hj => h j (List.mem_cons_of_mem _ hj))]
    rfl

theorem add_32f_none (a b : List ℚ) (sb : Nat) :
    ∀ (idxs : List Nat), (∃ i ∈ idxs, ¬ (i < a.length ∧ sb + i < b.length)) →
      add_32f a b sb idxs = none := by
  intro idxs
  induction idxs with
  | nil => intro ⟨i, hi, _⟩; simp at hi
  | cons i rest ih =>
    intro ⟨j, hj, hbad⟩
    rw [add_32f]
    rcases List.mem_cons.1 hj with hj | hj
    · subst hj
      by_cases h1 : j < a.length
      · have h2 : ¬ sb + j < b.length := fun h2 => hbad ⟨h1, h2⟩
        rw [List.getElem?_eq_none (by omega : b.length ≤ sb + j)]
        split <;> simp_all
      · rw [List.getElem?_eq_none (by omega : a.length ≤ j)]
    · rw [ih ⟨j, hj, hbad⟩]
      split <;> simp_all

theorem d_fft_size_eq (c : Config) : c.d_fft_size = c.p * c.d_bin_size := by
  unfold Config.d_fft_size Config.d_num_samples Config.d_bin_size
  ring

theorem u32_of_nat (x : Int) (h0 : 0 ≤ x) (h1 : x < 4294967296) : (u32 x : Int) = x := by
  unfold u32
  rw [Int.emod_eq_of_lt h0 h1, Int.toNat_of_nonneg h0]

theorem getD_map_range (f : Nat → ℚ) (n i : Nat) (h : i < n) :
    ((List.range n).map f).getD i 0 = f i := by
  rw [List.getD_eq_getElem?_getD, List.getElem?_map, List.getElem?_range h]
  rfl

/-- With `p >= 2` every read of the fold is in range, and bin `i` of the result
is the sum of the four magnitudes `i`, `B + i`, `FFT - 2B + i`, `FFT - B + i`. -/
theorem fold_some (c : Config) (hp : 2 ≤ c.p) (h32 : c.d_fft_size < 4294967296)
    (mag : List ℚ) (hmag : mag.length = c.d_fft_size) :
    fold c mag = some ((List.range c.d_bin_size).map (fun i =>
      mag.getD i 0 + mag.getD (c.d_bin_size + i) 0
        + mag.getD (c.d_fft_size - 2 * c.d_bin_size + i) 0
        + mag.getD (c.d_fft_size - c.d_bin_size + i) 0)) := by
  have hFFT := d_fft_size_eq c
  have h2B : 2 * c.d_bin_size ≤ c.d_fft_size := by
    rw [hFFT]; exact Nat.mul_le_mul_right _ hp
  have e3 : u32 ((c.d_fft_size : Int) - 2 * c.d_bin_size) = c.d_fft_size - 2 * c.d_bin_size := by
    have := u32_of_nat ((c.d_fft_size : Int) - 2 * c.d_bin_size) (by omega) (by omega)
    omega
  have e4 : u32 ((c.d_fft_size : Int) - c.d_bin_size) = c.d_fft_size - c.d_bin_size := by
    have := u32_of_nat ((c.d_fft_size : Int) - c.d_bin_size) (by omega) (by omega)
    omega
  have s1 := add_32f_some mag mag c.d_bin_size (List.range c.d_bin_size)
    (by intro i hi; rw [List.mem_range] at hi; omega)
  have s2 := add_32f_some
    ((List.range c.d_bin_size).map (fun i => mag.getD i 0 + mag.getD (c.d_bin_size + i) 0))
    mag (c.d_fft_size - 2 * c.d_bin_size) (List.range c.d_bin_size)
    (by
      intro i hi
      rw [List.mem_range] at hi
      rw [List.length_map, List.length_range]
      omega)
  have m2 : (List.range c.d_bin_size).map (fun i =>
        ((List.range c.d_bin_size).map
          (fun i => mag.getD i 0 + mag.getD (c.d_bin_size + i) 0)).getD i 0
          + mag.getD (c.d_fft_size - 2 * c.d_bin_size + i) 0)
      = (List.range c.d_bin_size).map (fun i =>
        mag.getD i 0 + mag.getD (c.d_bin_size + i) 0
          + mag.getD (c.d_fft_size - 2 * c.d_bin_size + i) 0) := by
    apply List.map_congr_left
    intro i hi
    rw [List.mem_range] at hi
    rw [getD_map_range _ _ _ hi]
  rw [m2] at s2
  have s3 := add_32f_some
    ((List.range c.d_bin_size).map (fun i =>
      mag.getD i 0 + mag.getD (c.d_bin_size + i) 0
        + mag.getD (c.d_fft_size - 2 * c.d_bin_size + i) 0))
    mag (c.d_fft_size - c.d_bin_size) (List.range c.d_bin_size)
    (by
      intro i hi
      rw [List.mem_range] at hi
      rw [List.length_map, List.length_range]
      omega)
  have m3 : (List.range c.d_bin_size).map (fun i =>
        ((List.range c.d_bin_size).map (fun i =>
          mag.getD i 0 + mag.getD (c.d_bin_size + i) 0
            + mag.getD (c.d_fft_size - 2 * c.d_bin_size + i) 0)).getD i 0
          + mag.getD (c.d_fft_size - c.d_bin_size + i) 0)
      = (List.range c.d_bin_size).map (fun i =>
        mag.getD i 0 + mag.getD (c.d_bin_size + i) 0
          + mag.getD (c.d_fft_size - 2 * c.d_bin_size + i) 0
          + mag.getD (c.d_fft_size - c.d_bin_size + i) 0) := by
    apply List.map_congr_left
    intro i hi
    rw [List.mem_range] at hi
    rw [getD_map_range _ _ _ hi]
  rw [m3] at s3
  unfold fold
  rw [s1]
  simp only
  rw [e3, s2]
  simp only
  rw [e4, s3]

/-- With `p < 2` the first addition of the fold already reads out of range. -/
theorem fold_none (c : Config) (hF : 1 ≤ c.fft_factor) (hp : c.p < 2)
    (mag : List ℚ) (hmag : mag.length = c.d_fft_size) : fold c mag = none := by
  have hFFT := d_fft_size_eq c
  have hB := d_bin_size_pos c hF
  have hle : c.d_fft_size ≤ c.d_bin_size := by
    rw [hFFT]
    calc c.p * c.d_bin_size ≤ 1 * c.d_bin_size := Nat.mul_le_mul_right _ (by omega)
      _ = c.d_bin_size := Nat.one_mul _
  have s1 := add_32f_none mag mag c.d_bin_size (List.range c.d_bin_size)
    ⟨0, List.mem_range.2 hB, by omega⟩
  unfold fold
  rw [s1]

/-- C26: index safety of the spectrum fold. With `FFT = F*p*M` and `B = F*M`
(`F >= 1`, `M = 2^sf`) the four slices starting at `0`, `B`, `FFT - 2B` and
`FFT - B` all lie inside the `FFT` magnitudes iff `p >= 2`; so, on a buffer of
`FFT` magnitudes, every read of the fold is in range iff `p >= 2`, and then bin
`i` is the sum of the magnitudes `i`, `B+i`, `FFT-2B+i`, `FFT-B+i`. For `p = 1`
the slice starting at `B` ends behind the buffer, `FFT - 2B` is negative and the
fold reads out of range. -/
theorem fold_index_safety (c : Config) (hF : 1 ≤ c.fft_factor)
    (h32 : c.d_fft_size < 4294967296) (mag : List ℚ) (hmag : mag.length = c.d_fft_size) :
    c.d_fft_size = c.fft_factor * c.p * 2 ^ c.sf ∧ c.d_bin_size = c.fft_factor * 2 ^ c.sf ∧
    ((∀ o ∈ fold_offsets c, slice_inside c o) ↔ 2 ≤ c.p) ∧
    ((fold c mag).isSome = true ↔ 2 ≤ c.p) ∧
    (2 ≤ c.p → fold c mag = some ((List.range c.d_bin_size).map (fun i =>
      mag.getD i 0 + mag.getD (c.d_bin_size + i) 0
        + mag.getD (c.d_fft_size - 2 * c.d_bin_size + i) 0
        + mag.getD (c.d_fft_size - c.d_bin_size + i) 0))) ∧
    (c.p = 1 → ¬ slice_inside c (c.d_bin_size : Int) ∧
      (c.d_fft_size : Int) - 2 * c.d_bin_size < 0 ∧ fold c mag = none) := by
  have hFFT := d_fft_size_eq c
  have hB := d_bin_size_pos c hF
  have hsmall : c.p < 2 → c.d_fft_size ≤ c.d_bin_size := by
    intro hp
    rw [hFFT]
    calc c.p * c.d_bin_size ≤ 1 * c.d_bin_size := Nat.mul_le_mul_right _ (by omega)
      _ = c.d_bin_size := Nat.one_mul _
  have hbig : 2 ≤ c.p → 2 * c.d_bin_size ≤ c.d_fft_size := by
    intro hp
    rw [hFFT]; exact Nat.mul_le_mul_right _ hp
  refine ⟨?_, rfl, ?_, ?_, fun hp => fold_some c hp h32 mag hmag, ?_⟩
  · unfold Config.d_fft_size Config.d_num_samples Config.d_num_symbols
    ring
  · constructor
    · intro h
      by_contra hp
      have := hsmall (by omega)
      have h2 := h (c.d_bin_size : Int) (by simp [fold_offsets])
      unfold slice_inside at h2
      omega
    · intro hp o ho
      have := hbig hp
      simp only [fold_offsets, List.mem_cons, List.mem_singleton, List.not_mem_nil,
        or_false] at ho
      unfold slice_inside
      rcases ho with rfl | rfl | rfl | rfl <;> omega
  · constructor
    · intro h
      by_contra hp
      rw [fold_none c hF (by omega) mag hmag] at h
      simp at h
    · intro hp
      rw [fold_some c hp h32 mag hmag]
      rfl
  · intro hp
    have := hsmall (by omega)
    refine ⟨?_, by omega, fold_none c hF (by omega) mag hmag⟩
    unfold slice_inside
    omega

theorem fold_index_safety_witness :
    1 ≤ cfg_small.fft_factor ∧ cfg_small.d_fft_size < 4294967296 ∧
      ([1, 2, 3, 4] : List ℚ).length = cfg_small.d_fft_size ∧
      ((fold cfg_small [1, 2, 3, 4]).isSome = true ↔ 2 ≤ cfg_small.p) ∧
      (∀ o ∈ fold_offsets cfg_small, slice_inside cfg_small o) ∧
      fold cfg_small [1, 2, 3, 4] = some [8, 12] :=
  ⟨by decide, by decide, by decide,
    (fold_index_safety cfg_small (by decide) (by decide) [1, 2, 3, 4] (by decide)).2.2.2.1,
    (fold_index_safety cfg_small (by decide) (by decide) [1, 2, 3, 4] (by decide)).2.2.1.2
      (by decide),
    by decide!⟩

/-- C3, divergence: at SF 12 with `fft_factor = 32` and `p = 16` the product
`(t mod N) * B` of line 665 exceeds 32 bits. For the preamble bin 10, the symbol
`s = 5` and a peak at `t = 4*N + 36864` with bin `(pre_bin + F*s + (t mod N)*B/N)
mod B = 73898`, the emitter computes the shift 8192 instead of 73728 and yields
the symbol 2053, not 5; the walk over the packet emits `[2053]`. -/
theorem symbol_of_peak_overflow :
    (7 ≤ cfg_wide.sf ∧ cfg_wide.sf ≤ 12) ∧ 1 ≤ cfg_wide.fft_factor ∧ 1 ≤ cfg_wide.p ∧
    5 < cfg_wide.d_num_symbols ∧ 10 < cfg_wide.d_bin_size ∧
    (10 + cfg_wide.fft_factor * 5
      + (299008 % cfg_wide.d_num_samples) * cfg_wide.d_bin_size / cfg_wide.d_num_samples)
        % cfg_wide.d_bin_size = 73898 ∧
    (299008 % cfg_wide.d_num_samples) * cfg_wide.d_bin_size = 4831838208 ∧
    symbol_of_peak cfg_wide 0 10 ⟨299008, 73898, 1⟩ = 2053 ∧
    demod_packet cfg_wide pkt_wide = [2053] := by
  refine ⟨by decide, by decide, by decide, by decide, by decide, by decide, by decide, ?_, ?_⟩
  · decide!
  · decide!

/-- C16, counterexample: in `pkt_exact_tie` both data peaks lie in grid interval
0 and have the same exact distance `5/6`, so the earliest minimiser of the exact
`d` is the peak at timestamp 1216 (symbol 42). Computed in `float` the distances
are `6990507/8388608` and `13981013/16777216`, the second is smaller, and the
walk emits the symbol 20 of the peak at timestamp 1280. -/
theorem best_of_interval_exact_tie :
    in_interval cfg7 1152 ⟨1216, 20, 4⟩ = true ∧
    in_interval cfg7 1152 ⟨1280, 30, 11 / 2⟩ = true ∧
    peak_dis_exact cfg7 3 ⟨1216, 20, 4⟩ = 5 / 6 ∧
    peak_dis_exact cfg7 3 ⟨1280, 30, 11 / 2⟩ = 5 / 6 ∧
    peak_dis cfg7 0 3 ⟨1216, 20, 4⟩ = XFloat.fin (6990507 / 8388608) ∧
    peak_dis cfg7 0 3 ⟨1280, 30, 11 / 2⟩ = XFloat.fin (13981013 / 16777216) ∧
    symbol_of_peak cfg7 0 10 ⟨1216, 20, 4⟩ = 42 ∧
    symbol_of_peak cfg7 0 10 ⟨1280, 30, 11 / 2⟩ = 20 ∧
    demod_packet cfg7 pkt_exact_tie = [20] := by
  refine ⟨by decide!, by decide!, by decide!, by decide!, by decide!, by decide!, by decide!,
    by decide!, by decide!⟩

theorem finish_packets_alive (c : Config) :
    ∀ (l : List packet_state) (s : State), (∀ ps ∈ l, 0 < ps.ttl) →
      finish_packets c l s = s := by
  intro l
  induction l with
  | nil => intro s _; rfl
  | cons ps rest ih =>
    intro s h
    have hps : ¬ ps.ttl ≤ 0 := not_le.2 (h ps (List.mem_cons_self _ _))
    rw [finish_packets, if_neg hps]
    exact ih s (fun q hq => h q (List.mem_cons_of_mem _ hq))

theorem forty_open_step (g : Nat) (pool_after : List Nat) :
    general_work_ub cfg7 g pool_after 1024 spectrum_quiet spectrum_quiet st_forty_open
      = .ok (st_forty_one g pool_after) := by
  have h1 : find_and_add_peak cfg7 spectrum_quiet spectrum_quiet st_forty_open
      = .ok st_forty_open := ok_of_toOption _ _ (by decide!)
  have h2 : get_central_peak cfg7 (st_forty_open.d_track.getD 0 [])
      = (symbol_type.SYMBOL_PREAMBLE, ⟨2672, 29, 1⟩) := by decide!
  have h3 : add_symbol_to_packet cfg7 st_forty_open ⟨2672, 29, 1⟩ symbol_type.SYMBOL_PREAMBLE
      = .error Fault.undefined_front := rfl
  have h4 : ¬ (1024 < 4 * cfg7.d_num_samples) := by decide
  have h5 : check_and_update_track_ub cfg7 g pool_after st_forty_open
      = { st_forty_open with
          d_track := init.d_track
          d_bin_track_id_list := []
          d_track_id_pool := (List.range track_size).drop 1 ++ [0]
          d_packet_id_pool := pool_after
          d_packet := push_peak st_forty_open.d_packet g ⟨2672, 29, 1⟩
          d_packet_state_list := st_forty_open.d_packet_state_list ++ [⟨g, (d_ttl : Int)⟩] } := by
    unfold check_and_update_track_ub
    have e : st_forty_open.d_bin_track_id_list = [⟨5, 0, false⟩] := rfl
    rw [e]
    simp only [close_tracks_ub, Bool.false_eq_true, if_false]
    rw [h2]
    simp only [true_or, if_true, add_symbol_to_packet_ub, h3]
    have e1 : st_forty_open.d_track.set 0 [] = init.d_track := by decide!
    have e2 : st_forty_open.d_track_id_pool = (List.range track_size).drop 1 := rfl
    rw [e1, e, e2]
    rfl
  unfold general_work_ub
  rw [if_neg h4, h1]
  simp only [h5]
  have halive : ∀ ps ∈ st_forty_open.d_packet_state_list ++ [⟨g, (d_ttl : Int)⟩],
      0 < ps.ttl := by
    intro ps hps
    rcases List.mem_append.1 hps with h | h
    · exact (show ∀ q ∈ st_forty_open.d_packet_state_list, 0 < q.ttl by decide!) ps h
    · rw [List.mem_singleton.1 h]
      show (0 : Int) < (d_ttl : Int)
      decide
  rw [finish_packets_alive cfg7 _ _ halive]
  have e3 : (st_forty_open.d_packet_state_list.filter (fun ps => !decide (ps.ttl ≤ 0))).map
      (fun ps => { ps with ttl := ps.ttl - 1 })
        = (List.range packet_id_size).map (fun j => ⟨j, 12⟩) := by decide!
  have e4 : pos_mod ((st_forty_open.d_ts_ref : Int) + (cfg7.d_num_samples / d_overlaps : Nat))
      cfg7.TIMESTAMP_MOD = 2656 := by decide!
  have e5 : pos_mod ((st_forty_open.d_bin_ref : Int) + (cfg7.d_bin_size / d_overlaps : Nat))
      cfg7.d_bin_size = 48 := by decide!
  have e6 : ([(⟨g, (d_ttl : Int)⟩ : packet_state)].filter (fun ps => !decide (ps.ttl ≤ 0))).map
      (fun ps => { ps with ttl := ps.ttl - 1 }) = [⟨g, 95⟩] := by
    have : ¬ ((d_ttl : Int) ≤ 0) := by decide
    simp only [List.filter, this, decide_False, Bool.not_false, List.map]
    rfl
  unfold age_and_advance
  simp only [List.filter_append, List.map_append, e3, e4, e5, e6]
  rfl

theorem add_symbol_to_packet_ub_ok (c : Config) (g : Nat) (pool_after : List Nat) (s : State)
    (pk : Peak) (st : symbol_type) (res : State × Bool)
    (h : add_symbol_to_packet c s pk st = .ok res) :
    add_symbol_to_packet_ub c g pool_after s pk st = res := by
  unfold add_symbol_to_packet_ub
  rw [h]

theorem close_tracks_ub_ok (c : Config) (g : Nat) (pool_after : List Nat) :
    ∀ (l : List bin_track_id) (s s' : State), close_tracks c l s = .ok s' →
      close_tracks_ub c g pool_after l s = s' := by
  intro l
  induction l with
  | nil =>
    intro s s' h
    simp only [close_tracks, Except.ok.injEq] at h
    simp only [close_tracks_ub, h]
  | cons bt rest ih =>
    intro s s' h
    rw [close_tracks] at h
    rw [close_tracks_ub]
    by_cases hu : bt.updated = true
    · rw [if_pos hu] at h ⊢
      exact ih s s' h
    · rw [if_neg hu] at h ⊢
      simp only at h ⊢
      by_cases hst : (get_central_peak c (s.d_track.getD bt.track_id [])).1
          = symbol_type.SYMBOL_PREAMBLE ∨
          (get_central_peak c (s.d_track.getD bt.track_id [])).1 = symbol_type.SYMBOL_DATA
      · rw [if_pos hst] at h ⊢
        cases hadd : add_symbol_to_packet c s
            (get_central_peak c (s.d_track.getD bt.track_id [])).2
            (get_central_peak c (s.d_track.getD bt.track_id [])).1 with
        | error e =>
          rw [hadd] at h
          simp at h
        | ok res =>
          rw [hadd] at h
          rw [add_symbol_to_packet_ub_ok c g pool_after s _ _ res hadd]
          exact ih _ s' h
      · rw [if_neg hst] at h ⊢
        exact ih _ s' h

theorem general_work_ub_ok (c : Config) (g : Nat) (pool_after : List Nat) (ninput : Nat)
    (m mw : Nat → ℚ) (s s' : State) (h : general_work c ninput m mw s = .ok s') :
    general_work_ub c g pool_after ninput m mw s = .ok s' := by
  unfold general_work at h
  unfold general_work_ub
  by_cases hn : ninput < 4 * c.d_num_samples
  · rw [if_pos hn] at h ⊢
    exact h
  · rw [if_neg hn] at h ⊢
    cases hf : find_and_add_peak c m mw s with
    | error e =>
      rw [hf] at h
      simp at h
    | ok s1 =>
      rw [hf] at h
      simp only at h ⊢
      unfold check_and_update_track at h
      cases hc : close_tracks c s1.d_bin_track_id_list s1 with
      | error e =>
        rw [hc] at h
        simp at h
      | ok s2 =>
        rw [hc] at h
        simp only at h
        unfold check_and_update_track_ub
        rw [close_tracks_ub_ok c g pool_after _ s1 s2 hc]
        exact h

theorem undefined_front_of_check {α : Type} (x : Except Fault α)
    (h : (match x with
      | .error Fault.undefined_front => true
      | _ => false) = true) : x = .error Fault.undefined_front := by
  cases x with
  | ok a => simp at h
  | error e =>
    cases e with
    | exhausted => simp at h
    | undefined_front => rfl

theorem forty_open_fault :
    general_work cfg7 1024 spectrum_quiet spectrum_quiet st_forty_open
      = .error Fault.undefined_front :=
  undefined_front_of_check _ (by decide!)

theorem forty_open_packets :
    ∀ g, g < packet_id_size → st_forty_open.d_packet.getD g [] = [⟨1344, 3 * g, 1⟩] := by
  decide!

theorem forty_one_packet_low (g : Nat) (pool_after : List Nat) (hg : g < packet_id_size) :
    (st_forty_one g pool_after).d_packet.getD g [] = [⟨1344, 3 * g, 1⟩, ⟨2672, 29, 1⟩] := by
  show (push_peak st_forty_open.d_packet g ⟨2672, 29, 1⟩).getD g [] = _
  rw [getD_push_peak_same _ _ _ (show g < st_forty_open.d_packet.length from hg),
    forty_open_packets g hg]
  rfl

theorem forty_one_packet_high (g : Nat) (pool_after : List Nat) (hg : packet_id_size ≤ g) :
    (st_forty_one g pool_after).d_packet.getD g [] = [] := by
  show (push_peak st_forty_open.d_packet g ⟨2672, 29, 1⟩).getD g [] = _
  unfold push_peak
  rw [List.getD_eq_default]
  rw [List.length_set]
  exact hg

/-- C10, divergence: the count of open packets and free ids does not survive
the step in which a PREAMBLE symbol meets the empty pool. In `st_forty_open` the
count is 40 (forty packet states, no free id) and a track of 82 observations is
about to close. The embedding stops the quiet step at the read of line 328; the
program goes on (lines 328-334), and whatever value `g` the read yields and
whatever deque `pool_after` the `pop_front()` leaves, the step ends with 41
packet states, so that the count exceeds 40. On every step that returns in the
embedding the continued step gives the same state. -/
theorem packet_id_pool_overrun (g : Nat) (pool_after : List Nat) :
    st_forty_open.d_packet_state_list.length + st_forty_open.d_packet_id_pool.length
        = packet_id_size ∧
      st_forty_open.d_packet_id_pool = [] ∧
      general_work cfg7 1024 spectrum_quiet spectrum_quiet st_forty_open
        = .error Fault.undefined_front ∧
      (∀ (c : Config) (ninput : Nat) (m mw : Nat → ℚ) (s s' : State),
        general_work c ninput m mw s = .ok s' →
        general_work_ub c g pool_after ninput m mw s = .ok s') ∧
      ∃ s', general_work_ub cfg7 g pool_after 1024 spectrum_quiet spectrum_quiet st_forty_open
          = .ok s' ∧
        s'.d_packet_state_list.length = 41 ∧
        s'.d_packet_id_pool = pool_after ∧
        s'.d_packet_state_list.length + s'.d_packet_id_pool.length ≠ packet_id_size := by
  refine ⟨by decide, rfl, forty_open_fault,
    fun c ninput m mw s s' h => general_work_ub_ok c g pool_after ninput m mw s s' h,
    st_forty_one g pool_after, forty_open_step g pool_after, ?_, rfl, ?_⟩
  · show ((List.range packet_id_size).map (fun j => (⟨j, 12⟩ : packet_state))
      ++ [(⟨g, 95⟩ : packet_state)]).length = 41
    simp [packet_id_size]
  · show ((List.range packet_id_size).map (fun j => (⟨j, 12⟩ : packet_state))
      ++ [(⟨g, 95⟩ : packet_state)]).length + pool_after.length ≠ packet_id_size
    simp only [List.length_append, List.length_map, List.length_range, List.length_singleton,
      packet_id_size]
    omega

/-- C11, divergence: after the step in which a PREAMBLE symbol meets the empty
pool, an open packet does not start with the peak it was created with. In
`st_forty_open` every packet state has `0 <= ttl <= 96` and its packet is its
preamble peak alone; the quiet step closes the track as PREAMBLE with the peak
`(2672, 29, 1)`. Whatever value `g` the read of line 328 yields, the step ends
with the packet state `(g, 95)` created for that peak, but `d_packet[g]` does not
start with it: for `g < 40` it is the preamble peak of the older packet `g`
(still open, `ttl = 12`) followed by the new peak, which was added as PREAMBLE,
not DATA; for `g >= 40` the write is outside `d_packet` and no peak is stored. -/
theorem ttl_first_peak_overrun (g : Nat) (pool_after : List Nat) :
    (∀ ps ∈ st_forty_open.d_packet_state_list, 0 ≤ ps.ttl ∧ ps.ttl ≤ (d_ttl : Int) ∧
      st_forty_open.d_packet.getD ps.packet_id [] = [⟨1344, 3 * ps.packet_id, 1⟩]) ∧
      get_central_peak cfg7 (st_forty_open.d_track.getD 0 [])
        = (symbol_type.SYMBOL_PREAMBLE, ⟨2672, 29, 1⟩) ∧
      ∃ s', general_work_ub cfg7 g pool_after 1024 spectrum_quiet spectrum_quiet st_forty_open
          = .ok s' ∧
        (⟨g, 95⟩ : packet_state) ∈ s'.d_packet_state_list ∧
        (s'.d_packet.getD g []).head? ≠ some ⟨2672, 29, 1⟩ ∧
        (g < packet_id_size →
          (⟨g, 12⟩ : packet_state) ∈ s'.d_packet_state_list ∧
          s'.d_packet.getD g [] = [⟨1344, 3 * g, 1⟩, ⟨2672, 29, 1⟩]) ∧
        (packet_id_size ≤ g → s'.d_packet.getD g [] = []) := by
  refine ⟨by decide!, by decide!, st_forty_one g pool_after, forty_open_step g pool_after,
    ?_, ?_, ?_, forty_one_packet_high g pool_after⟩
  · show (⟨g, 95⟩ : packet_state) ∈ (List.range packet_id_size).map
      (fun j => (⟨j, 12⟩ : packet_state)) ++ [⟨g, 95⟩]
    simp
  · by_cases hg : g < packet_id_size
    · rw [forty_one_packet_low g pool_after hg]
      simp
    · rw [forty_one_packet_high g pool_after (not_lt.1 hg)]
      simp
  · intro hg
    refine ⟨?_, forty_one_packet_low g pool_after hg⟩
    show (⟨g, 12⟩ : packet_state) ∈ (List.range packet_id_size).map
      (fun j => (⟨j, 12⟩ : packet_state)) ++ [⟨g, 95⟩]
    simp only [List.mem_append, List.mem_map, List.mem_range]
    exact Or.inl ⟨g, hg, rfl⟩

/-- The tie of line 657 is a tie of the computed distance: with preamble height
`3/2`, the peaks `(1200, 20, 3/4)` and `(1200, 30, 3/4 - 2^-24)` have different
exact distances and the same `float` distance `9/8`, and the two orders of the
pair give the symbol vectors `[50]` and `[60]`. -/
theorem peak_dis_rounding_tie :
    peak_dis_exact cfg7 (3 / 2) ⟨1200, 20, 3 / 4⟩
        ≠ peak_dis_exact cfg7 (3 / 2) ⟨1200, 30, 3 / 4 - 1 / 16777216⟩ ∧
      peak_dis cfg7 0 (3 / 2) ⟨1200, 20, 3 / 4⟩ = XFloat.fin (9 / 8) ∧
      peak_dis cfg7 0 (3 / 2) ⟨1200, 30, 3 / 4 - 1 / 16777216⟩ = XFloat.fin (9 / 8) ∧
      grid_walk cfg7 10 (3 / 2)
          [⟨0, 10, 3 / 2⟩, ⟨1200, 20, 3 / 4⟩, ⟨1200, 30, 3 / 4 - 1 / 16777216⟩] = [50] ∧
      grid_walk cfg7 10 (3 / 2)
          [⟨0, 10, 3 / 2⟩, ⟨1200, 30, 3 / 4 - 1 / 16777216⟩, ⟨1200, 20, 3 / 4⟩] = [60] := by
  refine ⟨by decide!, by decide!, by decide!, by decide!, by decide!⟩

end PyramidDemod
